import Mathlib

/-!
# MPPJ: multi-party private join

A shallow embedding of the Go package `mppj` (group.go, encryption.go, prf.go,
table.go, party_datasource.go, party_helper.go, party_receiver.go, api/messages.go)
and proofs of properties of that code.

Conventions of the embedding.

* A Go byte is a `Fin 256`; a `[]byte` and a Go `string` are `List Byte`.
* A `*big.Int` is a `Nat` (all big integers that occur are non-negative).
* The sources of randomness (`RandomScalar`, `RandomPoint`, `rand.Perm`) and the
  scheduling of goroutines are explicit arguments.
* A Go function returning `(T, error)` returns `Except Fault T`; a Go panic,
  `log.Fatalf` and a goroutine deadlock are the other constructors of `Fault`.
* The external libraries (the circl P-256 group, `crypto/hkdf`, `crypto/aes` in CTR
  mode) are interfaces: the classes `CurveGroup` and `SymLib` list the operations the
  code calls together with the laws of those operations that the proofs rely on.
-/

namespace MPPJ

/-! ## Bytes and big integers -/

abbrev Byte := Fin 256

abbrev Bytes := List Byte

/-- Outcomes of a Go call other than a normal return. -/
inductive Fault where
  | error (msg : String)
  | panic (msg : String)
  | fatal (msg : String)
  | deadlock
  deriving DecidableEq, Repr

instance exceptDecEq {ε α : Type} [DecidableEq ε] [DecidableEq α] : DecidableEq (Except ε α)
  | .ok a, .ok b =>
    if h : a = b then isTrue (by rw [h]) else isFalse (fun h1 => h (Except.ok.inj h1))
  | .error a, .error b =>
    if h : a = b then isTrue (by rw [h]) else isFalse (fun h1 => h (Except.error.inj h1))
  | .ok _, .error _ => isFalse (fun h => Except.noConfusion h)
  | .error _, .ok _ => isFalse (fun h => Except.noConfusion h)

/-- Big-endian value of a byte string, as computed by `new(big.Int).SetBytes`. -/
def bytesToNat (bs : Bytes) : Nat :=
  bs.foldl (fun acc b => acc * 256 + b.val) 0

/-- Worker of `natBytes`: prepends the base-256 digits of `x` to `acc`. -/
def natBytesAux : Nat → Nat → Bytes → Bytes
  | 0, _, acc => acc
  | fuel + 1, x, acc =>
    if x = 0 then acc else natBytesAux fuel (x / 256) (Fin.ofNat (x % 256) :: acc)

/-- Minimal big-endian bytes of a big integer, as returned by `(*big.Int).Bytes`
(the empty slice for zero). -/
def natBytes (x : Nat) : Bytes :=
  natBytesAux x x []

/-- Fixed-width big-endian bytes, as written by `(*big.Int).FillBytes` into a buffer
of `len` bytes (the callers establish that the value fits). -/
def fillBytes : Nat → Nat → Bytes
  | 0, _ => []
  | len + 1, x => fillBytes len (x / 256) ++ [Fin.ofNat (x % 256)]

/-- The Go conversion `byte(n)` of an int: the low eight bits. -/
def byteOfNat (n : Nat) : Byte := Fin.ofNat (n % 256)

/-! ## encryption.go: constants and padding -/

def KEYSIZE : Nat := 16

def PAYLOADSIZE : Nat := 30

/-- Model of `pad`: appends `padding` copies of `byte(padding)`. -/
def pad (data : Bytes) (blockSize : Nat) : Bytes :=
  let padding := blockSize - data.length % blockSize
  let padding := if padding = 0 then blockSize else padding
  data ++ List.replicate padding (byteOfNat padding)

/-- Model of `unpad`. -/
def unpad (data : Bytes) : Except Fault Bytes :=
  match data.getLast? with
  | none => .error (.error "invalid padding size, empty data")
  | some last =>
    let padding := last.val
    if padding > data.length ∨ padding = 0 then
      .error (.error "invalid padding size")
    else if (data.drop (data.length - padding)).all (fun v => v.val = padding) then
      .ok (data.take (data.length - padding))
    else
      .error (.error "invalid padding")

/-! ## The curve `elliptic.P256()` -/

/-- The field prime `curve.Params().P` of P-256. -/
def curveP : Nat := 0xffffffff00000001000000000000000000000000ffffffffffffffffffffffff

/-- The coefficient `curve.Params().B` of P-256. -/
def curveB : Nat := 0x5ac635d8aa3a93e7b3ebbd55769886bc651d06b0cc53b0f63bce3c3e27d2604b

/-- Square-and-multiply worker of `powMod`: `acc * base ^ e mod m`. -/
def powModAux : Nat → Nat → Nat → Nat → Nat → Nat
  | 0, _, _, _, acc => acc
  | fuel + 1, base, e, m, acc =>
    if e = 0 then acc
    else powModAux fuel (base * base % m) (e / 2) m (if e % 2 = 1 then acc * base % m else acc)

/-- Modular exponentiation `base ^ e mod m`. -/
def powMod (base e m : Nat) : Nat := powModAux e (base % m) e m (1 % m)

/-- Model of `(*big.Int).ModSqrt(x, p)` for a prime `p` with `p % 4 = 3`, the case of
P-256: `none` (Go nil) when `x` is not a square mod `p` (Jacobi symbol -1, computed
here by Euler's criterion), `0` when `p` divides `x`, and `x ^ ((p+1)/4) mod p`
otherwise. -/
def ModSqrt (x p : Nat) : Option Nat :=
  let x := x % p
  if x = 0 then some 0
  else if powMod x ((p - 1) / 2) p = 1 then some (powMod x ((p + 1) / 4) p)
  else none

/-- The right-hand side `x^3 - 3x + b mod P` of the curve equation, computed as in
`NewMessageFromBytes` (adapted from `elliptic.polynomial`). -/
def polynomial (x : Nat) : Nat :=
  let x3 : Int := (x : Int) * x * x
  let threeX : Int := ((x <<< 1 : Nat) : Int) + x
  Int.toNat ((x3 - threeX + curveB) % curveP)

/-- Test `curve.IsOnCurve(x, y)` for P-256: both coordinates fit in 256 bits, are
reduced mod `P`, and satisfy the curve equation. -/
def IsOnCurve (x y : Nat) : Bool :=
  decide (x < curveP) && decide (y < curveP) && decide (y * y % curveP = polynomial x)

/-! ## group.go: the prime-order group -/

/-- Interface of the external group `circl/group.P256` as used by group.go, in the
multiplicative notation of the source: the group law (`Add`, `Neg`, `Identity`), the
order of the scalar field, the generator, hash-to-curve and the point encodings,
with the laws of these operations used below. -/
class CurveGroup (G : Type) extends CommGroup G where
  /-- Order of the scalar field. -/
  order : ℕ
  order_pos : 0 < order
  /-- Every element of the prime-order group is killed by the order. -/
  pow_order : ∀ P : G, P ^ order = 1
  /-- Result of `group.Generator()`. -/
  generator : G
  /-- Result of `group.HashToElement(msg, dst)`. -/
  hashToElement : Bytes → Bytes → G
  /-- Result of `Element.MarshalBinaryCompress` (it returns no error). -/
  marshalBinaryCompress : G → Bytes
  /-- Result of `Element.UnmarshalBinary`; `none` is its error. -/
  unmarshalBinary : Bytes → Option G
  /-- A non-identity element is encoded in `CompressedElementLength` = 33 bytes. -/
  marshal_length : ∀ P : G, P ≠ 1 → (marshalBinaryCompress P).length = 33
  /-- The compressed encoding decodes to the element it encodes. -/
  unmarshal_marshal : ∀ P : G, unmarshalBinary (marshalBinaryCompress P) = some P
  /-- The 65-byte uncompressed encoding `0x04 || X || Y` of a point of the curve
  decodes, and the element re-encodes to the compressed form `(0x02 | y&1) || X`. -/
  unmarshal_uncompressed : ∀ x y : ℕ, IsOnCurve x y = true →
    ∃ Q : G, unmarshalBinary ((4 : Byte) :: (fillBytes 32 x ++ fillBytes 32 y)) = some Q ∧
      marshalBinaryCompress Q = byteOfNat (2 + y % 2) :: fillBytes 32 x

variable {G : Type} [CurveGroup G]

instance CurveGroup.order_neZero : NeZero (CurveGroup.order G) :=
  ⟨Nat.pos_iff_ne_zero.mp CurveGroup.order_pos⟩

/-- Scalar represents a scalar value modulo the curve order. -/
abbrev Scalar (G : Type) [CurveGroup G] : Type := ZMod (CurveGroup.order G)

/-- Model of `Point.MarshalBinary`. -/
def Point.MarshalBinary (p : G) : Bytes := CurveGroup.marshalBinaryCompress p

/-- Model of `Point.UnmarshalBinary`. -/
def Point.UnmarshalBinary (data : Bytes) : Option G := CurveGroup.unmarshalBinary data

/-- Model of `NewPoint`: `group.NewElement()` is the identity. -/
def NewPoint : G := 1

/-- Model of `Gen`. -/
def Gen : G := CurveGroup.generator

/-- Model of `Identity`. -/
def Identity : G := 1

/-- Model of `Mul`, the group operation. -/
def Mul (a b : G) : G := a * b

/-- Model of `MulBatched`. -/
def MulBatched : List G → G
  | [] => NewPoint
  | p :: ps => ps.foldl Mul p

/-- Model of `Point.ScalarExp`. -/
def ScalarExp (a : G) (b : Scalar G) : G := a ^ b.val

/-- Model of `BaseExp`. -/
def BaseExp (s : Scalar G) : G := ScalarExp Gen s

/-- Model of `Point.Invert`. -/
def Point.Invert (a : G) : G := a⁻¹

/-- Model of `NewScalar`. -/
def NewScalar (value : ℕ) : Scalar G := (value : ZMod (CurveGroup.order G))

/-- Model of `Scalar.Add`. -/
def Scalar.Add (a b : Scalar G) : Scalar G := a + b

/-- Model of `Scalar.Mul`. -/
def Scalar.Mul (a b : Scalar G) : Scalar G := a * b

/-- Model of `Scalar.Neg`. -/
def Scalar.Neg (a : Scalar G) : Scalar G := -a

/-- Model of `RandomPoint`, from the sampled scalar. -/
def RandomPoint (s : Scalar G) : G := ScalarExp Gen s

/-- Model of `HashToPoint`. -/
def HashToPoint (msg sid : Bytes) : G :=
  CurveGroup.hashToElement msg ("hash_to_element".toUTF8.toList.map (fun b => Fin.ofNat b.toNat) ++ sid)

/-! ## encryption.go: PKE -/

/-- Message represents a message point on the elliptic curve. -/
structure Message (G : Type) where
  m : G
  deriving DecidableEq

/-- Ciphertext represents an ElGamal ciphertext: `c0 = g^r`, `c1 = m * pk^r`. -/
structure Ciphertext (G : Type) where
  c0 : G
  c1 : G
  deriving DecidableEq

abbrev PublicKey (G : Type) [CurveGroup G] : Type := G

abbrev SecretKey (G : Type) [CurveGroup G] : Type := Scalar G

structure SecretKeyTuple (G : Type) [CurveGroup G] where
  bsk : SecretKey G
  esk : SecretKey G

structure PublicKeyTuple (G : Type) [CurveGroup G] where
  bpk : PublicKey G
  epk : PublicKey G

/-- Model of `PKEEncrypt`; `r` is the scalar drawn by `RandomScalar`. -/
def PKEEncrypt (pk : PublicKey G) (msg : Message G) (r : Scalar G) : Ciphertext G :=
  { c0 := BaseExp r, c1 := Mul msg.m (ScalarExp pk r) }

/-- Model of `PKEDecrypt`. -/
def PKEDecrypt (sk : SecretKey G) (ciphertext : Ciphertext G) : Message G :=
  let s := ScalarExp ciphertext.c0 sk
  { m := Mul ciphertext.c1 s }

/-- Model of `ReRand`; `r` is the scalar drawn by `RandomScalar`. -/
def ReRand (pk : PublicKey G) (ciphertext : Ciphertext G) (r : Scalar G) : Ciphertext G :=
  { c0 := Mul ciphertext.c0 (BaseExp r), c1 := Mul ciphertext.c1 (ScalarExp pk r) }

/-- Model of `PKEKeyGen`; `sk` is the scalar drawn by `RandomScalar`.  The secret
key returned is the negated scalar. -/
def PKEKeyGen (sk : Scalar G) : SecretKey G × PublicKey G :=
  (Scalar.Neg sk, BaseExp sk)

/-- Model of `HashToMessage`. -/
def HashToMessage (msg sid : Bytes) : Message G := { m := HashToPoint msg sid }

/-! ## prf.go: the DH-OPRF -/

abbrev OPRFKey (G : Type) [CurveGroup G] : Type := Scalar G

/-- Model of `OPRFBlind`. -/
def OPRFBlind (bpk : PublicKey G) (msg sid : Bytes) (r : Scalar G) : Ciphertext G :=
  let hmsg : Message G := HashToMessage msg sid
  PKEEncrypt bpk hmsg r

/-- Model of `OPRFUnblind`. -/
def OPRFUnblind (bsk : SecretKey G) (ciphertext : Ciphertext G) : Message G :=
  PKEDecrypt bsk ciphertext

/-- Model of `OPRFEval`; `r` is the scalar drawn inside `ReRand`. -/
def OPRFEval (key : OPRFKey G) (bpk : PublicKey G) (ciphertext : Ciphertext G) (r : Scalar G) :
    Ciphertext G :=
  let c0 := ScalarExp ciphertext.c0 key
  let c1 := ScalarExp ciphertext.c1 key
  ReRand bpk { c0 := c0, c1 := c1 } r

/-! ## encryption.go: message embedding -/

/-- The loop of `NewMessageFromBytes`: `i` is the trial counter and `msgInt` the
current candidate x-coordinate; returns the candidate and its square root `y`.
The loop is entered with `i = 1` and `fuel = 255`, so the fuel never runs out
before the exit `i == 255`. -/
def embedLoop : Nat → Nat → Nat → Except Fault (Nat × Nat)
  | 0, _, _ => .error (.panic "unreachable")
  | fuel + 1, i, msgInt =>
    match ModSqrt (polynomial msgInt) curveP with
    | some y => .ok (msgInt, y)
    | none =>
      if i = 255 then .error (.error "Failed to find a valid message point")
      else embedLoop fuel (i + 1) (msgInt + 1)

/-- Model of `elliptic.Marshal(curve, x, y)`: panics unless the point is on the
curve (or is the pair (0, 0)), otherwise `0x04 || X || Y`. -/
def ellipticMarshal (x y : Nat) : Except Fault Bytes :=
  if (x = 0 ∧ y = 0) ∨ IsOnCurve x y = true then
    .ok ((4 : Byte) :: (fillBytes 32 x ++ fillBytes 32 y))
  else .error (.panic "crypto/elliptic: attempted operation on invalid point")

/-- Model of `NewMessageFromBytes`. -/
def NewMessageFromBytes (msgBytesin : Bytes) : Except Fault (Message G) :=
  if msgBytesin.length = 0 then .error (.error "Empty message unsupported")
  else
    let msgBytes := msgBytesin ++ [(2 : Byte)]
    let msgBytes := (4 : Byte) :: msgBytes
    let msgInt := bytesToNat msgBytes
    match embedLoop 255 1 msgInt with
    | .error e => .error e
    | .ok (msgInt, y) =>
      match ellipticMarshal msgInt y with
      | .error e => .error e
      | .ok pointBytes =>
        match (Point.UnmarshalBinary pointBytes : Option G) with
        | none => .error (.error "invalid point")
        | some result => .ok { m := result }

/-- Model of `elliptic.UnmarshalCompressed(curve, data)` for P-256, keeping the
x-coordinate only: `none` (Go nil) unless `data` is `0x02` or `0x03` followed by the
32 bytes of a reduced x-coordinate of a point of the curve. -/
def UnmarshalCompressed (data : Bytes) : Option Nat :=
  match data with
  | [] => none
  | b :: rest =>
    if (b = 2 ∨ b = 3) ∧ rest.length = 32 then
      let x := bytesToNat rest
      if x < curveP then
        match ModSqrt (polynomial x) curveP with
        | none => none
        | some _ => some x
      else none
    else none

/-- Model of `Message.GetMessageBytes`; the slice expression
`msgBytes[1 : len(msgBytes)-1]` panics when fewer than two bytes are left. -/
def Message.GetMessageBytes (msg : Message G) : Except Fault Bytes :=
  let serialized := Point.MarshalBinary msg.m
  match UnmarshalCompressed serialized with
  | none => .error (.error "failed to unmarshal message point")
  | some x =>
    let msgBytes := natBytes x
    if msgBytes.length < 2 then .error (.panic "slice bounds out of range")
    else .ok ((msgBytes.take (msgBytes.length - 1)).drop 1)

/-! ## encryption.go: vector mode -/

/-- The consecutive `PAYLOADSIZE`-byte slices `msg_padded[i:i+PAYLOADSIZE]` visited
by the loop of `PKEEncryptVector`; `fuel` bounds the number of slices. -/
def chunks : Nat → Bytes → List Bytes
  | 0, _ => []
  | fuel + 1, data =>
    if data.length = 0 then [] else data.take PAYLOADSIZE :: chunks fuel (data.drop PAYLOADSIZE)

/-- The body of the loop of `PKEEncryptVector` over the chunks from index `idx` on;
`r idx` is the scalar drawn by `PKEEncrypt` for chunk `idx`. -/
def encryptChunks (pk : PublicKey G) (r : Nat → Scalar G) :
    Nat → List Bytes → Except Fault (List (Ciphertext G))
  | _, [] => .ok []
  | idx, chunk :: rest =>
    match (NewMessageFromBytes chunk : Except Fault (Message G)) with
    | .error e => .error e
    | .ok msg =>
      match encryptChunks pk r (idx + 1) rest with
      | .error e => .error e
      | .ok cts => .ok (PKEEncrypt pk msg (r idx) :: cts)

/-- Model of `PKEEncryptVector`. -/
def PKEEncryptVector (pk : PublicKey G) (msg : Bytes) (r : Nat → Scalar G) :
    Except Fault (List (Ciphertext G)) :=
  let msg_padded := pad msg PAYLOADSIZE
  encryptChunks pk r 0 (chunks msg_padded.length msg_padded)

/-- A goroutine of `PKEDecryptVector` ended in a panic (not in an error sent on
`errCh`). -/
def isPanicResult : Except Fault Bytes → Bool
  | .error (.error _) => false
  | .error _ => true
  | .ok _ => false

/-- The decoded chunks in index order, or the first error. -/
def collectOk : List (Except Fault Bytes) → Except Fault (List Bytes)
  | [] => .ok []
  | .error e :: _ => .error e
  | .ok b :: rs =>
    match collectOk rs with
    | .error e => .error e
    | .ok bs => .ok (b :: bs)

/-- Joins the results of the goroutines of `PKEDecryptVector`: a panic in a
goroutine ends the program, otherwise an error sent on `errCh` is returned,
otherwise the decoded chunks in index order. -/
def collectResults (rs : List (Except Fault Bytes)) : Except Fault (List Bytes) :=
  match rs.find? isPanicResult with
  | some (.error e) => .error e
  | _ => collectOk rs

/-- Model of `PKEDecryptVector`. -/
def PKEDecryptVector (sk : SecretKey G) (ciphertexts : List (Ciphertext G)) :
    Except Fault Bytes :=
  match collectResults (ciphertexts.map (fun ct => (PKEDecrypt sk ct).GetMessageBytes)) with
  | .error e => .error e
  | .ok msgByteshelper => unpad msgByteshelper.flatten

/-- Model of `ReRandVector`; `r i` is the scalar drawn by `ReRand` for index `i`. -/
def ReRandVector (pk : PublicKey G) (ciphertexts : List (Ciphertext G)) (r : Nat → Scalar G) :
    List (Ciphertext G) :=
  ciphertexts.enum.map (fun ict => ReRand pk ict.2 (r ict.1))

/-- Model of `Ciphertext.Serialize`. -/
def Ciphertext.Serialize (ct : Ciphertext G) : Bytes :=
  Point.MarshalBinary ct.c0 ++ Point.MarshalBinary ct.c1

/-- Model of `SerializeCiphertexts`. -/
def SerializeCiphertexts (cts : List (Ciphertext G)) : Bytes :=
  cts.foldl (fun serialized ct => serialized ++ ct.Serialize) []

/-- Model of `DeserializeCiphertext`. -/
def DeserializeCiphertext (data : Bytes) : Except Fault (Ciphertext G) :=
  let byteLen := 33
  let pointLen := 2 * byteLen
  if data.length ≠ pointLen then
    .error (.error "invalid byte slice length for deserialization")
  else
    match (Point.UnmarshalBinary (data.take byteLen) : Option G) with
    | none => .error (.error "invalid point")
    | some c0 =>
      match (Point.UnmarshalBinary (data.drop byteLen) : Option G) with
      | none => .error (.error "invalid point")
      | some c1 => .ok { c0 := c0, c1 := c1 }

/-- The loop of `DeserializeCiphertexts` over `data[i:]`; `fuel` bounds the number
of iterations. -/
def deserializeLoop : Nat → Bytes → Except Fault (List (Ciphertext G))
  | 0, _ => .ok []
  | fuel + 1, data =>
    if data.length = 0 then .ok []
    else
      match (DeserializeCiphertext (data.take 66) : Except Fault (Ciphertext G)) with
      | .error e => .error e
      | .ok ciphertext =>
        match deserializeLoop fuel (data.drop 66) with
        | .error e => .error e
        | .ok ciphertexts => .ok (ciphertext :: ciphertexts)

/-- Model of `DeserializeCiphertexts`. -/
def DeserializeCiphertexts (data : Bytes) : Except Fault (List (Ciphertext G)) :=
  let byteLen := 33
  let ciphertextlen := 2 * byteLen
  if data.length % ciphertextlen ≠ 0 then
    .error (.error "invalid byte slice length for deserialization of array")
  else deserializeLoop data.length data

/-- Model of `Ciphertext.Equals` on two non-nil ciphertexts: both points are equal
(`Point.Equals` is `IsEqual` of the group). -/
def Ciphertext.Equals (ct other : Ciphertext G) : Prop :=
  ct.c0 = other.c0 ∧ ct.c1 = other.c1

/-! ## encryption.go: the symmetric layer -/

/-- Interface of the symmetric primitives of the Go standard library used by
encryption.go: `hkdf.Key(sha256.New, secret, salt, info, keyLength)` and the key
stream of AES in counter mode started at `ZeroNonce`. -/
class SymLib where
  /-- Output of `hkdf.Key` with SHA-256. -/
  hkdfKey : Bytes → Bytes → String → Nat → Bytes
  /-- The first `n` bytes of the AES-CTR key stream under `key` and the zero nonce. -/
  keyStream : Bytes → Nat → Bytes
  hkdfKey_length : ∀ secret salt info n, n ≤ 255 * 32 → (hkdfKey secret salt info n).length = n
  keyStream_length : ∀ key n, (keyStream key n).length = n

/-- Model of `KeyFromPoint`. -/
def KeyFromPoint [SymLib] (rp : G) (sid : Bytes) : Bytes :=
  SymLib.hkdfKey (Point.MarshalBinary rp) sid "ephemeral associated data val key" KEYSIZE

/-- Model of `RandomKeyFromPoint`; `s` is the scalar sampled by `RandomPoint`. -/
def RandomKeyFromPoint [SymLib] (sid : Bytes) (s : Scalar G) : G × Bytes :=
  let rp : G := RandomPoint s
  (rp, KeyFromPoint rp sid)

/-- Model of `ctr`: `aes.NewCipher` rejects keys that are not 16, 24 or 32 bytes
long; `XORKeyStream` xors the input with the key stream. -/
def ctr [SymLib] (key plaintext : Bytes) : Except Fault Bytes :=
  if key.length = 16 ∨ key.length = 24 ∨ key.length = 32 then
    .ok (List.zipWith (fun a b => a ^^^ b) plaintext (SymLib.keyStream key plaintext.length))
  else .error (.error "crypto/aes: invalid key size")

/-- Model of `SymmetricEncrypt`. -/
def SymmetricEncrypt [SymLib] (key plaintext : Bytes) : Except Fault Bytes := ctr key plaintext

/-- Model of `SymmetricDecrypt`. -/
def SymmetricDecrypt [SymLib] (key ciphertext : Bytes) : Except Fault Bytes := ctr key ciphertext

/-! ## Go maps and scheduling -/

/-- A Go `map[K]V` is the list of its entries, keys pairwise distinct; `mapSet` is
the assignment `m[k] = v`: it replaces the entry of `k` or adds one. -/
def mapSet {K V : Type} [DecidableEq K] : List (K × V) → K → V → List (K × V)
  | [], k, v => [(k, v)]
  | e :: m, k, v => if e.1 = k then (k, v) :: m else e :: mapSet m k v

/-- The map read `m[k]`, `none` when the key is absent (Go then yields the zero
value of `V`). -/
def mapGet {K V : Type} [DecidableEq K] (m : List (K × V)) (k : K) : Option V :=
  (m.find? (fun e => decide (e.1 = k))).map (fun e => e.2)

/-- The elements of `l` in the order `order` of their indices.  The order in which
a `range` over a Go map visits its entries, the order drawn by `rand.Perm`, and the
order in which concurrent workers deliver their results are such index lists,
permutations of `0, ..., len(l) - 1`. -/
def reorder {α : Type} (order : List Nat) (l : List α) : List α :=
  order.filterMap (fun i => l[i]?)

/-- The index list `order` is a permutation of `0, ..., n - 1`. -/
def IsOrder (order : List Nat) (n : Nat) : Prop := List.Perm order (List.range n)

/-! ## table.go -/

/-- SourceID is a Go string. -/
abbrev SourceID := Bytes

/-- TablePlain is `map[string]string`: the list of its `(uid, value)` entries. -/
abbrev TablePlain := List (Bytes × Bytes)

structure EncRow (G : Type) where
  Cuid : Ciphertext G
  Cval : List (Ciphertext G)

abbrev EncTable (G : Type) := List (EncRow G)

structure EncRowWithHint (G : Type) where
  Cnyme : Ciphertext G
  CVal : Bytes
  CValKey : Ciphertext G
  CHint : Ciphertext G

/-- EncTableWithHint is a slice of `EncRowWithHint`; `none` is the zero value of
the struct (its ciphertexts hold nil points), found in the slots that
`ConvertTablesStream` did not write. -/
abbrev EncTableWithHint (G : Type) := List (Option (EncRowWithHint G))

structure JoinTable where
  sourceids : List SourceID
  values : List (List Bytes)
  deriving DecidableEq

/-- Model of `JoinTable.Len`. -/
def JoinTable.Len (t : JoinTable) : Nat := t.values.length

/-- Model of `NewJoinTable`. -/
def NewJoinTable (sourceIDs : List SourceID) : JoinTable :=
  { sourceids := sourceIDs, values := [] }

/-- The loop of `JoinTable.Insert` that fills `row` from the entries of `values`;
`col` is `slices.Index(t.sourceids, sourceID)`, with `len(t.sourceids)` for -1. -/
def insertRow (sourceids : List SourceID) : List (SourceID × Bytes) → List Bytes →
    Except Fault (List Bytes)
  | [], row => .ok row
  | (sourceID, value) :: rest, row =>
    let col := @List.indexOf SourceID instBEqOfDecidableEq sourceID sourceids
    if col = sourceids.length then .error (.error "source ID not found")
    else insertRow sourceids rest (row.set col value)

/-- Model of `JoinTable.Insert`: the table with the new row, or the error. -/
def JoinTable.Insert (t : JoinTable) (values : List (SourceID × Bytes)) : Except Fault JoinTable :=
  match insertRow t.sourceids values (List.replicate t.sourceids.length []) with
  | .error e => .error e
  | .ok row => .ok { t with values := t.values ++ [row] }

/-- The grouping loop of `IntersectSimple`: `partJoin[uid][sourceID] = val` for
every row of every table. -/
def partJoinLoop (tables : List (SourceID × TablePlain)) : List (Bytes × List (SourceID × Bytes)) :=
  tables.foldl (fun partJoin st =>
    st.2.foldl (fun partJoin row =>
      let inner := (mapGet partJoin row.1).getD []
      mapSet partJoin row.1 (mapSet inner st.1 row.2)) partJoin) []

/-- The body of the last loop of `IntersectSimple` for one uid; the error of
`Insert` is ignored by the source. -/
def intersectSimpleStep (n : Nat) (joined : JoinTable) (uv : Bytes × List (SourceID × Bytes)) :
    JoinTable :=
  if uv.2.length = n then
    match joined.Insert uv.2 with
    | .ok t => t
    | .error _ => joined
  else joined

/-- Model of `IntersectSimple`; `order` is the order in which the `range` over
`partJoin` visits the uids. -/
def IntersectSimple (tables : List (SourceID × TablePlain)) (sources : List SourceID)
    (order : List Nat) : JoinTable :=
  (reorder order (partJoinLoop tables)).foldl (intersectSimpleStep tables.length)
    (NewJoinTable sources)

/-- Model of `EncRow.MarshalBinary`: more than one value ciphertext is an error;
`er.Cval[0]` panics on an empty `Cval`. -/
def EncRow.MarshalBinary (er : EncRow G) : Except Fault Bytes :=
  let cuidBytes := er.Cuid.Serialize
  if er.Cval.length > 1 then .error (.error "multiple ciphertext values not supported")
  else
    match er.Cval with
    | [] => .error (.panic "index out of range [0] with length 0")
    | cval0 :: _ => .ok (cuidBytes ++ cval0.Serialize)

/-- The loop of `EqualContents` over the indices of `t1.sourceids`; reading
`t2.sourceids` beyond its length panics. -/
def sameSourceIDs : List SourceID → List SourceID → Except Fault Bool
  | [], _ => .ok true
  | _ :: _, [] => .error (.panic "index out of range")
  | a :: as, b :: bs => if a ≠ b then .ok false else sameSourceIDs as bs

/-- Model of `JoinTable.EqualContents`: `t1Vals` is the set of the keys
`strings.Join(row, "|")` of the rows of `t1`. -/
def JoinTable.EqualContents (t1 t2 : JoinTable) : Except Fault Bool :=
  if t1.Len ≠ t2.Len then .ok false
  else
    match sameSourceIDs t1.sourceids t2.sourceids with
    | .error e => .error e
    | .ok false => .ok false
    | .ok true =>
      let t1Vals : List (Bytes × Unit) :=
        t1.values.foldl (fun m row => mapSet m (List.intercalate [124] row) ()) []
      .ok (t2.values.all (fun row => (mapGet t1Vals (List.intercalate [124] row)).isSome))

/-! ## api/messages.go: wire framing of `EncRow` -/

/-- Model of the Go builtin `copy(dst, src)`: the contents of `dst` afterwards. -/
def goCopy (dst src : Bytes) : Bytes := src.take dst.length ++ dst.drop src.length

def ctLen : Nat := 2 * 33

/-- Model of `GetEncRowMsg`: the `Data` of the message.  `er.Cval[0]` panics on an
empty `Cval`. -/
def GetEncRowMsg (er : EncRow G) : Except Fault Bytes :=
  let CuidBytes := er.Cuid.Serialize
  match er.Cval with
  | [] => .error (.panic "index out of range [0] with length 0")
  | cval0 :: _ =>
    let CvalBytes := cval0.Serialize
    .ok (goCopy (List.replicate ctLen 0) CuidBytes ++ goCopy (List.replicate ctLen 0) CvalBytes)

/-- Model of `GetEncRowFromMsg` on the `Data` of a message (a slice whose capacity
is its length): the slice expression `Data[:ctLen]` panics when fewer than `ctLen`
bytes are present, and `Data[ctLen:2*ctLen]`, evaluated after the first ciphertext
is decoded, when fewer than `2*ctLen` are. -/
def GetEncRowFromMsg (data : Bytes) : Except Fault (EncRow G) :=
  if data.length < ctLen then .error (.panic "slice bounds out of range")
  else
    match (DeserializeCiphertext (data.take ctLen) : Except Fault (Ciphertext G)) with
    | .error e => .error e
    | .ok cuid =>
      if data.length < 2 * ctLen then .error (.panic "slice bounds out of range")
      else
        match (DeserializeCiphertext ((data.take (2 * ctLen)).drop ctLen) :
            Except Fault (Ciphertext G)) with
        | .error e => .error e
        | .ok cval => .ok { Cuid := cuid, Cval := [cval] }

/-! ## party_datasource.go -/

structure DataSource (G : Type) [CurveGroup G] where
  sid : Bytes
  rpk : PublicKeyTuple G

/-- Model of `NewDataSource`. -/
def NewDataSource (sid : Bytes) (rpk : PublicKeyTuple G) : DataSource G :=
  { sid := sid, rpk := rpk }

/-- The scalars drawn by one call of `ProcessRow`: by `OPRFBlind`, and by
`PKEEncryptVector` for each chunk. -/
structure RowRand (G : Type) [CurveGroup G] where
  blind : Scalar G
  enc : Nat → Scalar G

/-- Model of `DataSource.ProcessRow`. -/
def DataSource.ProcessRow (s : DataSource G) (uid val : Bytes) (rnd : RowRand G) :
    Except Fault (EncRow G) :=
  let cuid := OPRFBlind s.rpk.bpk uid s.sid rnd.blind
  match PKEEncryptVector s.rpk.epk val rnd.enc with
  | .error e => .error e
  | .ok cval => .ok { Cuid := cuid, Cval := cval }

/-- The rows sent on the output channel of `PrepareStream` when every `ProcessRow`
succeeds; `none` when one fails.  `idx` numbers the rows in the order of
processing. -/
def processRows (s : DataSource G) (rnd : Nat → RowRand G) :
    Nat → List (Bytes × Bytes) → Option (List (EncRow G))
  | _, [] => some []
  | idx, (uid, val) :: rest =>
    match s.ProcessRow uid val (rnd idx) with
    | .error _ => none
    | .ok row =>
      match processRows s rnd (idx + 1) rest with
      | none => none
      | some rows => some (row :: rows)

/-- Model of `DataSource.PrepareStream` as seen by a consumer that ranges over the
returned channel: the rows received when the channel is closed.  `order` is the
order in which the rows of the table are processed (map iteration, `rand.Perm`
and the interleaving of the workers).  A worker whose `ProcessRow` fails returns
without `wg.Done()`, so `wg.Wait()` never returns, the channel is never closed and
the consumer blocks: `Fault.deadlock`.  The parameter `rpk` is unused, as in the
source. -/
def DataSource.PrepareStream (s : DataSource G) (_rpk : PublicKeyTuple G) (table : TablePlain)
    (order : List Nat) (rnd : Nat → RowRand G) : Except Fault (List (EncRow G)) :=
  match processRows s rnd 0 (reorder order table) with
  | none => .error .deadlock
  | some rows => .ok rows

/-- Model of `DataSource.Prepare`. -/
def DataSource.Prepare (s : DataSource G) (rpk : PublicKeyTuple G) (table : TablePlain)
    (order : List Nat) (rnd : Nat → RowRand G) : Except Fault (EncTable G) :=
  match s.PrepareStream rpk table order rnd with
  | .error e => .error e
  | .ok encRows =>
    if encRows.length ≠ table.length then
      .error (.error "number of prepared elements do not match")
    else .ok encRows

/-! ## party_helper.go -/

/-- The sum computed by the loop of `Helper.genNonces`. -/
def nonceSum (nonces : List (Scalar G)) : Scalar G :=
  nonces.foldl Scalar.Add (NewScalar 0)

structure Helper (G : Type) [CurveGroup G] where
  sid : Bytes
  sourceIndices : List (SourceID × Nat)
  convK : OPRFKey G
  /-- The slice `padKeyShares`; `none` is nil. -/
  padKeyShares : Option (List (Scalar G))
  /-- The pointer `padKey`; `none` is nil. -/
  padKey : Option (Scalar G)
  rowPerm : List Nat

/-- Model of `Helper.genNonces`; `nonce i` is the `i`-th scalar drawn. -/
def Helper.genNonces (h : Helper G) (tableAmount : Nat) (nonce : Nat → Scalar G) : Helper G :=
  let nonces := (List.range tableAmount).map nonce
  { h with padKeyShares := some nonces, padKey := some (nonceSum nonces) }

/-- Model of `NewHelper`; `k` is the key drawn by `resetKey`, `nonce` the scalars
drawn by `genNonces` and `perm` the result of `rand.Perm(nRows * len(sources))`. -/
def NewHelper (sid : Bytes) (sources : List SourceID) (_nRows : Nat) (k : Scalar G)
    (nonce : Nat → Scalar G) (perm : List Nat) : Helper G :=
  let c : Helper G :=
    { sid := sid
      sourceIndices := sources.enum.foldl (fun m isrc => mapSet m isrc.2 isrc.1) []
      convK := k, padKeyShares := none, padKey := none, rowPerm := [] }
  let c := c.genNonces sources.length nonce
  { c with rowPerm := perm }

/-- The randomness of one call of `ConvertRow`: the scalars of the three `OPRFEval`
(pseudonym, blinded key, hint), the scalar of `RandomPoint` and those of
`ReRandVector`. -/
structure ConvRand (G : Type) [CurveGroup G] where
  conv : Scalar G
  point : Scalar G
  rerand : Nat → Scalar G
  pad : Scalar G
  hint : Scalar G

/-- Model of `Helper.blindAndHint`. -/
def Helper.blindAndHint [SymLib] (h : Helper G) (rpk : PublicKeyTuple G) (joinid : Ciphertext G)
    (value : List (Ciphertext G)) (tindex : Nat) (rnd : ConvRand G) :
    Except Fault (Bytes × Ciphertext G × Ciphertext G) :=
  let rpkey : G × Bytes := RandomKeyFromPoint h.sid rnd.point
  let serialized := SerializeCiphertexts (ReRandVector rpk.epk value rnd.rerand)
  match SymmetricEncrypt rpkey.2 (byteOfNat tindex :: serialized) with
  | .error e => .error e
  | .ok ad =>
    match h.padKey, h.padKeyShares with
    | some padKey, some padKeyShares =>
      let blindkey := OPRFEval padKey rpk.bpk joinid rnd.pad
      let blindkey := { blindkey with c1 := Mul blindkey.c1 rpkey.1 }
      match padKeyShares[tindex]? with
      | none => .error (.panic "index out of range")
      | some share => .ok (ad, blindkey, OPRFEval share rpk.bpk joinid rnd.hint)
    | _, _ => .error (.panic "nil pointer dereference")

/-- A Go `panic(err)`: an error value becomes a panic. -/
def toPanic : Fault → Fault
  | .error msg => .panic msg
  | f => f

/-- Model of `Helper.ConvertRow`. -/
def Helper.ConvertRow [SymLib] (h : Helper G) (rpk : PublicKeyTuple G) (r : EncRow G) (rid : Nat)
    (rnd : ConvRand G) : Except Fault (EncRowWithHint G) :=
  let joinid := OPRFEval h.convK rpk.bpk r.Cuid rnd.conv
  match h.blindAndHint rpk joinid r.Cval rid rnd with
  | .error e => .error (toPanic e)
  | .ok (ad, blindedkey, hint) =>
    .ok { Cnyme := joinid, CVal := ad, CValKey := blindedkey, CHint := hint }

structure ConvertRowTask (G : Type) where
  EncRowMsg : EncRow G
  TableIndex : Nat

/-- The workers of `ConvertTablesStream` over the tasks in the order in which they
complete; the state is the output slice `res` and `permIndex`. -/
def convertLoop [SymLib] (h : Helper G) (rpk : PublicKeyTuple G) (rnd : Nat → ConvRand G) :
    List (ConvertRowTask G) → EncTableWithHint G → Nat → Except Fault (EncTableWithHint G)
  | [], res, _ => .ok res
  | encRow :: rest, res, permIndex =>
    match h.ConvertRow rpk encRow.EncRowMsg encRow.TableIndex (rnd permIndex) with
    | .error e => .error (toPanic e)
    | .ok convRow =>
      match h.rowPerm[permIndex]? with
      | none => .error (.panic "conversion received more rows than expected")
      | some slot =>
        if slot < res.length then
          convertLoop h rpk rnd rest (res.set slot (some convRow)) (permIndex + 1)
        else .error (.panic "index out of range")

/-- Model of `Helper.ConvertTablesStream`; `encRowsTasks` lists the tasks in the
order in which the workers complete them. -/
def Helper.ConvertTablesStream [SymLib] (h : Helper G) (rpk : PublicKeyTuple G)
    (encRowsTasks : List (ConvertRowTask G)) (rnd : Nat → ConvRand G) :
    Except Fault (EncTableWithHint G) :=
  if h.padKey.isNone ∨ h.padKeyShares.isNone then
    .error (.error "nonceerr, Nonces not generated. Please call GenNonces() before calling this function")
  else
    convertLoop h rpk rnd encRowsTasks (List.replicate h.rowPerm.length none) 0

/-- The tasks that `Helper.Convert` sends: every row of every table with the index
`h.sourceIndices[sourceID]` (the zero value 0 for an unknown source id). -/
def Helper.tasks (h : Helper G) (tables : List (SourceID × EncTable G)) : List (ConvertRowTask G) :=
  tables.flatMap (fun st =>
    st.2.map (fun row =>
      { EncRowMsg := { Cuid := row.Cuid, Cval := row.Cval }
        TableIndex := (mapGet h.sourceIndices st.1).getD 0 }))

/-- Model of `Helper.Convert`; `order` is the order in which the tasks complete. -/
def Helper.Convert [SymLib] (h : Helper G) (rpk : PublicKeyTuple G)
    (tables : List (SourceID × EncTable G)) (order : List Nat) (rnd : Nat → ConvRand G) :
    Except Fault (EncTableWithHint G) :=
  h.ConvertTablesStream rpk (reorder order (h.tasks tables)) rnd

/-! ## party_receiver.go -/

structure Receiver (G : Type) [CurveGroup G] where
  sid : Bytes
  sourceIDs : List SourceID
  recvSK : SecretKeyTuple G
  recvPK : PublicKeyTuple G

/-- Model of `NewReceiverWithKeys`. -/
def NewReceiverWithKeys (sid : Bytes) (sourceIDs : List SourceID) (rsk : SecretKeyTuple G)
    (rpk : PublicKeyTuple G) : Receiver G :=
  { sid := sid, sourceIDs := sourceIDs, recvSK := rsk, recvPK := rpk }

/-- Model of `NewReceiver`; `b` and `e` are the scalars drawn by the two calls of
`PKEKeyGen`. -/
def NewReceiver (sid : Bytes) (sourceIDs : List SourceID) (b e : Scalar G) : Receiver G :=
  let bk := PKEKeyGen b
  let ek := PKEKeyGen e
  NewReceiverWithKeys sid sourceIDs { bsk := bk.1, esk := ek.1 } { bpk := bk.2, epk := ek.2 }

/-- Model of `Receiver.GetPK`. -/
def Receiver.GetPK (r : Receiver G) : PublicKeyTuple G := r.recvPK

structure EncValueWithHint (G : Type) where
  val : Bytes
  blindedkey : Message G
  hint : Message G

/-- The second loop of `Receiver.decryptGroup`, filling the map `out`. -/
def decryptLoop [SymLib] (r : Receiver G) (invMask : G) :
    List (EncValueWithHint G) → List (SourceID × Bytes) → Except Fault (List (SourceID × Bytes))
  | [], out => .ok out
  | dge :: rest, out =>
    let keyp := Mul dge.blindedkey.m invMask
    let key := KeyFromPoint keyp r.sid
    match SymmetricDecrypt key dge.val with
    | .error e => .error (toPanic e)
    | .ok encAttridValBytes =>
      match encAttridValBytes with
      | [] => .error (.panic "incorrect encrypted attribute value")
      | first :: encValBytes =>
        let sourceIndex := first.val
        match r.sourceIDs[sourceIndex]? with
        | none => .error (.panic "invalid source index")
        | some sourceID =>
          match (DeserializeCiphertexts encValBytes : Except Fault (List (Ciphertext G))) with
          | .error e => .error (toPanic e)
          | .ok encVal =>
            match PKEDecryptVector r.recvSK.esk encVal with
            | .error e => .error (toPanic e)
            | .ok plantext_data => decryptLoop r invMask rest (mapSet out sourceID plantext_data)

/-- Model of `Receiver.decryptGroup`. -/
def Receiver.decryptGroup [SymLib] (r : Receiver G) (group : List (EncRowWithHint G)) :
    Except Fault (List (SourceID × Bytes)) :=
  let decGroup : List (EncValueWithHint G) := group.map (fun ge =>
    { val := ge.CVal
      blindedkey := OPRFUnblind r.recvSK.bsk ge.CValKey
      hint := OPRFUnblind r.recvSK.bsk ge.CHint })
  let mask : G := decGroup.foldl (fun mask dge => Mul mask dge.hint.m) Identity
  let invMask := Point.Invert mask
  decryptLoop r invMask decGroup []

/-- The slice `decGroup` built by the first loop of `Receiver.decryptGroup`. -/
def Receiver.decGroup (r : Receiver G) (group : List (EncRowWithHint G)) :
    List (EncValueWithHint G) :=
  group.map (fun ge =>
    { val := ge.CVal
      blindedkey := OPRFUnblind r.recvSK.bsk ge.CValKey
      hint := OPRFUnblind r.recvSK.bsk ge.CHint })

/-- The point `mask` computed by the second loop of `Receiver.decryptGroup`: the
product of the unblinded hints of the group. -/
def Receiver.groupMask (r : Receiver G) (group : List (EncRowWithHint G)) : G :=
  (r.decGroup group).foldl (fun mask dge => Mul mask dge.hint.m) Identity

/-- The body of the loop of `Receiver.intersectHint` for one bucket: a bucket with
as many rows as there are sources is decrypted and inserted; a failure is a panic. -/
def intersectStep [SymLib] (r : Receiver G) (acc : Except Fault JoinTable)
    (kg : Bytes × List (EncRowWithHint G)) : Except Fault JoinTable :=
  match acc with
  | .error e => .error e
  | .ok join =>
    if kg.2.length = r.sourceIDs.length then
      match r.decryptGroup kg.2 with
      | .error e => .error (toPanic e)
      | .ok vals =>
        match join.Insert vals with
        | .error e => .error (toPanic e)
        | .ok join => .ok join
    else .ok join

/-- Model of `Receiver.intersectHint`; `order` is the order in which the buckets of
`groups` are visited and their rows inserted. -/
def Receiver.intersectHint [SymLib] (r : Receiver G)
    (groups : List (Bytes × List (EncRowWithHint G))) (order : List Nat) : Except Fault JoinTable :=
  (reorder order groups).foldl (intersectStep r) (.ok (NewJoinTable r.sourceIDs))

/-- The workers of `JoinTablesStream`: each row is filed in `groups` under the
bytes of its unblinded pseudonym.  A zero-valued row makes `OPRFUnblind`
dereference a nil point; an error of `GetMessageBytes` ends in `log.Fatalf`. -/
def groupLoop (r : Receiver G) :
    List (Option (EncRowWithHint G)) → List (Bytes × List (EncRowWithHint G)) →
      Except Fault (List (Bytes × List (EncRowWithHint G)))
  | [], groups => .ok groups
  | none :: _, _ => .error (.panic "nil pointer dereference")
  | some ciphertexts :: rest, groups =>
    match (OPRFUnblind r.recvSK.bsk ciphertexts.Cnyme).GetMessageBytes with
    | .error (.error msg) => .error (.fatal msg)
    | .error e => .error e
    | .ok msgPRF =>
      groupLoop r rest (mapSet groups msgPRF ((mapGet groups msgPRF).getD [] ++ [ciphertexts]))

/-- Model of `Receiver.JoinTablesStream`; `arrival` is the order in which the
workers file the rows read from the channel and `order` the order in which the
buckets are decrypted and inserted.  `numTable` is unused, as in the source. -/
def Receiver.JoinTablesStream [SymLib] (r : Receiver G) (inRows : EncTableWithHint G)
    (_numTable : Nat) (arrival order : List Nat) : Except Fault JoinTable :=
  match groupLoop r (reorder arrival inRows) [] with
  | .error e => .error e
  | .ok groups => r.intersectHint groups order

/-- Model of `Receiver.JoinTables`. -/
def Receiver.JoinTables [SymLib] (r : Receiver G) (joinedTables : EncTableWithHint G)
    (tableAmount : Nat) (arrival order : List Nat) : Except Fault JoinTable :=
  r.JoinTablesStream joinedTables tableAmount arrival order

/-! ## mppj_test.go: a protocol run -/

/-- The randomness and the scheduling of one protocol run (`TestMPPJ`): the scalars
of the receiver keys, the helper's conversion key, nonces and row permutation, for
each source the processing order and randomness of `Prepare`, the completion order
and randomness of the helper's workers, the order in which the receiver files the
rows and the order in which it decrypts the buckets. -/
structure RunRand (G : Type) [CurveGroup G] where
  bkey : Scalar G
  ekey : Scalar G
  convK : Scalar G
  nonce : Nat → Scalar G
  rowPerm : List Nat
  prepOrder : SourceID → List Nat
  prepRnd : SourceID → Nat → RowRand G
  convOrder : List Nat
  convRnd : Nat → ConvRand G
  arrival : List Nat
  bucketOrder : List Nat

/-- The loop of `TestMPPJ` in which every data source prepares its table. -/
def prepareAll (sid : Bytes) (rpk : PublicKeyTuple G) (prepOrder : SourceID → List Nat)
    (prepRnd : SourceID → Nat → RowRand G) :
    List (SourceID × TablePlain) → Except Fault (List (SourceID × EncTable G))
  | [] => .ok []
  | (sourceID, table) :: rest =>
    match (NewDataSource sid rpk).Prepare rpk table (prepOrder sourceID) (prepRnd sourceID) with
    | .error e => .error e
    | .ok prepTable =>
      match prepareAll sid rpk prepOrder prepRnd rest with
      | .error e => .error e
      | .ok encTables => .ok ((sourceID, prepTable) :: encTables)

/-- The protocol run of `TestMPPJ`: setup, `Prepare` at every source, `Convert` at
the helper, `JoinTables` at the receiver. -/
def runMPPJ [SymLib] (sid : Bytes) (sourceIDs : List SourceID) (nRows : Nat)
    (tables : List (SourceID × TablePlain)) (rr : RunRand G) : Except Fault JoinTable :=
  let helper : Helper G := NewHelper sid sourceIDs nRows rr.convK rr.nonce rr.rowPerm
  let receiver : Receiver G := NewReceiver sid sourceIDs rr.bkey rr.ekey
  match prepareAll sid receiver.GetPK rr.prepOrder rr.prepRnd tables with
  | .error e => .error e
  | .ok encTables =>
    match helper.Convert receiver.recvPK encTables rr.convOrder rr.convRnd with
    | .error e => .error e
    | .ok joinedTables =>
      receiver.JoinTables joinedTables encTables.length rr.arrival rr.bucketOrder

/-! ## cmd/source/main.go: reading the table -/

def MAX_VAL_LEN : Nat := 30

/-- The loop of `readCSV` over the records after the header; `comma` is
`string(csvReader.Comma)`.  `strings.Join(line[1:], comma)` is the value, `line[0]`
the uid; slicing an empty record panics. -/
def readCSVLoop (comma : Bytes) : List (List Bytes) → TablePlain → Except Fault TablePlain
  | [], table => .ok table
  | [] :: _, _ => .error (.panic "slice bounds out of range")
  | (uid :: fields) :: rest, table =>
    let val := List.intercalate comma fields
    if val.length > MAX_VAL_LEN then .error (.error "value too long")
    else readCSVLoop comma rest (mapSet table uid val)

/-- Model of `readCSV`; `records` are the records that `csvReader.Read` returns
before its first error (the loop ends on any error, `io.EOF` or not, and the table
read so far is returned).  The first record is the header and is skipped. -/
def readCSV (comma : Bytes) (records : List (List Bytes)) : Except Fault TablePlain :=
  readCSVLoop comma (records.drop 1) []

/-! ## api/messages.go: wire framing of `EncRowWithHint` -/

/-- Model of `GetEncRowWithHintMsg`: the `Data` of the message.  The three
ciphertexts are copied into slots of `ctLen` bytes, `CVal` follows. -/
def GetEncRowWithHintMsg (er : EncRowWithHint G) : Except Fault Bytes :=
  .ok (goCopy (List.replicate ctLen 0) er.Cnyme.Serialize ++
    goCopy (List.replicate ctLen 0) er.CValKey.Serialize ++
    goCopy (List.replicate ctLen 0) er.CHint.Serialize ++
    goCopy (List.replicate er.CVal.length 0) er.CVal)

/-- Model of `GetEncRowWithHintFromMsg` on the `Data` of a message (a slice whose
capacity is its length): each slice expression panics when the data is shorter than
its upper bound. -/
def GetEncRowWithHintFromMsg (data : Bytes) : Except Fault (EncRowWithHint G) :=
  if data.length < ctLen then .error (.panic "slice bounds out of range")
  else
    match (DeserializeCiphertext (data.take ctLen) : Except Fault (Ciphertext G)) with
    | .error e => .error e
    | .ok cnym =>
      if data.length < 2 * ctLen then .error (.panic "slice bounds out of range")
      else
        match (DeserializeCiphertext ((data.take (2 * ctLen)).drop ctLen) :
            Except Fault (Ciphertext G)) with
        | .error e => .error e
        | .ok cvalKey =>
          if data.length < 3 * ctLen then .error (.panic "slice bounds out of range")
          else
            match (DeserializeCiphertext ((data.take (3 * ctLen)).drop (2 * ctLen)) :
                Except Fault (Ciphertext G)) with
            | .error e => .error e
            | .ok chint =>
              .ok { Cnyme := cnym, CVal := data.drop (3 * ctLen), CValKey := cvalKey,
                    CHint := chint }

/-! ## cmd/helper/main.go: the helper server -/

/-- The state of `mppjHelperServer` that the `PushRows` calls share: the map
`expected`, whether `start` was closed, the tasks sent on `incomingEncRows` so far
and whether that channel was closed. -/
structure HelperServer (G : Type) where
  expected : List (SourceID × Nat)
  started : Bool
  incoming : List (ConvertRowTask G)
  incomingClosed : Bool

/-- Model of the server state built by `newHelperServer`. -/
def newHelperServer (sources : List SourceID) : HelperServer G :=
  { expected := sources.enum.foldl (fun m isrc => mapSet m isrc.2 isrc.1) []
    started := false, incoming := [], incomingClosed := false }

/-- The first critical section of a `PushRows` call: the source id of the stream
(`none` when the context carries none) is looked up in `expected`.  The result is
the status error with which the call returns, or the table index with which it
goes on to receive rows. -/
def HelperServer.pushRowsBegin (s : HelperServer G) (sourceID : Option SourceID) :
    HelperServer G × Except String Nat :=
  match sourceID with
  | none => (s, .error "missing source ID")
  | some id =>
    match mapGet s.expected id with
    | none => (s, .error "unexpected source ID")
    | some tindex => ({ s with started := true }, .ok tindex)

/-- One iteration of the receive loop of a `PushRows` call that was given the table
index `tindex`: the message is decoded and the task is sent on `incomingEncRows`.  A
decoding error ends the call with that error; a send on a closed channel panics. -/
def HelperServer.pushRowsRecv (s : HelperServer G) (tindex : Nat) (data : Bytes) :
    Except Fault (HelperServer G) :=
  match (GetEncRowFromMsg data : Except Fault (EncRow G)) with
  | .error e => .error e
  | .ok encRow =>
    if s.incomingClosed then .error (.panic "send on closed channel")
    else .ok { s with incoming := s.incoming ++ [{ EncRowMsg := encRow, TableIndex := tindex }] }

/-- The last critical section of a `PushRows` call, after `io.EOF`: the source id is
deleted from `expected` and the channel is closed when the map is empty. -/
def HelperServer.pushRowsEnd (s : HelperServer G) (sourceID : SourceID) :
    Except Fault (HelperServer G) :=
  let expected := s.expected.filter (fun e => decide (e.1 ≠ sourceID))
  if expected.length = 0 then
    if s.incomingClosed then .error (.panic "close of closed channel")
    else .ok { s with expected := expected, incomingClosed := true }
  else .ok { s with expected := expected }

/-! ## Specification predicates -/

/-- The ciphertext `ct` is an ElGamal encryption of the point `M` under the public
key `g^x`: `c1 = M * c0^x`. -/
def Encrypts (x : Scalar G) (ct : Ciphertext G) (M : G) : Prop :=
  ct.c1 = M * ScalarExp ct.c0 x

/-- The first candidate x-coordinate `0x04 || p || 0x02` of `NewMessageFromBytes`. -/
def firstCandidate (p : Bytes) : Nat := bytesToNat ((4 : Byte) :: (p ++ [(2 : Byte)]))

/-- The embedding loop of `NewMessageFromBytes` stops on one of its first 254
candidates for `p`, those whose counter byte is `0x02`, ..., `0xff`. -/
def EmbedsInCounterByte (p : Bytes) : Prop :=
  ∃ x y, embedLoop 255 1 (firstCandidate p) = .ok (x, y) ∧ x ≤ firstCandidate p + 253

/-- The ciphertext `ct` encrypts, under the public key `g^x`, a message point whose
payload bytes are `c`. -/
def EncryptsBytes (x : Scalar G) (ct : Ciphertext G) (c : Bytes) : Prop :=
  ∃ m : Message G, Encrypts x ct m.m ∧ m.GetMessageBytes = .ok c

/-- The ciphertexts `cts` encrypt the chunks `cs`, one by one. -/
def EncryptsChunks (x : Scalar G) (cts : List (Ciphertext G)) (cs : List Bytes) : Prop :=
  List.Forall₂ (EncryptsBytes x) cts cs

/-- Every `PAYLOADSIZE`-byte chunk of the padded value embeds on one of the first
254 candidates. -/
def ValueEmbeds (v : Bytes) : Prop :=
  ∀ c ∈ chunks (pad v PAYLOADSIZE).length (pad v PAYLOADSIZE), EmbedsInCounterByte c

/-- Boolean form of `EmbedsInCounterByte`. -/
def embedsInCounterByte (p : Bytes) : Bool :=
  match embedLoop 255 1 (firstCandidate p) with
  | .ok (x, _) => decide (x ≤ firstCandidate p + 253)
  | .error _ => false

/-- What the receiver side of the wire decrypts from a row sent by a source:
`GetEncRowMsg`, `GetEncRowFromMsg`, then `PKEDecryptVector` of the received
`Cval`. -/
def wireRoundTrip (esk : SecretKey G) (row : EncRow G) : Except Fault Bytes :=
  match GetEncRowMsg row with
  | .error e => .error e
  | .ok data =>
    match (GetEncRowFromMsg data : Except Fault (EncRow G)) with
    | .error e => .error e
    | .ok received => PKEDecryptVector esk received.Cval

/-- The uids of all tables, with repetitions. -/
def allUids (tables : List (SourceID × TablePlain)) : List Bytes :=
  tables.flatMap (fun st => st.2.map Prod.fst)

/-- The bucket key that the receiver derives for `uid`: the message bytes of the
pseudonym `HashToPoint(uid, sid)^k`. -/
def pseudonymKey (sid : Bytes) (k : Scalar G) (uid : Bytes) : Except Fault Bytes :=
  (Message.mk (ScalarExp (HashToPoint uid sid : G) k)).GetMessageBytes

/-- The pseudonyms of the uids have message bytes, and distinct uids have distinct
ones. -/
def PseudonymsDistinct (sid : Bytes) (k : Scalar G) (uids : List Bytes) : Prop :=
  (∀ u ∈ uids, (pseudonymKey sid k u).toOption.isSome = true) ∧
  ∀ u ∈ uids, ∀ u1 ∈ uids, pseudonymKey sid k u = pseudonymKey sid k u1 → u = u1

/-- No re-randomized value ciphertext that the helper serializes has the identity
as a component (the encoding of the identity need not be 33 bytes long). -/
def RerandRegular (epk : PublicKey G) (tasks : List (ConvertRowTask G)) (rnd : Nat → ConvRand G) :
    Prop :=
  ∀ it ∈ tasks.enum, ∀ ct ∈ ReRandVector epk it.2.EncRowMsg.Cval (rnd it.1).rerand,
    ct.c0 ≠ 1 ∧ ct.c1 ≠ 1

/-- The join row of `uid`: column `i` holds the value of `uid` in the table of
`sources[i]`. -/
def expectedRow (tables : List (SourceID × TablePlain)) (sources : List SourceID) (uid : Bytes) :
    List Bytes :=
  sources.map (fun s => ((mapGet tables s).bind (fun t => mapGet t uid)).getD [])

/-- The uids present in every table, each listed once. -/
def commonUids (tables : List (SourceID × TablePlain)) : List Bytes :=
  (allUids tables).dedup.filter (fun u => tables.all (fun st => decide (u ∈ st.2.map Prod.fst)))

/-- The orders of a run are permutations of the index ranges they reorder. -/
def RunRand.Valid (rr : RunRand G) (sourceIDs : List SourceID) (nRows : Nat)
    (tables : List (SourceID × TablePlain)) : Prop :=
  IsOrder rr.rowPerm (nRows * sourceIDs.length) ∧
  (∀ s ∈ sourceIDs, IsOrder (rr.prepOrder s) nRows) ∧
  IsOrder rr.convOrder (nRows * sourceIDs.length) ∧
  IsOrder rr.arrival (nRows * sourceIDs.length) ∧
  IsOrder rr.bucketOrder (allUids tables).dedup.length

/-- No value ciphertext that the helper re-randomizes in the run has the identity
as a component. -/
def RunRand.Regular (rr : RunRand G) (sid : Bytes) (sourceIDs : List SourceID) (nRows : Nat)
    (tables : List (SourceID × TablePlain)) : Prop :=
  match prepareAll sid (NewReceiver sid sourceIDs rr.bkey rr.ekey).GetPK rr.prepOrder rr.prepRnd
      tables with
  | .ok encTables =>
    RerandRegular (PKEKeyGen rr.ekey).2
      (reorder rr.convOrder
        ((NewHelper sid sourceIDs nRows rr.convK rr.nonce rr.rowPerm).tasks encTables)) rr.convRnd
  | .error _ => True

/-- The table index that `Helper.Convert` gives to the rows of source `s`. -/
def Helper.indexOfSource (h : Helper G) (s : SourceID) : Nat :=
  (mapGet h.sourceIndices s).getD 0

/-- Where a row comes from: its uid, the index of its table, its value. -/
structure Prov where
  uid : Bytes
  tindex : Nat
  val : Bytes

/-- The plain rows of all tables with the table index the helper gives them. -/
def provenance (h : Helper G) (tables : List (SourceID × TablePlain)) : List Prov :=
  tables.flatMap (fun st => st.2.map (fun uv =>
    { uid := uv.1, tindex := h.indexOfSource st.1, val := uv.2 }))

/-- The encrypted row `row` is a preparation of the plain row `uv`. -/
def RowFor (b e : Scalar G) (sid : Bytes) (row : EncRow G) (uv : Bytes × Bytes) : Prop :=
  Encrypts b row.Cuid (HashToPoint uv.1 sid) ∧
  EncryptsChunks e row.Cval (chunks (pad uv.2 PAYLOADSIZE).length (pad uv.2 PAYLOADSIZE))

/-- The encrypted table `et` is a preparation of the plain table `st` of the same
source: its rows are preparations of the rows of `st`, in some order. -/
def TableFor (b e : Scalar G) (sid : Bytes) (et : SourceID × EncTable G)
    (st : SourceID × TablePlain) : Prop :=
  et.1 = st.1 ∧ et.2.length = st.2.length ∧
    ∃ table1, List.Perm table1 st.2 ∧ List.Forall₂ (RowFor b e sid) et.2 table1

/-- The task `task` carries a preparation of the plain row of `p`, tagged with its
table index. -/
def TaskFor (b e : Scalar G) (sid : Bytes) (task : ConvertRowTask G) (p : Prov) : Prop :=
  task.TableIndex = p.tindex ∧ RowFor b e sid task.EncRowMsg (p.uid, p.val)

/-- The converted row `crow` is a conversion of the plain row of `p`: pseudonym,
blinded key, hint, and a symmetric blob that opens to the table index and to
ciphertexts of the value. -/
def HintRowFor [SymLib] (b e k : Scalar G) (sid : Bytes) (shares : List (Scalar G))
    (crow : EncRowWithHint G) (p : Prov) : Prop :=
  Encrypts b crow.Cnyme (ScalarExp (HashToPoint p.uid sid) k) ∧
  (∃ (R : G) (cts : List (Ciphertext G)),
    Encrypts b crow.CValKey
      (ScalarExp (ScalarExp (HashToPoint p.uid sid) k) (nonceSum shares) * R) ∧
    SymmetricDecrypt (KeyFromPoint R sid) crow.CVal
      = .ok (byteOfNat p.tindex :: SerializeCiphertexts cts) ∧
    (DeserializeCiphertexts (SerializeCiphertexts cts) : Except Fault (List (Ciphertext G)))
      = .ok cts ∧
    EncryptsChunks e cts (chunks (pad p.val PAYLOADSIZE).length (pad p.val PAYLOADSIZE))) ∧
  (∃ share, shares[p.tindex]? = some share ∧
    Encrypts b crow.CHint (ScalarExp (ScalarExp (HashToPoint p.uid sid) k) share))

/-- The bucket key under which `groupLoop` files a row (empty when
`GetMessageBytes` fails). -/
def rowKey (bsk : SecretKey G) (row : EncRowWithHint G) : Bytes :=
  ((OPRFUnblind bsk row.Cnyme).GetMessageBytes).toOption.getD []

/-- The columns of `uid`: for every table that has it, the source id and the value,
in the order of the tables. -/
def colsOf (tables : List (SourceID × TablePlain)) (uid : Bytes) : List (SourceID × Bytes) :=
  tables.flatMap (fun st =>
    (st.2.filter (fun uv => decide (uv.1 = uid))).map (fun uv => (st.1, uv.2)))

/-- The result row that `intersectHint` inserts for a bucket, when `decryptGroup`
and `Insert` succeed. -/
def joinRow [SymLib] (r : Receiver G) (bucket : List (EncRowWithHint G)) : Option (List Bytes) :=
  match r.decryptGroup bucket with
  | .error _ => none
  | .ok vals =>
    (insertRow r.sourceIDs vals (List.replicate r.sourceIDs.length [])).toOption

/-- The entry of `decGroup` that `decryptGroup` builds from a row of the bucket. -/
def decEntry (bsk : SecretKey G) (ge : EncRowWithHint G) : EncValueWithHint G :=
  { val := ge.CVal
    blindedkey := OPRFUnblind bsk ge.CValKey
    hint := OPRFUnblind bsk ge.CHint }

/-- The rows of all tables as `(uid, (source id, value))`, in the order in which
the loops of `IntersectSimple` visit them. -/
def entries (tables : List (SourceID × TablePlain)) : List (Bytes × (SourceID × Bytes)) :=
  tables.flatMap (fun st => st.2.map (fun uv => (uv.1, (st.1, uv.2))))

/-- The step `partJoin[uid][sourceID] = val` of `IntersectSimple`. -/
def partJoinStep (partJoin : List (Bytes × List (SourceID × Bytes)))
    (en : Bytes × (SourceID × Bytes)) : List (Bytes × List (SourceID × Bytes)) :=
  mapSet partJoin en.1 (mapSet ((mapGet partJoin en.1).getD []) en.2.1 en.2.2)

/-- The row that the receiver inserts for a bucket, if the bucket is full. -/
def bucketRow [SymLib] (r : Receiver G) (kg : Bytes × List (EncRowWithHint G)) :
    Option (List Bytes) :=
  if kg.2.length = r.sourceIDs.length then joinRow r kg.2 else none

/-- The row that `IntersectSimple` inserts for a uid, if every table has it. -/
def plainRow (n : Nat) (sources : List SourceID) (uv : Bytes × List (SourceID × Bytes)) :
    Option (List Bytes) :=
  if uv.2.length = n then
    (insertRow sources uv.2 (List.replicate sources.length [])).toOption
  else none

/-- The map entry that `decryptGroup` writes for a converted row of provenance
`p`: the source id at its table index and the value. -/
def provEntry (sources : List SourceID) (p : Prov) : SourceID × Bytes :=
  (sources[p.tindex]?.getD [], p.val)

/-- The bucket key of a uid. -/
def uidKey (sid : Bytes) (k : Scalar G) (uid : Bytes) : Bytes :=
  (pseudonymKey sid k uid).toOption.getD []

/-- The join rows: for every uid that has a column in each of the `n` tables, the
row of its values in the order of `sources`. -/
def joinRows (tables : List (SourceID × TablePlain)) (sources : List SourceID) :
    List (List Bytes) :=
  (allUids tables).dedup.filterMap (fun u =>
    if (colsOf tables u).length = sources.length then
      some (sources.map (fun s => (mapGet (colsOf tables u) s).getD []))
    else none)

/-- The columns of `row` from index `n` on are empty strings. -/
def ColumnsBelow (n : Nat) (row : List Bytes) : Prop :=
  ∀ j, n ≤ j → row[j]?.getD [] = []

/-- The row `ge` of a group is corrupt for the receiver, `invMask` being the inverted
mask of the group: its symmetric decryption is empty, or its first byte is not an
index into `sourceIDs`, or the remaining bytes do not deserialize into ciphertexts,
or `PKEDecryptVector` fails on these. -/
def CorruptRow [SymLib] (r : Receiver G) (invMask : G) (ge : EncRowWithHint G) : Prop :=
  ∃ data,
    SymmetricDecrypt (KeyFromPoint (Mul (OPRFUnblind r.recvSK.bsk ge.CValKey).m invMask) r.sid)
      ge.CVal = .ok data ∧
    (data = [] ∨ ∃ first rest, data = first :: rest ∧
      (r.sourceIDs.length ≤ first.val ∨
       (∃ e, (DeserializeCiphertexts rest : Except Fault (List (Ciphertext G))) = .error e) ∨
       (∃ cts e, (DeserializeCiphertexts rest : Except Fault (List (Ciphertext G))) = .ok cts ∧
          PKEDecryptVector r.recvSK.esk cts = .error e)))

/-- The tail of `d` is not a padding: `d` is empty, or its last byte `k` is 0 or
greater than `len(d)`, or one of the last `k` bytes of `d` differs from `k`. -/
def MalformedTail (d : Bytes) : Prop :=
  d = [] ∨ ∃ last, d.getLast? = some last ∧
    (last.val = 0 ∨ d.length < last.val ∨ ∃ v ∈ d.drop (d.length - last.val), v.val ≠ last.val)

/-- The row `dge` of a bucket decrypts, with the inverse mask `invMask`, to the value
`e.2` of the source `e.1`: the four steps of the body of the second loop of
`Receiver.decryptGroup` succeed. -/
def DecryptsTo [SymLib] (r : Receiver G) (invMask : G) (dge : EncValueWithHint G)
    (e : SourceID × Bytes) : Prop :=
  ∃ first rest encVal,
    SymmetricDecrypt (KeyFromPoint (Mul dge.blindedkey.m invMask) r.sid) dge.val
      = .ok (first :: rest) ∧
    r.sourceIDs[first.val]? = some e.1 ∧
    (DeserializeCiphertexts rest : Except Fault (List (Ciphertext G))) = .ok encVal ∧
    PKEDecryptVector r.recvSK.esk encVal = .ok e.2

/-! ## Example inputs -/

/-- A value of exactly 30 bytes: thirty times the letter `a`. -/
def value30 : Bytes := List.replicate 30 97

/-- A payload of 31 bytes. -/
def payload31 : Bytes := List.replicate 31 97

/-- A list of 257 distinct two-byte source ids. -/
def sources257 : List SourceID :=
  (List.range 257).map (fun i => [byteOfNat (i / 256), byteOfNat i])

/-- One table per source of `sources257`, each with the single row `u -> v`. -/
def tables257 : List (SourceID × TablePlain) :=
  sources257.map (fun s => (s, [([117], [118])]))

/-- A run over `n` rows in which every party works in index order. -/
def runInOrder (n : Nat) (G : Type) [CurveGroup G] : RunRand G :=
  { bkey := 3, ekey := 5, convK := 1, nonce := fun i => ((i + 1 : Nat) : Scalar G)
    rowPerm := List.range n
    prepOrder := fun _ => [0], prepRnd := fun _ _ => { blind := 7, enc := fun _ => 11 }
    convOrder := List.range n
    convRnd := fun _ => { conv := 13, point := 17, rerand := fun _ => 19, pad := 23, hint := 29 }
    arrival := List.range n, bucketOrder := [0] }

/-- Two source ids, `s1` and `s2`. -/
def sourcesAB : List SourceID := [[115, 49], [115, 50]]

/-- Two tables of two rows each that share the uid `b`. -/
def tablesAB : List (SourceID × TablePlain) :=
  [([115, 49], [([97], [120]), ([98], [121])]), ([115, 50], [([98], [122]), ([99], [119])])]

/-- A run over the four rows of `tablesAB` with shuffled orders. -/
def runAB (G : Type) [CurveGroup G] : RunRand G :=
  { bkey := 3, ekey := 5, convK := 11, nonce := fun i => ((i + 1 : Nat) : Scalar G)
    rowPerm := [2, 0, 3, 1]
    prepOrder := fun _ => [1, 0]
    prepRnd := fun _ i => { blind := ((7 + i : Nat) : Scalar G), enc := fun _ => 11 }
    convOrder := [3, 1, 0, 2]
    convRnd := fun i => { conv := 13, point := ((17 + i : Nat) : Scalar G),
                          rerand := fun _ => 19, pad := 23, hint := 29 }
    arrival := [1, 3, 2, 0], bucketOrder := [2, 0, 1] }

/-- A table with one row: the empty uid and a value of 31 bytes. -/
def tableBadInput : TablePlain := [([], List.replicate 31 97)]

/-- The row that the helper of the run `runAB` converts for the uid `b` sent by
source `j` (with an empty value vector); a row of identities if `ConvertRow`
fails. -/
def convertedRowAB [SymLib] (G : Type) [CurveGroup G] (j : Nat) : EncRowWithHint G :=
  match (NewHelper [1] sourcesAB 2 (runAB G).convK (runAB G).nonce (runAB G).rowPerm).ConvertRow
      (NewReceiver [1] sourcesAB (runAB G).bkey (runAB G).ekey).GetPK
      { Cuid := OPRFBlind (NewReceiver [1] sourcesAB (runAB G).bkey (runAB G).ekey).GetPK.bpk
          [98] [1] ((7 + j : Nat) : Scalar G)
        Cval := [] } j ((runAB G).convRnd j) with
  | .ok row => row
  | .error _ => { Cnyme := ⟨1, 1⟩, CVal := [], CValKey := ⟨1, 1⟩, CHint := ⟨1, 1⟩ }

/-- The buckets that the receiver of a protocol run builds from the converted table
(empty if an earlier stage fails). -/
def runGroups [SymLib] (sid : Bytes) (sourceIDs : List SourceID) (nRows : Nat)
    (tables : List (SourceID × TablePlain)) (rr : RunRand G) :
    List (Bytes × List (EncRowWithHint G)) :=
  let helper : Helper G := NewHelper sid sourceIDs nRows rr.convK rr.nonce rr.rowPerm
  let receiver : Receiver G := NewReceiver sid sourceIDs rr.bkey rr.ekey
  match prepareAll sid receiver.GetPK rr.prepOrder rr.prepRnd tables with
  | .error _ => []
  | .ok encTables =>
    match helper.Convert receiver.recvPK encTables rr.convOrder rr.convRnd with
    | .error _ => []
    | .ok joinedTables =>
      match groupLoop receiver (reorder rr.arrival joinedTables) [] with
      | .error _ => []
      | .ok groups => groups

/-- The buckets built by the workers of `JoinTablesStream` from the rows `L`, filed
under the key `κ`: `groups[κ a] = append(groups[κ a], a)`. -/
def groupFold {α K : Type} [DecidableEq K] (κ : α → K) (L : List α) (g0 : List (K × List α)) :
    List (K × List α) :=
  L.foldl (fun g a => mapSet g (κ a) ((mapGet g (κ a)).getD [] ++ [a])) g0

/-- A row with one value ciphertext, both ciphertexts with scalars other than 0. -/
def encRowExample (G : Type) [CurveGroup G] : EncRow G :=
  { Cuid := PKEEncrypt (PKEKeyGen (3 : Scalar G)).2 { m := Gen } 7
    Cval := [PKEEncrypt (PKEKeyGen (5 : Scalar G)).2 { m := Gen } 9] }

/-- A converted row with a blob of three bytes. -/
def encRowWithHintExample (G : Type) [CurveGroup G] : EncRowWithHint G :=
  { Cnyme := PKEEncrypt (PKEKeyGen (3 : Scalar G)).2 { m := Gen } 7
    CVal := [1, 2, 3]
    CValKey := PKEEncrypt (PKEKeyGen (3 : Scalar G)).2 { m := Gen } 9
    CHint := PKEEncrypt (PKEKeyGen (3 : Scalar G)).2 { m := Gen } 11 }

/-- An encryption of the message that embeds thirty zero bytes (a ciphertext of
identities if the embedding fails). -/
def ctZeros (G : Type) [CurveGroup G] : Ciphertext G :=
  match (NewMessageFromBytes (List.replicate 30 0) : Except Fault (Message G)) with
  | .ok m => PKEEncrypt (PKEKeyGen (5 : Scalar G)).2 m 7
  | .error _ => ⟨1, 1⟩

/-- The row that a helper for the sources `s1`, `s2` whose two nonce shares are both
13 converts, with the randomness of index `i`, from the row that a source sends for
the uid `b` with the value `v`, under the table index `t`; a row of identities if a
step fails. -/
def sameUidRow [SymLib] (G : Type) [CurveGroup G] (v : Bytes) (t i : Nat) : EncRowWithHint G :=
  match PKEEncryptVector (PKEKeyGen (5 : Scalar G)).2 v (fun _ => 11) with
  | .error _ => { Cnyme := ⟨1, 1⟩, CVal := [], CValKey := ⟨1, 1⟩, CHint := ⟨1, 1⟩ }
  | .ok cval =>
    match (NewHelper [1] sourcesAB 1 (11 : Scalar G) (fun _ => 13) []).ConvertRow
        { bpk := (PKEKeyGen 3).2, epk := (PKEKeyGen 5).2 }
        { Cuid := OPRFBlind (PKEKeyGen (3 : Scalar G)).2 [98] [1] 7, Cval := cval } t
        ((runAB G).convRnd i) with
    | .ok row => row
    | .error _ => { Cnyme := ⟨1, 1⟩, CVal := [], CValKey := ⟨1, 1⟩, CHint := ⟨1, 1⟩ }

/-! # Theorems -/

/-! ## Laws of scalar exponentiation -/

theorem pow_mod_order (P : G) (k : ℕ) : P ^ (k % CurveGroup.order G) = P ^ k :=
  (pow_eq_pow_mod k (CurveGroup.pow_order P)).symm

theorem ScalarExp_add (P : G) (a b : Scalar G) :
    ScalarExp P (a + b) = ScalarExp P a * ScalarExp P b := by
  unfold ScalarExp
  rw [ZMod.val_add, pow_mod_order, pow_add]

theorem ScalarExp_mul (P : G) (a b : Scalar G) :
    ScalarExp P (a * b) = ScalarExp (ScalarExp P a) b := by
  unfold ScalarExp
  rw [ZMod.val_mul, pow_mod_order, pow_mul]

theorem ScalarExp_zero (P : G) : ScalarExp P (0 : Scalar G) = 1 := by
  unfold ScalarExp
  rw [ZMod.val_zero, pow_zero]

theorem ScalarExp_neg (P : G) (a : Scalar G) : ScalarExp P (-a) = (ScalarExp P a)⁻¹ := by
  apply eq_inv_of_mul_eq_one_left
  rw [← ScalarExp_add, neg_add_cancel, ScalarExp_zero]

theorem ScalarExp_comm (P : G) (a b : Scalar G) :
    ScalarExp (ScalarExp P a) b = ScalarExp (ScalarExp P b) a := by
  rw [← ScalarExp_mul, ← ScalarExp_mul, mul_comm]

theorem ScalarExp_mul_point (P Q : G) (a : Scalar G) :
    ScalarExp (P * Q) a = ScalarExp P a * ScalarExp Q a := by
  unfold ScalarExp
  rw [mul_pow]

theorem ScalarExp_one_point (a : Scalar G) : ScalarExp (1 : G) a = 1 := by
  unfold ScalarExp
  rw [one_pow]

/-! ## Orders and maps -/

theorem filterMap_range_getElem? {α : Type} (l : List α) :
    (List.range l.length).filterMap (fun i => l[i]?) = l := by
  induction l using List.reverseRecOn with
  | nil => rfl
  | append_singleton l a ih =>
    rw [List.length_append, List.length_singleton, List.range_succ, List.filterMap_append]
    have h1 : (List.range l.length).filterMap (fun i => (l ++ [a])[i]?)
        = (List.range l.length).filterMap (fun i => l[i]?) := by
      apply List.filterMap_congr
      intro i hi
      rw [List.mem_range] at hi
      rw [List.getElem?_append_left hi]
    rw [h1, ih]
    simp

theorem reorder_perm {α : Type} (order : List Nat) (l : List α) (h : IsOrder order l.length) :
    List.Perm (reorder order l) l := by
  have h1 := List.Perm.filterMap (fun i => l[i]?) h
  rw [filterMap_range_getElem?] at h1
  exact h1

section maps

variable {K V : Type} [DecidableEq K]

theorem mapGet_nil (k : K) : mapGet ([] : List (K × V)) k = none := rfl

theorem mapGet_cons (e : K × V) (m : List (K × V)) (k : K) :
    mapGet (e :: m) k = if e.1 = k then some e.2 else mapGet m k := by
  unfold mapGet
  rw [List.find?_cons]
  by_cases h : e.1 = k <;> simp [h]

theorem mapGet_mapSet (m : List (K × V)) (k k1 : K) (v : V) :
    mapGet (mapSet m k v) k1 = if k = k1 then some v else mapGet m k1 := by
  induction m with
  | nil => simp [mapSet, mapGet_cons, mapGet_nil]
  | cons e m ih =>
    rw [mapSet]
    by_cases h : e.1 = k
    · rw [if_pos h, mapGet_cons, mapGet_cons]
      subst h
      by_cases h1 : e.1 = k1 <;> simp [h1]
    · rw [if_neg h, mapGet_cons, mapGet_cons, ih]
      by_cases h1 : e.1 = k1
      · have : k ≠ k1 := fun h2 => h (h1.trans h2.symm)
        simp [h1, this]
      · simp [h1]

theorem keys_mapSet (m : List (K × V)) (k : K) (v : V) :
    (mapSet m k v).map Prod.fst = if k ∈ m.map Prod.fst then m.map Prod.fst else m.map Prod.fst ++ [k] := by
  induction m with
  | nil => simp [mapSet]
  | cons e m ih =>
    rw [mapSet]
    by_cases h : e.1 = k
    · simp [h]
    · rw [if_neg h, List.map_cons, ih]
      have hne : ¬ k = e.1 := fun h1 => h h1.symm
      by_cases hk : k ∈ m.map Prod.fst
      · simp [hk]
      · simp only [hk, if_false, List.map_cons, List.mem_cons, hne, or_self, List.cons_append]

theorem keys_mapSet_nodup (m : List (K × V)) (k : K) (v : V) (h : (m.map Prod.fst).Nodup) :
    ((mapSet m k v).map Prod.fst).Nodup := by
  rw [keys_mapSet]
  split
  · exact h
  · rename_i hk
    exact List.Nodup.append h (List.nodup_singleton k) (by simpa using hk)

theorem mapGet_eq_none (m : List (K × V)) (k : K) : mapGet m k = none ↔ k ∉ m.map Prod.fst := by
  induction m with
  | nil => simp [mapGet_nil]
  | cons e m ih =>
    rw [mapGet_cons]
    by_cases h : e.1 = k
    · simp [h]
    · have hne : ¬ k = e.1 := fun h1 => h h1.symm
      simp [h, ih, hne]

theorem mem_iff_mapGet (m : List (K × V)) (h : (m.map Prod.fst).Nodup) (k : K) (v : V) :
    (k, v) ∈ m ↔ mapGet m k = some v := by
  induction m with
  | nil => simp [mapGet_nil]
  | cons e m ih =>
    rw [List.map_cons, List.nodup_cons] at h
    rw [mapGet_cons, List.mem_cons]
    by_cases h1 : e.1 = k
    · rw [if_pos h1]
      constructor
      · rintro (h2 | h2)
        · rw [← h2]
        · exact absurd (List.mem_map_of_mem Prod.fst h2) (by rw [← h1] at h2 ⊢; exact h.1)
      · intro h2
        left
        simp only [Option.some.injEq] at h2
        rw [← h1, ← h2]
    · rw [if_neg h1, ← ih h.2]
      constructor
      · rintro (h2 | h2)
        · exact absurd (by rw [← h2]) h1
        · exact h2
      · exact fun h2 => Or.inr h2

theorem perm_of_mapGet_eq (m m1 : List (K × V)) (h : (m.map Prod.fst).Nodup)
    (h1 : (m1.map Prod.fst).Nodup) (heq : ∀ k, mapGet m k = mapGet m1 k) : List.Perm m m1 := by
  rw [List.perm_ext_iff_of_nodup (List.Nodup.of_map _ h) (List.Nodup.of_map _ h1)]
  rintro ⟨k, v⟩
  rw [mem_iff_mapGet m h, mem_iff_mapGet m1 h1, heq]

end maps

section grouping

variable {α K : Type} [DecidableEq K]

theorem groupFold_keys_nodup (κ : α → K) (L : List α) (g0 : List (K × List α))
    (h : (g0.map Prod.fst).Nodup) : ((groupFold κ L g0).map Prod.fst).Nodup := by
  unfold groupFold
  induction L generalizing g0 with
  | nil => exact h
  | cons a L ih => exact ih _ (keys_mapSet_nodup _ _ _ h)

theorem mapGet_groupFold (κ : α → K) (L : List α) (g0 : List (K × List α)) (k : K) :
    mapGet (groupFold κ L g0) k =
      if (L.filter (fun a => decide (κ a = k))).isEmpty then mapGet g0 k
      else some ((mapGet g0 k).getD [] ++ L.filter (fun a => decide (κ a = k))) := by
  unfold groupFold
  induction L generalizing g0 with
  | nil => simp
  | cons a L ih =>
    rw [List.foldl_cons, ih, mapGet_mapSet, List.filter_cons]
    by_cases hk : κ a = k
    · subst hk
      simp only [if_true, decide_True, Option.getD_some, List.append_assoc,
        List.singleton_append, List.isEmpty_cons, Bool.false_eq_true, if_false]
      by_cases hf : (L.filter (fun b => decide (κ b = κ a))).isEmpty
      · rw [if_pos hf]
        rw [List.isEmpty_iff] at hf
        rw [hf]
      · rw [if_neg hf]
    · simp only [hk, if_false, decide_False]
      rfl

theorem mapGet_groupFold_nil (κ : α → K) (L : List α) (k : K) :
    mapGet (groupFold κ L []) k =
      if (L.filter (fun a => decide (κ a = k))).isEmpty then none
      else some (L.filter (fun a => decide (κ a = k))) := by
  rw [mapGet_groupFold, mapGet_nil]
  simp

end grouping

/-! ## JoinTable.Insert -/

theorem insertRow_spec (S : List SourceID) (hS : S.Nodup) :
    ∀ (vals : List (SourceID × Bytes)) (row0 : List Bytes),
      (vals.map Prod.fst).Nodup → (∀ p ∈ vals, p.1 ∈ S) → row0.length = S.length →
      insertRow S vals row0
        = .ok (List.zipWith (fun s old => (mapGet vals s).getD old) S row0) := by
  intro vals
  induction vals with
  | nil =>
    intro row0 _ _ hlen
    rw [insertRow]
    congr 1
    apply List.ext_getElem
    · simp [hlen]
    · intro i h1 h2
      simp [mapGet_nil]
  | cons p vals ih =>
    intro row0 hk hsub hlen
    obtain ⟨s, v⟩ := p
    rw [List.map_cons, List.nodup_cons] at hk
    have hs : s ∈ S := hsub (s, v) (List.mem_cons_self _ _)
    have hcol : @List.indexOf SourceID instBEqOfDecidableEq s S < S.length := List.indexOf_lt_length.mpr hs
    rw [insertRow, if_neg (by omega), ih (row0.set (@List.indexOf SourceID instBEqOfDecidableEq s S) v) hk.2
      (fun p hp => hsub p (List.mem_cons_of_mem _ hp)) (by simp [hlen])]
    congr 1
    apply List.ext_getElem
    · simp
    · intro i h1 h2
      simp only [List.getElem_zipWith, List.getElem_set, mapGet_cons]
      have hi : i < S.length := by simp at h2; omega
      by_cases hic : @List.indexOf SourceID instBEqOfDecidableEq s S = i
      · have hsi : S[i] = s := by
          subst hic
          exact List.getElem_indexOf hcol
        have hnone : mapGet vals s = none := (mapGet_eq_none vals s).mpr hk.1
        simp [hic, hsi, hnone]
      · have hsi : ¬ s = S[i] := by
          intro h
          apply hic
          subst h
          exact List.indexOf_getElem hS i hi
        simp [hic, hsi]

theorem insertRow_replicate (S : List SourceID) (hS : S.Nodup) (vals : List (SourceID × Bytes))
    (hk : (vals.map Prod.fst).Nodup) (hsub : ∀ p ∈ vals, p.1 ∈ S) :
    insertRow S vals (List.replicate S.length [])
      = .ok (S.map (fun s => (mapGet vals s).getD [])) := by
  rw [insertRow_spec S hS vals _ hk hsub (by simp)]
  congr 1
  apply List.ext_getElem
  · simp
  · intro i h1 h2
    simp

/-! ## Big-endian encodings -/

theorem Fin_ofNat_val (b : Byte) : (Fin.ofNat b.val : Byte) = b := by
  apply Fin.ext
  simp [Fin.ofNat, Nat.mod_eq_of_lt b.isLt]

theorem bytesToNat_append (l : Bytes) (b : Byte) :
    bytesToNat (l ++ [b]) = bytesToNat l * 256 + b.val := by
  simp [bytesToNat, List.foldl_append]

theorem bytesToNat_cons (b : Byte) (l : Bytes) :
    bytesToNat (b :: l) = b.val * 256 ^ l.length + bytesToNat l := by
  induction l using List.reverseRecOn with
  | nil => simp [bytesToNat]
  | append_singleton l c ih =>
    rw [← List.cons_append, bytesToNat_append, ih, bytesToNat_append, List.length_append,
      List.length_singleton, pow_succ]
    ring

theorem bytesToNat_lt (l : Bytes) : bytesToNat l < 256 ^ l.length := by
  induction l using List.reverseRecOn with
  | nil => simp [bytesToNat]
  | append_singleton l c ih =>
    rw [bytesToNat_append, List.length_append, List.length_singleton, pow_succ]
    have := c.isLt
    omega

theorem natBytesAux_zero (fuel : Nat) (acc : Bytes) : natBytesAux fuel 0 acc = acc := by
  cases fuel <;> simp [natBytesAux]

theorem natBytesAux_bytesToNat (l : Bytes) (hl : ∀ h : l ≠ [], l.head h ≠ 0) :
    ∀ (fuel : Nat) (acc : Bytes), bytesToNat l ≤ fuel →
      natBytesAux fuel (bytesToNat l) acc = l ++ acc := by
  induction l using List.reverseRecOn with
  | nil => intro fuel acc _; simp [bytesToNat, natBytesAux_zero]
  | append_singleton l b ih =>
    intro fuel acc hfuel
    rw [bytesToNat_append] at hfuel ⊢
    have hb := b.isLt
    have hpos : 0 < bytesToNat l * 256 + b.val := by
      rcases l with _ | ⟨c, l⟩
      · have h0 := hl (by simp)
        have : b.val ≠ 0 := fun h => h0 (by simpa using Fin.ext h)
        simp only [bytesToNat, List.foldl_nil]
        omega
      · have h0 := hl (by simp)
        have hc : c.val ≠ 0 := fun h => h0 (by simpa using Fin.ext h)
        have := bytesToNat_cons c l
        have : 0 < c.val * 256 ^ l.length := Nat.mul_pos (Nat.pos_of_ne_zero hc) (by positivity)
        omega
    obtain ⟨f, rfl⟩ : ∃ f, fuel = f + 1 := ⟨fuel - 1, by omega⟩
    have hl2 : ∀ h : l ≠ [], l.head h ≠ 0 := by
      intro h
      have := hl (by simp)
      rwa [List.head_append_of_ne_nil h] at this
    have hdiv : (bytesToNat l * 256 + b.val) / 256 = bytesToNat l := by omega
    have hmod : (bytesToNat l * 256 + b.val) % 256 = b.val := by omega
    rw [natBytesAux, if_neg (by omega), hdiv, hmod, Fin_ofNat_val, ih hl2 f _ (by omega)]
    simp

theorem natBytes_bytesToNat (l : Bytes) (hl : ∀ h : l ≠ [], l.head h ≠ 0) :
    natBytes (bytesToNat l) = l := by
  rw [natBytes, natBytesAux_bytesToNat l hl _ _ le_rfl, List.append_nil]

theorem length_fillBytes (n x : Nat) : (fillBytes n x).length = n := by
  induction n generalizing x with
  | zero => rfl
  | succ n ih => simp [fillBytes, ih]

theorem bytesToNat_fillBytes (n x : Nat) : bytesToNat (fillBytes n x) = x % 256 ^ n := by
  induction n generalizing x with
  | zero => simp [fillBytes, bytesToNat, Nat.mod_one]
  | succ n ih =>
    rw [fillBytes, bytesToNat_append, ih, pow_succ, mul_comm (256 ^ n) 256, Nat.mod_mul]
    simp only [Fin.ofNat, Nat.mod_mod]
    have : x % 256 % (255 + 1) = x % 256 := Nat.mod_mod _ _
    omega

/-! ## Modular square roots -/

theorem powModAux_modEq (m : Nat) : ∀ (fuel base e acc : Nat), e ≤ fuel →
    powModAux fuel base e m acc ≡ acc * base ^ e [MOD m] := by
  intro fuel
  induction fuel with
  | zero =>
    intro base e acc he
    have : e = 0 := by omega
    subst this
    simp [powModAux, Nat.ModEq]
  | succ fuel ih =>
    intro base e acc he
    rw [powModAux]
    by_cases h0 : e = 0
    · subst h0
      simp [Nat.ModEq]
    · rw [if_neg h0]
      have hsq : base * base % m ≡ base ^ 2 [MOD m] := by
        rw [pow_two]
        exact Nat.mod_modEq _ _
      have hpow : (base * base % m) ^ (e / 2) ≡ base ^ (2 * (e / 2)) [MOD m] := by
        rw [pow_mul]
        exact hsq.pow _
      refine (ih _ _ _ (by omega)).trans ?_
      by_cases hodd : e % 2 = 1
      · rw [if_pos hodd]
        have he2 : e = 2 * (e / 2) + 1 := by omega
        have : acc * base ^ e = acc * base * base ^ (2 * (e / 2)) := by
          conv_lhs => rw [he2]
          ring
        rw [this]
        exact (Nat.mod_modEq _ _).mul hpow
      · rw [if_neg hodd]
        have he2 : e = 2 * (e / 2) := by omega
        conv_rhs => rw [he2]
        exact Nat.ModEq.mul_left _ hpow

theorem powModAux_lt (m : Nat) (hm : 0 < m) : ∀ (fuel base e acc : Nat), acc < m →
    powModAux fuel base e m acc < m := by
  intro fuel
  induction fuel with
  | zero => intro base e acc h; simpa [powModAux] using h
  | succ fuel ih =>
    intro base e acc h
    rw [powModAux]
    split
    · exact h
    · apply ih
      split
      · exact Nat.mod_lt _ hm
      · exact h

theorem powMod_modEq (b e m : Nat) : powMod b e m ≡ b ^ e [MOD m] := by
  unfold powMod
  refine (powModAux_modEq m e (b % m) e (1 % m) le_rfl).trans ?_
  have h1 : 1 % m * (b % m) ^ e ≡ 1 * b ^ e [MOD m] :=
    (Nat.mod_modEq 1 m).mul ((Nat.mod_modEq b m).pow e)
  simpa using h1

theorem powMod_lt (b e m : Nat) (hm : 1 < m) : powMod b e m < m := by
  unfold powMod
  exact powModAux_lt m (by omega) _ _ _ _ (Nat.mod_lt _ (by omega))

/-- A value returned by `ModSqrt` modulo the P-256 prime is a reduced square root. -/
theorem ModSqrt_curveP (a y : Nat) (h : ModSqrt a curveP = some y) :
    y < curveP ∧ y * y % curveP = a % curveP := by
  have hP : 1 < curveP := by unfold curveP; norm_num
  unfold ModSqrt at h
  simp only at h
  split at h
  · rename_i h0
    simp only [Option.some.injEq] at h
    subst h
    exact ⟨by omega, by simp [h0]⟩
  · split at h
    · rename_i h0 h1
      simp only [Option.some.injEq] at h
      subst h
      refine ⟨powMod_lt _ _ _ hP, ?_⟩
      have hy := powMod_modEq (a % curveP) ((curveP + 1) / 4) curveP
      have he := powMod_modEq (a % curveP) ((curveP - 1) / 2) curveP
      rw [h1] at he
      have hexp : (curveP + 1) / 4 + (curveP + 1) / 4 = (curveP - 1) / 2 + 1 := by
        unfold curveP
        norm_num
      have hsq : powMod (a % curveP) ((curveP + 1) / 4) curveP *
          powMod (a % curveP) ((curveP + 1) / 4) curveP ≡ a % curveP [MOD curveP] := by
        refine (hy.mul hy).trans ?_
        rw [← pow_add, hexp, pow_succ]
        have := he.symm.mul_right (a % curveP)
        simpa using this
      have := hsq
      unfold Nat.ModEq at this
      rw [this, Nat.mod_mod]
    · simp at h

theorem polynomial_lt (x : Nat) : polynomial x < curveP := by
  unfold polynomial
  simp only
  have hP : (0 : Int) < (curveP : Int) := by unfold curveP; norm_num
  have h1 := Int.emod_lt_of_pos ((x : Int) * x * x - (((x <<< 1 : Nat) : Int) + x) + curveB) hP
  have h2 := Int.emod_nonneg ((x : Int) * x * x - (((x <<< 1 : Nat) : Int) + x) + curveB)
    (ne_of_gt hP)
  omega

/-! ## Message embedding -/

theorem embedLoop_ok (fuel i x x1 y : Nat) (h : embedLoop fuel i x = .ok (x1, y)) :
    ModSqrt (polynomial x1) curveP = some y ∧ x ≤ x1 ∧ x1 + 1 ≤ x + fuel := by
  induction fuel generalizing i x with
  | zero => simp [embedLoop] at h
  | succ fuel ih =>
    rw [embedLoop] at h
    split at h
    · rename_i y1 hy
      simp only [Except.ok.injEq, Prod.mk.injEq] at h
      obtain ⟨rfl, rfl⟩ := h
      exact ⟨hy, le_rfl, by omega⟩
    · split at h
      · simp at h
      · obtain ⟨h1, h2, h3⟩ := ih _ _ h
        exact ⟨h1, by omega, by omega⟩

/-- The candidate on which the embedding loop stops is a point of the curve as
soon as it is below the field prime. -/
theorem embedLoop_IsOnCurve (fuel i x x1 y : Nat) (h : embedLoop fuel i x = .ok (x1, y))
    (hx : x1 < curveP) : IsOnCurve x1 y = true := by
  obtain ⟨hs, _, _⟩ := embedLoop_ok _ _ _ _ _ h
  obtain ⟨hy, hsq⟩ := ModSqrt_curveP _ _ hs
  rw [Nat.mod_eq_of_lt (polynomial_lt x1)] at hsq
  simp [IsOnCurve, hx, hy, hsq]

theorem firstCandidate_add (p : Bytes) (j : Nat) (hj : j ≤ 253) :
    firstCandidate p + j = bytesToNat ((4 : Byte) :: (p ++ [byteOfNat (2 + j)])) := by
  unfold firstCandidate
  rw [← List.cons_append, ← List.cons_append, bytesToNat_append, bytesToNat_append]
  have : (byteOfNat (2 + j)).val = 2 + j := by
    simp only [byteOfNat, Fin.ofNat]
    omega
  rw [this]
  simp only [Fin.val_two]
  omega

theorem firstCandidate_lt (p : Bytes) (hlen : p.length ≤ 30) :
    firstCandidate p + 254 < curveP := by
  unfold firstCandidate
  rw [bytesToNat_cons]
  have h1 := bytesToNat_lt (p ++ [(2 : Byte)])
  have h2 : (256 : Nat) ^ (p ++ [(2 : Byte)]).length ≤ 256 ^ 31 := by
    apply Nat.pow_le_pow_right (by norm_num)
    simp only [List.length_append, List.length_singleton]
    omega
  have h3 : ((4 : Byte).val) = 4 := rfl
  rw [h3]
  have h4 : 4 * (256 : Nat) ^ 31 + 256 ^ 31 + 254 < curveP := by
    unfold curveP
    norm_num
  nlinarith

/-- What a successful `NewMessageFromBytes` returns: the element decoded from the
uncompressed encoding of a point `(x, y)` of the curve, where `x` is one of the 255
candidates and `y` the square root found for it. -/
theorem NewMessageFromBytes_ok (p : Bytes) (m : Message G)
    (h : (NewMessageFromBytes p : Except Fault (Message G)) = .ok m) :
    p ≠ [] ∧ ∃ x y, embedLoop 255 1 (firstCandidate p) = .ok (x, y) ∧
      IsOnCurve x y = true ∧
      CurveGroup.unmarshalBinary ((4 : Byte) :: (fillBytes 32 x ++ fillBytes 32 y)) = some m.m := by
  unfold NewMessageFromBytes at h
  by_cases hne : p.length = 0
  · simp [hne] at h
  · refine ⟨by intro h0; simp [h0] at hne, ?_⟩
    simp only [hne, if_false] at h
    cases hloop : embedLoop 255 1 (bytesToNat ((4 : Byte) :: (p ++ [(2 : Byte)]))) with
    | error e => simp [hloop] at h
    | ok xy =>
      obtain ⟨x, y⟩ := xy
      simp only [hloop] at h
      have hx : firstCandidate p ≤ x := (embedLoop_ok _ _ _ _ _ hloop).2.1
      have hpos : 0 < firstCandidate p := by
        unfold firstCandidate
        rw [bytesToNat_cons]
        have h3 : ((4 : Byte).val) = 4 := rfl
        rw [h3]
        positivity
      by_cases hcurve : (x = 0 ∧ y = 0) ∨ IsOnCurve x y = true
      · have hcurve2 : IsOnCurve x y = true := by
          rcases hcurve with ⟨h0, _⟩ | h1
          · omega
          · exact h1
        simp only [ellipticMarshal, hcurve, if_true] at h
        cases hres : (Point.UnmarshalBinary ((4 : Byte) :: (fillBytes 32 x ++ fillBytes 32 y)) :
            Option G) with
        | none => simp [hres] at h
        | some result =>
          simp only [hres, Except.ok.injEq] at h
          subst h
          exact ⟨x, y, hloop, hcurve2, hres⟩
      · simp [ellipticMarshal, hcurve] at h

/-- Recovery of an embedded payload: if `NewMessageFromBytes` succeeds on a payload
of 1 to 30 bytes on one of its first 254 candidates, `GetMessageBytes` returns the
payload. -/
theorem GetMessageBytes_NewMessageFromBytes (p : Bytes) (hlen : p.length ≤ 30) (m : Message G)
    (h : (NewMessageFromBytes p : Except Fault (Message G)) = .ok m)
    (hc : EmbedsInCounterByte p) : m.GetMessageBytes = .ok p := by
  obtain ⟨hne, x, y, hloop, hcurve, hun⟩ := NewMessageFromBytes_ok p m h
  obtain ⟨x1, y1, hloop1, hx1⟩ := hc
  rw [hloop] at hloop1
  simp only [Except.ok.injEq, Prod.mk.injEq] at hloop1
  obtain ⟨rfl, rfl⟩ := hloop1
  obtain ⟨hsqrt, hge, _⟩ := embedLoop_ok _ _ _ _ _ hloop
  obtain ⟨Q, hQ, hmarshal⟩ := CurveGroup.unmarshal_uncompressed (G := G) x y hcurve
  rw [hun] at hQ
  simp only [Option.some.injEq] at hQ
  subst hQ
  obtain ⟨j, rfl⟩ : ∃ j, x = firstCandidate p + j := ⟨x - firstCandidate p, by omega⟩
  have hj : j ≤ 253 := by omega
  have hxlt : firstCandidate p + j < curveP := by
    have := firstCandidate_lt p hlen
    omega
  have hx256 : firstCandidate p + j < 256 ^ 32 := by
    have : curveP < 256 ^ 32 := by unfold curveP; norm_num
    omega
  have hpre : byteOfNat (2 + y % 2) = 2 ∨ byteOfNat (2 + y % 2) = 3 := by
    rcases Nat.mod_two_eq_zero_or_one y with h0 | h1
    · left; rw [h0]; rfl
    · right; rw [h1]; rfl
  unfold Message.GetMessageBytes Point.MarshalBinary
  rw [hmarshal]
  simp only [UnmarshalCompressed, hpre, length_fillBytes, and_self, if_true,
    bytesToNat_fillBytes, Nat.mod_eq_of_lt hx256, hxlt, hsqrt]
  rw [firstCandidate_add p j hj, natBytes_bytesToNat _ (by intro _; simp)]
  simp

/-- A payload of 1 to 30 bytes that embeds on one of the first 254 candidates is
accepted by `NewMessageFromBytes` and recovered by `GetMessageBytes`. -/
theorem NewMessageFromBytes_of_embeds (p : Bytes) (hne : p ≠ []) (hlen : p.length ≤ 30)
    (hc : EmbedsInCounterByte p) :
    ∃ m : Message G, (NewMessageFromBytes p : Except Fault (Message G)) = .ok m ∧
      m.GetMessageBytes = .ok p := by
  have hc2 := hc
  obtain ⟨x, y, hloop, hx⟩ := hc
  have hlt := firstCandidate_lt p hlen
  have hcurve := embedLoop_IsOnCurve _ _ _ _ _ hloop (by omega)
  obtain ⟨Q, hQ, _⟩ := CurveGroup.unmarshal_uncompressed (G := G) x y hcurve
  have hlen0 : p.length ≠ 0 := fun h => hne (List.length_eq_zero.mp h)
  have hok : (NewMessageFromBytes p : Except Fault (Message G)) = .ok { m := Q } := by
    unfold NewMessageFromBytes
    simp only [hlen0, if_false]
    have hloop2 : embedLoop 255 1 (bytesToNat ((4 : Byte) :: (p ++ [(2 : Byte)]))) = .ok (x, y) :=
      hloop
    simp only [hloop2, ellipticMarshal, hcurve, or_true, if_true, Point.UnmarshalBinary, hQ]
  exact ⟨_, hok, GetMessageBytes_NewMessageFromBytes p hlen _ hok hc2⟩

/-! ## Padding and chunking -/

theorem byteOfNat_val (n : Nat) (h : n ≤ 255) : (byteOfNat n).val = n := by
  simp only [byteOfNat, Fin.ofNat]
  omega

theorem pad_eq (d : Bytes) (bs : Nat) (hbs : 1 ≤ bs) :
    pad d bs = d ++ List.replicate (bs - d.length % bs) (byteOfNat (bs - d.length % bs)) := by
  have : d.length % bs < bs := Nat.mod_lt _ (by omega)
  unfold pad
  simp only
  rw [if_neg (by omega)]

theorem length_pad (d : Bytes) (bs : Nat) (hbs : 1 ≤ bs) :
    (pad d bs).length = bs * (d.length / bs + 1) := by
  rw [pad_eq d bs hbs, List.length_append, List.length_replicate]
  have h1 : d.length % bs < bs := Nat.mod_lt _ (by omega)
  have h2 := Nat.div_add_mod d.length bs
  rw [Nat.mul_add, Nat.mul_one]
  omega

theorem unpad_append_replicate (d : Bytes) (k : Nat) (hk1 : 1 ≤ k) (hk2 : k ≤ 255) :
    unpad (d ++ List.replicate k (byteOfNat k)) = .ok d := by
  obtain ⟨j, rfl⟩ : ∃ j, k = j + 1 := ⟨k - 1, by omega⟩
  have hlast : (d ++ List.replicate (j + 1) (byteOfNat (j + 1))).getLast? = some (byteOfNat (j + 1)) := by
    rw [List.replicate_succ', ← List.append_assoc, List.getLast?_append]
    simp
  unfold unpad
  rw [hlast]
  simp only [byteOfNat_val _ hk2, List.length_append, List.length_replicate]
  rw [if_neg (by omega)]
  have hsub : d.length + (j + 1) - (j + 1) = d.length := by omega
  rw [hsub, List.drop_left, List.take_left]
  simp [byteOfNat_val _ hk2]

/-- Removing the padding that `pad` appended gives back the data. -/
theorem unpad_pad (d : Bytes) (bs : Nat) (hbs1 : 1 ≤ bs) (hbs2 : bs ≤ 255) :
    unpad (pad d bs) = .ok d := by
  rw [pad_eq d bs hbs1]
  have : d.length % bs < bs := Nat.mod_lt _ (by omega)
  exact unpad_append_replicate d _ (by omega) (by omega)

theorem chunks_spec : ∀ (k fuel : Nat) (data : Bytes), data.length = PAYLOADSIZE * k → k ≤ fuel →
    (chunks fuel data).flatten = data ∧ (chunks fuel data).length = k ∧
      ∀ c ∈ chunks fuel data, c.length = PAYLOADSIZE := by
  intro k
  induction k with
  | zero =>
    intro fuel data hlen _
    have : data = [] := List.length_eq_zero.mp (by simpa using hlen)
    subst this
    cases fuel <;> simp [chunks]
  | succ k ih =>
    intro fuel data hlen hfuel
    obtain ⟨f, rfl⟩ : ∃ f, fuel = f + 1 := ⟨fuel - 1, by omega⟩
    have hpos : data.length ≠ 0 := by
      rw [hlen]; unfold PAYLOADSIZE; omega
    have hdrop : (data.drop PAYLOADSIZE).length = PAYLOADSIZE * k := by
      rw [List.length_drop, hlen, Nat.mul_succ]; omega
    obtain ⟨h1, h2, h3⟩ := ih f (data.drop PAYLOADSIZE) hdrop (by omega)
    rw [chunks, if_neg hpos]
    refine ⟨?_, ?_, ?_⟩
    · rw [List.flatten_cons, h1, List.take_append_drop]
    · rw [List.length_cons, h2]
    · intro c hc
      rcases List.mem_cons.mp hc with rfl | hc
      · rw [List.length_take, hlen, Nat.mul_succ]; omega
      · exact h3 c hc

theorem chunks_pad (v : Bytes) :
    (chunks (pad v PAYLOADSIZE).length (pad v PAYLOADSIZE)).flatten = pad v PAYLOADSIZE ∧
    (chunks (pad v PAYLOADSIZE).length (pad v PAYLOADSIZE)).length = v.length / PAYLOADSIZE + 1 ∧
    ∀ c ∈ chunks (pad v PAYLOADSIZE).length (pad v PAYLOADSIZE), c.length = PAYLOADSIZE := by
  have hlen := length_pad v PAYLOADSIZE (by unfold PAYLOADSIZE; omega)
  refine chunks_spec (v.length / PAYLOADSIZE + 1) _ _ hlen ?_
  rw [hlen]
  unfold PAYLOADSIZE
  omega

/-! ## A model of the library interfaces

The laws of `CurveGroup` and `SymLib` are satisfiable: the cyclic group of the
integers modulo `2^257 + 1`, in which the element `2x + s + 1` stands for the
compressed encoding `(0x02 | s) || X` and `0` is the identity, satisfies them.  The
theorems below are instantiated in this model. -/

def modelOrder : Nat := 0x20000000000000000000000000000000000000000000000000000000000000001

structure ModelPoint where
  val : Nat
  isLt : val < modelOrder
  deriving DecidableEq

theorem ModelPoint.ext_val {a b : ModelPoint} (h : a.val = b.val) : a = b := by
  cases a; cases b; simp only at h; subst h; rfl

theorem modelOrder_pos : 0 < modelOrder := by unfold modelOrder; norm_num

def ModelPoint.ofNat (n : Nat) : ModelPoint := ⟨n % modelOrder, Nat.mod_lt _ modelOrder_pos⟩

instance ModelPoint.commGroup : CommGroup ModelPoint where
  mul a b := ModelPoint.ofNat (a.val + b.val)
  one := ModelPoint.ofNat 0
  inv a := ModelPoint.ofNat (modelOrder - a.val)
  npow n a := ModelPoint.ofNat (n * a.val)
  mul_assoc a b c := by
    apply ModelPoint.ext_val
    show ((a.val + b.val) % modelOrder + c.val) % modelOrder
      = (a.val + (b.val + c.val) % modelOrder) % modelOrder
    have := a.isLt; have := b.isLt; have := c.isLt
    unfold modelOrder at *
    omega
  one_mul a := by
    apply ModelPoint.ext_val
    show (0 % modelOrder + a.val) % modelOrder = a.val
    have := a.isLt
    unfold modelOrder at *
    omega
  mul_one a := by
    apply ModelPoint.ext_val
    show (a.val + 0 % modelOrder) % modelOrder = a.val
    have := a.isLt
    unfold modelOrder at *
    omega
  npow_zero a := by
    apply ModelPoint.ext_val
    show (0 * a.val) % modelOrder = 0 % modelOrder
    rw [Nat.zero_mul]
  npow_succ n a := by
    apply ModelPoint.ext_val
    show ((n + 1) * a.val) % modelOrder = ((n * a.val) % modelOrder + a.val) % modelOrder
    rw [Nat.succ_mul]
    generalize n * a.val = k
    unfold modelOrder
    omega
  inv_mul_cancel a := by
    apply ModelPoint.ext_val
    show ((modelOrder - a.val) % modelOrder + a.val) % modelOrder = 0 % modelOrder
    have := a.isLt
    unfold modelOrder at *
    omega
  mul_comm a b := by
    apply ModelPoint.ext_val
    show (a.val + b.val) % modelOrder = (b.val + a.val) % modelOrder
    rw [Nat.add_comm]

/-- The compressed encoding in the model. -/
def ModelPoint.marshal (e : ModelPoint) : Bytes :=
  if e.val = 0 then [0]
  else byteOfNat (2 + (e.val - 1) % 2) :: fillBytes 32 ((e.val - 1) / 2)

/-- Decoding in the model: the identity `[0]`, a compressed encoding, or the
uncompressed encoding of a point of the curve. -/
def ModelPoint.unmarshal (data : Bytes) : Option ModelPoint :=
  match data with
  | [] => none
  | b :: rest =>
    if b = 0 ∧ rest = [] then some (ModelPoint.ofNat 0)
    else if (b = 2 ∨ b = 3) ∧ rest.length = 32 then
      some (ModelPoint.ofNat (2 * bytesToNat rest + (b.val - 2) + 1))
    else if b = 4 ∧ rest.length = 64 then
      let x := bytesToNat (rest.take 32)
      let y := bytesToNat (rest.drop 32)
      if IsOnCurve x y = true then some (ModelPoint.ofNat (2 * x + y % 2 + 1)) else none
    else none

/-- Hash-to-curve in the model: the point of the first candidate x-coordinate
`0x04 || msg[:30] || counter` that is on the curve. -/
def ModelPoint.hash (msg _dst : Bytes) : ModelPoint :=
  match embedLoop 255 1 (firstCandidate (msg.take 30)) with
  | .ok (x, y) => ModelPoint.ofNat (2 * x + y % 2 + 1)
  | .error _ => ModelPoint.ofNat 0

theorem curveP_lt : curveP < 256 ^ 32 := by unfold curveP; norm_num

theorem ModelPoint.one_val : (1 : ModelPoint).val = 0 := rfl

theorem ModelPoint.unmarshal_marshal (e : ModelPoint) :
    ModelPoint.unmarshal (ModelPoint.marshal e) = some e := by
  unfold ModelPoint.marshal
  by_cases h0 : e.val = 0
  · simp only [h0, if_true, ModelPoint.unmarshal, and_self]
    congr 1
    apply ModelPoint.ext_val
    simp [ModelPoint.ofNat, h0]
  · simp only [h0, if_false, ModelPoint.unmarshal]
    have hlt := e.isLt
    have hx : (e.val - 1) / 2 < 256 ^ 32 := by
      unfold modelOrder at hlt
      omega
    rcases Nat.mod_two_eq_zero_or_one (e.val - 1) with hs | hs
    · have hb : byteOfNat (2 + (e.val - 1) % 2) = 2 := by rw [hs]; rfl
      rw [hb]
      simp only [length_fillBytes, bytesToNat_fillBytes, Nat.mod_eq_of_lt hx]
      simp only [show ¬ ((2 : Byte) = 0 ∧ fillBytes 32 ((e.val - 1) / 2) = []) from
        fun h => absurd h.1 (by decide), if_false, true_or, and_self, if_true]
      congr 1
      apply ModelPoint.ext_val
      simp only [ModelPoint.ofNat, Fin.val_two]
      unfold modelOrder at *
      omega
    · have hb : byteOfNat (2 + (e.val - 1) % 2) = 3 := by rw [hs]; rfl
      rw [hb]
      simp only [length_fillBytes, bytesToNat_fillBytes, Nat.mod_eq_of_lt hx]
      simp only [show ¬ ((3 : Byte) = 0 ∧ fillBytes 32 ((e.val - 1) / 2) = []) from
        fun h => absurd h.1 (by decide), if_false, or_true, and_self, if_true]
      congr 1
      apply ModelPoint.ext_val
      have h3 : ((3 : Byte).val) = 3 := rfl
      simp only [ModelPoint.ofNat, h3]
      unfold modelOrder at *
      omega

theorem IsOnCurve_lt {x y : Nat} (h : IsOnCurve x y = true) : x < curveP ∧ y < curveP := by
  simp only [IsOnCurve, Bool.and_eq_true, decide_eq_true_eq] at h
  exact ⟨h.1.1, h.1.2⟩

theorem ModelPoint.unmarshal_uncompressed (x y : Nat) (h : IsOnCurve x y = true) :
    ∃ Q : ModelPoint,
      ModelPoint.unmarshal ((4 : Byte) :: (fillBytes 32 x ++ fillBytes 32 y)) = some Q ∧
      ModelPoint.marshal Q = byteOfNat (2 + y % 2) :: fillBytes 32 x := by
  obtain ⟨hx, hy⟩ := IsOnCurve_lt h
  have hP := curveP_lt
  refine ⟨ModelPoint.ofNat (2 * x + y % 2 + 1), ?_, ?_⟩
  · simp only [ModelPoint.unmarshal, List.length_append, length_fillBytes]
    simp only [show ¬ ((4 : Byte) = 0 ∧ fillBytes 32 x ++ fillBytes 32 y = []) from
      fun h => absurd h.1 (by decide), if_false,
      show ¬ (((4 : Byte) = 2 ∨ (4 : Byte) = 3) ∧ 32 + 32 = 32) from by decide, true_and]
    rw [List.take_left' (length_fillBytes 32 x), List.drop_left' (length_fillBytes 32 x)]
    have e1 : bytesToNat (fillBytes 32 x) = x := by
      rw [bytesToNat_fillBytes, Nat.mod_eq_of_lt (lt_trans hx hP)]
    have e2 : bytesToNat (fillBytes 32 y) = y := by
      rw [bytesToNat_fillBytes, Nat.mod_eq_of_lt (lt_trans hy hP)]
    simp only [e1, e2, h, if_true, and_self]
  · have hval : (ModelPoint.ofNat (2 * x + y % 2 + 1)).val = 2 * x + y % 2 + 1 := by
      simp only [ModelPoint.ofNat]
      apply Nat.mod_eq_of_lt
      unfold modelOrder
      have : y % 2 < 2 := Nat.mod_lt _ (by norm_num)
      have : (256 : Nat) ^ 32 = 0x10000000000000000000000000000000000000000000000000000000000000000 := by
        norm_num
      omega
    simp only [ModelPoint.marshal, hval, Nat.add_sub_cancel, if_neg (Nat.succ_ne_zero _)]
    have h1 : (2 * x + y % 2) % 2 = y % 2 := by omega
    have h2 : (2 * x + y % 2) / 2 = x := by omega
    rw [h1, h2]

instance ModelPoint.curveGroup : CurveGroup ModelPoint where
  order := modelOrder
  order_pos := modelOrder_pos
  pow_order P := by
    apply ModelPoint.ext_val
    show (modelOrder * P.val) % modelOrder = 0 % modelOrder
    rw [Nat.mul_mod_right, Nat.zero_mod]
  generator := ModelPoint.ofNat 1
  hashToElement := ModelPoint.hash
  marshalBinaryCompress := ModelPoint.marshal
  unmarshalBinary := ModelPoint.unmarshal
  marshal_length P hP := by
    have h0 : P.val ≠ 0 := fun h => hP (ModelPoint.ext_val (by rw [h, ModelPoint.one_val]))
    simp [ModelPoint.marshal, h0, length_fillBytes]
  unmarshal_marshal := ModelPoint.unmarshal_marshal
  unmarshal_uncompressed := ModelPoint.unmarshal_uncompressed

/-- A model of the symmetric primitives: a key stream that counts up from the
value of the key. -/
instance modelSymLib : SymLib where
  hkdfKey secret _salt _info n := (List.range n).map (fun i => byteOfNat (bytesToNat secret + i))
  keyStream key n := (List.range n).map (fun i => byteOfNat (bytesToNat key + i))
  hkdfKey_length := by intro _ _ _ n _; simp
  keyStream_length := by intro _ n; simp

/-! ## ElGamal: encryption, re-randomization, evaluation -/

theorem PKEEncrypt_encrypts (x r : Scalar G) (msg : Message G) :
    Encrypts x (PKEEncrypt (PKEKeyGen x).2 msg r) msg.m := by
  simp only [Encrypts, PKEEncrypt, PKEKeyGen, BaseExp, Mul]
  rw [ScalarExp_comm]

theorem ReRand_encrypts (x r : Scalar G) (ct : Ciphertext G) (M : G) (h : Encrypts x ct M) :
    Encrypts x (ReRand (PKEKeyGen x).2 ct r) M := by
  simp only [Encrypts, ReRand, PKEKeyGen, BaseExp, Mul] at *
  rw [h, ScalarExp_mul_point, ScalarExp_comm Gen x r, mul_assoc]

theorem OPRFEval_encrypts (x k r : Scalar G) (ct : Ciphertext G) (M : G) (h : Encrypts x ct M) :
    Encrypts x (OPRFEval k (PKEKeyGen x).2 ct r) (ScalarExp M k) := by
  unfold OPRFEval
  apply ReRand_encrypts
  simp only [Encrypts] at *
  rw [h, ScalarExp_mul_point, ScalarExp_comm]

theorem PKEDecrypt_encrypts (x : Scalar G) (ct : Ciphertext G) (M : G) (h : Encrypts x ct M) :
    PKEDecrypt (PKEKeyGen x).1 ct = { m := M } := by
  simp only [Encrypts] at h
  simp only [PKEDecrypt, PKEKeyGen, Scalar.Neg, Mul, h, ScalarExp_neg, mul_inv_cancel_right]

theorem MulBatched_eq_prod (l : List G) : MulBatched l = l.prod := by
  cases l with
  | nil => rfl
  | cons p ps =>
    simp only [MulBatched, List.prod_cons]
    induction ps generalizing p with
    | nil => simp
    | cons q qs ih => rw [List.foldl_cons, ih, List.prod_cons, Mul, mul_assoc]

theorem nonceSum_eq_sum (nonces : List (Scalar G)) : nonceSum nonces = nonces.sum := by
  have key : ∀ (l : List (Scalar G)) (a : Scalar G), l.foldl Scalar.Add a = a + l.sum := by
    intro l
    induction l with
    | nil => intro a; simp
    | cons b bs ih => intro a; rw [List.foldl_cons, ih, List.sum_cons, Scalar.Add, add_assoc]
  rw [nonceSum, key, NewScalar, Nat.cast_zero, zero_add]

theorem ScalarExp_sum (P : G) (l : List (Scalar G)) :
    ScalarExp P l.sum = (l.map (fun s => ScalarExp P s)).prod := by
  induction l with
  | nil => simp [ScalarExp_zero]
  | cons a as ih => rw [List.sum_cons, ScalarExp_add, ih, List.map_cons, List.prod_cons]

/-! ## Vector mode -/

theorem encryptChunks_spec (x : Scalar G) (r : Nat → Scalar G) :
    ∀ (cs : List Bytes) (idx : Nat),
      (∀ c ∈ cs, c.length = PAYLOADSIZE ∧ EmbedsInCounterByte c) →
      ∃ cts, encryptChunks (PKEKeyGen x).2 r idx cs = .ok cts ∧ EncryptsChunks x cts cs := by
  intro cs
  induction cs with
  | nil => intro idx _; exact ⟨[], rfl, List.Forall₂.nil⟩
  | cons c cs ih =>
    intro idx h
    obtain ⟨hlen, hemb⟩ := h c (List.mem_cons_self _ _)
    have hne : c ≠ [] := by
      intro h0; rw [h0] at hlen; simp [PAYLOADSIZE] at hlen
    obtain ⟨m, hm, hbytes⟩ := NewMessageFromBytes_of_embeds (G := G) c hne
      (by rw [hlen]; unfold PAYLOADSIZE; omega) hemb
    obtain ⟨cts, hcts, hrel⟩ := ih (idx + 1) (fun c hc => h c (List.mem_cons_of_mem _ hc))
    refine ⟨PKEEncrypt (PKEKeyGen x).2 m (r idx) :: cts, ?_, ?_⟩
    · rw [encryptChunks, hm]
      simp only [hcts]
    · exact List.Forall₂.cons ⟨m, PKEEncrypt_encrypts x (r idx) m, hbytes⟩ hrel

theorem collectResults_ok (bs : List Bytes) :
    collectResults (bs.map (fun b => (Except.ok b : Except Fault Bytes))) = .ok bs := by
  have h1 : (bs.map (fun b => (Except.ok b : Except Fault Bytes))).find? isPanicResult = none := by
    rw [List.find?_eq_none]
    intro r hr
    obtain ⟨b, _, rfl⟩ := List.mem_map.mp hr
    simp [isPanicResult]
  have h2 : collectOk (bs.map (fun b => (Except.ok b : Except Fault Bytes))) = .ok bs := by
    clear h1
    induction bs with
    | nil => rfl
    | cons b bs ih => simp only [List.map_cons, collectOk, ih]
  unfold collectResults
  rw [h1, h2]

theorem decrypt_map_of_chunks (x : Scalar G) (cts : List (Ciphertext G)) (cs : List Bytes)
    (h : EncryptsChunks x cts cs) :
    cts.map (fun ct => (PKEDecrypt (PKEKeyGen x).1 ct).GetMessageBytes)
      = cs.map (fun b => (Except.ok b : Except Fault Bytes)) := by
  induction h with
  | nil => rfl
  | cons hhead _ ih =>
    obtain ⟨m, hm, hb⟩ := hhead
    rw [List.map_cons, List.map_cons, ih, PKEDecrypt_encrypts x _ _ hm]
    have : ({ m := m.m } : Message G) = m := rfl
    rw [this, hb]

theorem PKEDecryptVector_of_chunks (x : Scalar G) (cts : List (Ciphertext G)) (cs : List Bytes)
    (h : EncryptsChunks x cts cs) :
    PKEDecryptVector (PKEKeyGen x).1 cts = unpad cs.flatten := by
  unfold PKEDecryptVector
  rw [decrypt_map_of_chunks x cts cs h, collectResults_ok]

theorem ReRand_encryptsBytes (x r : Scalar G) (ct : Ciphertext G) (c : Bytes)
    (h : EncryptsBytes x ct c) : EncryptsBytes x (ReRand (PKEKeyGen x).2 ct r) c := by
  obtain ⟨m, hm, hb⟩ := h
  exact ⟨m, ReRand_encrypts x r ct m.m hm, hb⟩

theorem ReRandVector_chunks (x : Scalar G) (r : Nat → Scalar G) (cts : List (Ciphertext G))
    (cs : List Bytes) (h : EncryptsChunks x cts cs) :
    EncryptsChunks x (ReRandVector (PKEKeyGen x).2 cts r) cs := by
  unfold ReRandVector List.enum
  generalize 0 = n
  induction h generalizing n with
  | nil => exact List.Forall₂.nil
  | cons hhead _ ih =>
    rw [List.enumFrom_cons, List.map_cons]
    exact List.Forall₂.cons (ReRand_encryptsBytes x _ _ _ hhead) (ih (n + 1))

/-- On a value whose chunks embed, `PKEEncryptVector` succeeds with one ciphertext
per `PAYLOADSIZE`-byte chunk of the padded value. -/
theorem PKEEncryptVector_spec (x : Scalar G) (r : Nat → Scalar G) (v : Bytes) (hv : ValueEmbeds v) :
    ∃ cts, PKEEncryptVector (PKEKeyGen x).2 v r = .ok cts ∧
      EncryptsChunks x cts (chunks (pad v PAYLOADSIZE).length (pad v PAYLOADSIZE)) ∧
      cts.length = v.length / PAYLOADSIZE + 1 := by
  obtain ⟨_, hn, hlen⟩ := chunks_pad v
  obtain ⟨cts, hcts, hrel⟩ := encryptChunks_spec x r
    (chunks (pad v PAYLOADSIZE).length (pad v PAYLOADSIZE)) 0 (fun c hc => ⟨hlen c hc, hv c hc⟩)
  exact ⟨cts, hcts, hrel, by rw [List.Forall₂.length_eq hrel, hn]⟩

/-- Ciphertexts that encrypt the chunks of a padded value decrypt to the value. -/
theorem PKEDecryptVector_of_value (x : Scalar G) (cts : List (Ciphertext G)) (v : Bytes)
    (h : EncryptsChunks x cts (chunks (pad v PAYLOADSIZE).length (pad v PAYLOADSIZE))) :
    PKEDecryptVector (PKEKeyGen x).1 cts = .ok v := by
  rw [PKEDecryptVector_of_chunks x cts _ h, (chunks_pad v).1]
  exact unpad_pad v PAYLOADSIZE (by unfold PAYLOADSIZE; omega) (by unfold PAYLOADSIZE; omega)

theorem embedsInCounterByte_iff (p : Bytes) :
    EmbedsInCounterByte p ↔ embedsInCounterByte p = true := by
  unfold EmbedsInCounterByte embedsInCounterByte
  constructor
  · rintro ⟨x, y, h, hx⟩
    rw [h]
    simpa using hx
  · intro h
    split at h
    · rename_i x y hloop
      exact ⟨x, y, hloop, by simpa using h⟩
    · simp at h

instance EmbedsInCounterByte.decidable (p : Bytes) : Decidable (EmbedsInCounterByte p) :=
  decidable_of_iff _ (embedsInCounterByte_iff p).symm

instance ValueEmbeds.decidable (v : Bytes) : Decidable (ValueEmbeds v) := by
  unfold ValueEmbeds
  infer_instance

/-! ## Serialization -/

theorem SerializeCiphertexts_eq (cts : List (Ciphertext G)) :
    SerializeCiphertexts cts = (cts.map Ciphertext.Serialize).flatten := by
  have key : ∀ (l : List (Ciphertext G)) (acc : Bytes),
      l.foldl (fun serialized ct => serialized ++ ct.Serialize) acc
        = acc ++ (l.map Ciphertext.Serialize).flatten := by
    intro l
    induction l with
    | nil => intro acc; simp
    | cons ct l ih => intro acc; rw [List.foldl_cons, ih]; simp
  rw [SerializeCiphertexts, key, List.nil_append]

theorem length_Serialize (ct : Ciphertext G) (h0 : ct.c0 ≠ 1) (h1 : ct.c1 ≠ 1) :
    ct.Serialize.length = 66 := by
  unfold Ciphertext.Serialize Point.MarshalBinary
  rw [List.length_append, CurveGroup.marshal_length _ h0, CurveGroup.marshal_length _ h1]

theorem DeserializeCiphertext_Serialize (ct : Ciphertext G) (h0 : ct.c0 ≠ 1) (h1 : ct.c1 ≠ 1) :
    (DeserializeCiphertext ct.Serialize : Except Fault (Ciphertext G)) = .ok ct := by
  have hlen := length_Serialize ct h0 h1
  unfold DeserializeCiphertext
  simp only [hlen, Nat.reduceMul, ne_eq, not_true_eq_false, if_false]
  have ht : ct.Serialize.take 33 = Point.MarshalBinary ct.c0 := by
    unfold Ciphertext.Serialize
    exact List.take_left' (CurveGroup.marshal_length _ h0)
  have hd : ct.Serialize.drop 33 = Point.MarshalBinary ct.c1 := by
    unfold Ciphertext.Serialize
    exact List.drop_left' (CurveGroup.marshal_length _ h0)
  rw [ht, hd]
  simp only [Point.UnmarshalBinary, Point.MarshalBinary, CurveGroup.unmarshal_marshal]

theorem deserializeLoop_Serialize (cts : List (Ciphertext G))
    (h : ∀ ct ∈ cts, ct.c0 ≠ 1 ∧ ct.c1 ≠ 1) :
    ∀ fuel, cts.length ≤ fuel →
      (deserializeLoop fuel (cts.map Ciphertext.Serialize).flatten :
        Except Fault (List (Ciphertext G))) = .ok cts := by
  induction cts with
  | nil => intro fuel _; cases fuel <;> simp [deserializeLoop]
  | cons ct cts ih =>
    intro fuel hfuel
    obtain ⟨f, rfl⟩ : ∃ f, fuel = f + 1 := ⟨fuel - 1, by simp at hfuel; omega⟩
    obtain ⟨h0, h1⟩ := h ct (List.mem_cons_self _ _)
    have hlen := length_Serialize ct h0 h1
    rw [deserializeLoop, List.map_cons, List.flatten_cons]
    rw [if_neg (by rw [List.length_append, hlen]; omega)]
    rw [List.take_left' hlen, List.drop_left' hlen, DeserializeCiphertext_Serialize ct h0 h1]
    simp only
    rw [ih (fun c hc => h c (List.mem_cons_of_mem _ hc)) f (by simp at hfuel; omega)]

theorem length_flatten_Serialize (cts : List (Ciphertext G))
    (h : ∀ ct ∈ cts, ct.c0 ≠ 1 ∧ ct.c1 ≠ 1) :
    (cts.map Ciphertext.Serialize).flatten.length = 66 * cts.length := by
  induction cts with
  | nil => rfl
  | cons ct cts ih =>
    obtain ⟨h0, h1⟩ := h ct (List.mem_cons_self _ _)
    rw [List.map_cons, List.flatten_cons, List.length_append, length_Serialize ct h0 h1,
      ih (fun c hc => h c (List.mem_cons_of_mem _ hc)), List.length_cons]
    omega

/-- Ciphertexts without identity components survive serialization. -/
theorem DeserializeCiphertexts_SerializeCiphertexts (cts : List (Ciphertext G))
    (h : ∀ ct ∈ cts, ct.c0 ≠ 1 ∧ ct.c1 ≠ 1) :
    (DeserializeCiphertexts (SerializeCiphertexts cts) : Except Fault (List (Ciphertext G)))
      = .ok cts := by
  have hlen := length_flatten_Serialize cts h
  unfold DeserializeCiphertexts
  rw [SerializeCiphertexts_eq]
  simp only [hlen, Nat.reduceMul, Nat.mul_mod_right, ne_eq, not_true_eq_false, if_false]
  exact deserializeLoop_Serialize cts h _ (by omega)

/-! ## The symmetric layer -/

theorem byte_xor_xor (a b : Byte) : (a ^^^ b) ^^^ b = a := by
  apply Fin.ext
  have ha : a.val < 2 ^ 8 := a.isLt
  have hb : b.val < 2 ^ 8 := b.isLt
  have hx : a.val ^^^ b.val < 2 ^ 8 := Nat.xor_lt_two_pow ha hb
  have ha1 : a.val < 256 := a.isLt
  have hx1 : a.val ^^^ b.val < 256 := hx
  show ((a.val ^^^ b.val) % 256 ^^^ b.val) % 256 = a.val
  rw [Nat.mod_eq_of_lt hx1, Nat.xor_assoc, Nat.xor_self, Nat.xor_zero, Nat.mod_eq_of_lt ha1]

theorem zipWith_xor_xor (p ks : Bytes) :
    List.zipWith (fun a b => a ^^^ b) (List.zipWith (fun a b => a ^^^ b) p ks) ks
      = p.take ks.length := by
  induction p generalizing ks with
  | nil => simp
  | cons a p ih =>
    cases ks with
    | nil => simp
    | cons k ks => simp [byte_xor_xor, ih]

/-- Decrypting under the key that encrypted gives back the plaintext. -/
theorem SymmetricDecrypt_SymmetricEncrypt [SymLib] (key p c : Bytes)
    (h : SymmetricEncrypt key p = .ok c) : SymmetricDecrypt key c = .ok p := by
  unfold SymmetricEncrypt ctr at h
  unfold SymmetricDecrypt ctr
  split at h
  · rename_i hk
    simp only [Except.ok.injEq] at h
    subst h
    rw [if_pos hk]
    have hlen : (List.zipWith (fun a b => a ^^^ b) p (SymLib.keyStream key p.length)).length
        = p.length := by
      simp [SymLib.keyStream_length]
    rw [hlen, zipWith_xor_xor, SymLib.keyStream_length, List.take_length]
  · simp at h

theorem SymmetricEncrypt_KeyFromPoint [SymLib] (R : G) (sid p : Bytes) :
    ∃ c, SymmetricEncrypt (KeyFromPoint R sid) p = .ok c := by
  have hlen : (KeyFromPoint R sid).length = 16 := by
    unfold KeyFromPoint
    rw [SymLib.hkdfKey_length _ _ _ _ (by unfold KEYSIZE; omega)]
    rfl
  unfold SymmetricEncrypt ctr
  rw [if_pos (Or.inl hlen)]
  exact ⟨_, rfl⟩

/-! ## The data source -/

theorem ProcessRow_spec (sid : Bytes) (b e : Scalar G) (uid val : Bytes) (rnd : RowRand G)
    (hv : ValueEmbeds val) :
    ∃ row, (NewDataSource sid { bpk := (PKEKeyGen b).2, epk := (PKEKeyGen e).2 }).ProcessRow
        uid val rnd = .ok row ∧ RowFor b e sid row (uid, val) := by
  obtain ⟨cts, hcts, hrel, _⟩ := PKEEncryptVector_spec e rnd.enc val hv
  refine ⟨{ Cuid := OPRFBlind (PKEKeyGen b).2 uid sid rnd.blind, Cval := cts }, ?_, ?_, hrel⟩
  · unfold DataSource.ProcessRow NewDataSource
    simp only [hcts]
  · exact PKEEncrypt_encrypts b rnd.blind (HashToMessage uid sid)

theorem processRows_spec (sid : Bytes) (b e : Scalar G) (rnd : Nat → RowRand G) :
    ∀ (l : List (Bytes × Bytes)) (idx : Nat), (∀ uv ∈ l, ValueEmbeds uv.2) →
      ∃ rows, processRows (NewDataSource sid { bpk := (PKEKeyGen b).2, epk := (PKEKeyGen e).2 })
          rnd idx l = some rows ∧ List.Forall₂ (RowFor b e sid) rows l := by
  intro l
  induction l with
  | nil => intro idx _; exact ⟨[], rfl, List.Forall₂.nil⟩
  | cons uv l ih =>
    intro idx h
    obtain ⟨uid, val⟩ := uv
    obtain ⟨row, hrow, hfor⟩ := ProcessRow_spec sid b e uid val (rnd idx)
      (h (uid, val) (List.mem_cons_self _ _))
    obtain ⟨rows, hrows, hrel⟩ := ih (idx + 1) (fun uv huv => h uv (List.mem_cons_of_mem _ huv))
    refine ⟨row :: rows, ?_, List.Forall₂.cons hfor hrel⟩
    rw [processRows, hrow]
    simp only [hrows]

/-- On a table whose values embed, `Prepare` returns one row per entry of the table:
the rows are preparations of the entries, in the order of processing. -/
theorem Prepare_spec (sid : Bytes) (b e : Scalar G) (rpk1 : PublicKeyTuple G) (table : TablePlain)
    (order : List Nat) (rnd : Nat → RowRand G) (ho : IsOrder order table.length)
    (hv : ∀ uv ∈ table, ValueEmbeds uv.2) :
    ∃ rows, (NewDataSource sid { bpk := (PKEKeyGen b).2, epk := (PKEKeyGen e).2 }).Prepare
        rpk1 table order rnd = .ok rows ∧
      rows.length = table.length ∧
      ∃ table1, List.Perm table1 table ∧ List.Forall₂ (RowFor b e sid) rows table1 := by
  have hperm := reorder_perm order table ho
  obtain ⟨rows, hrows, hrel⟩ := processRows_spec sid b e rnd (reorder order table) 0
    (fun uv huv => hv uv (hperm.subset huv))
  have hlen : rows.length = table.length := by
    rw [List.Forall₂.length_eq hrel, hperm.length_eq]
  refine ⟨rows, ?_, hlen, reorder order table, hperm, hrel⟩
  unfold DataSource.Prepare DataSource.PrepareStream
  simp only [hrows, hlen, ne_eq, not_true_eq_false, if_false]

/-! ## The helper -/

theorem sourceIndices_not_mem (s : SourceID) :
    ∀ (S : List SourceID) (n : Nat) (m : List (SourceID × Nat)), s ∉ S →
      mapGet ((S.enumFrom n).foldl (fun m isrc => mapSet m isrc.2 isrc.1) m) s = mapGet m s := by
  intro S
  induction S with
  | nil => intro n m _; rfl
  | cons a S ih =>
    intro n m hs
    rw [List.enumFrom_cons, List.foldl_cons, ih (n + 1) _ (fun h => hs (List.mem_cons_of_mem _ h)),
      mapGet_mapSet, if_neg (fun h => hs (by rw [← h]; exact List.mem_cons_self _ _))]

theorem sourceIndices_getElem :
    ∀ (S : List SourceID) (n : Nat) (m : List (SourceID × Nat)), S.Nodup →
      ∀ (i : Nat) (hi : i < S.length),
        mapGet ((S.enumFrom n).foldl (fun m isrc => mapSet m isrc.2 isrc.1) m) S[i] = some (n + i) := by
  intro S
  induction S with
  | nil => intro n m _ i hi; simp at hi
  | cons a S ih =>
    intro n m hS i hi
    rw [List.nodup_cons] at hS
    rw [List.enumFrom_cons, List.foldl_cons]
    cases i with
    | zero =>
      rw [List.getElem_cons_zero, sourceIndices_not_mem a S _ _ hS.1, mapGet_mapSet, if_pos rfl]
      rfl
    | succ j =>
      rw [List.getElem_cons_succ, ih (n + 1) _ hS.2 j (by simpa using hi)]
      congr 1
      omega

/-- The table index of a configured source is its position in the source list. -/
theorem indexOfSource_spec (sid : Bytes) (S : List SourceID) (nRows : Nat) (k : Scalar G)
    (nonce : Nat → Scalar G) (perm : List Nat) (hS : S.Nodup) (s : SourceID) (hs : s ∈ S) :
    ∃ i, (NewHelper sid S nRows k nonce perm).indexOfSource s = i ∧ S[i]? = some s := by
  obtain ⟨i, hi, rfl⟩ := List.getElem_of_mem hs
  refine ⟨i, ?_, List.getElem?_eq_getElem hi⟩
  unfold Helper.indexOfSource NewHelper Helper.genNonces
  simp only [List.enum]
  rw [sourceIndices_getElem S 0 [] hS i hi]
  simp

theorem ConvertRow_spec [SymLib] (sid : Bytes) (S : List SourceID) (nRows : Nat)
    (b e k : Scalar G) (nonce : Nat → Scalar G) (perm : List Nat) (task : ConvertRowTask G)
    (rnd : ConvRand G) (htidx : task.TableIndex < S.length)
    (hreg : ∀ ct ∈ ReRandVector (PKEKeyGen e).2 task.EncRowMsg.Cval rnd.rerand,
      ct.c0 ≠ 1 ∧ ct.c1 ≠ 1) :
    ∃ crow, (NewHelper sid S nRows k nonce perm).ConvertRow
        { bpk := (PKEKeyGen b).2, epk := (PKEKeyGen e).2 } task.EncRowMsg task.TableIndex rnd
        = .ok crow ∧
      ∀ p, TaskFor b e sid task p →
        HintRowFor b e k sid ((List.range S.length).map nonce) crow p := by
  obtain ⟨c, hc⟩ := SymmetricEncrypt_KeyFromPoint (RandomPoint rnd.point : G) sid
    (byteOfNat task.TableIndex ::
      SerializeCiphertexts (ReRandVector (PKEKeyGen e).2 task.EncRowMsg.Cval rnd.rerand))
  have hshare : ((List.range S.length).map nonce)[task.TableIndex]?
      = some (nonce task.TableIndex) := by
    rw [List.getElem?_map, List.getElem?_range htidx]
    rfl
  refine ⟨⟨OPRFEval k (PKEKeyGen b).2 task.EncRowMsg.Cuid rnd.conv, c,
    ⟨(OPRFEval (nonceSum ((List.range S.length).map nonce)) (PKEKeyGen b).2
        (OPRFEval k (PKEKeyGen b).2 task.EncRowMsg.Cuid rnd.conv) rnd.pad).c0,
      Mul (OPRFEval (nonceSum ((List.range S.length).map nonce)) (PKEKeyGen b).2
        (OPRFEval k (PKEKeyGen b).2 task.EncRowMsg.Cuid rnd.conv) rnd.pad).c1
        (RandomPoint rnd.point)⟩,
    OPRFEval (nonce task.TableIndex) (PKEKeyGen b).2
      (OPRFEval k (PKEKeyGen b).2 task.EncRowMsg.Cuid rnd.conv) rnd.hint⟩, ?_, ?_⟩
  · unfold Helper.ConvertRow Helper.blindAndHint NewHelper Helper.genNonces RandomKeyFromPoint
    simp only [hc, hshare]
  · intro p hp
    obtain ⟨hidx, hcuid, hcval⟩ := hp
    have hjoin := OPRFEval_encrypts b k rnd.conv _ _ hcuid
    refine ⟨hjoin, ⟨RandomPoint rnd.point,
      ReRandVector (PKEKeyGen e).2 task.EncRowMsg.Cval rnd.rerand, ?_, ?_, ?_, ?_⟩,
      ⟨nonce task.TableIndex, by rw [← hidx]; exact hshare, ?_⟩⟩
    · have h1 := OPRFEval_encrypts b (nonceSum ((List.range S.length).map nonce)) rnd.pad _ _ hjoin
      simp only [Encrypts, Mul] at h1 ⊢
      rw [h1]
      exact mul_right_comm _ _ _
    · rw [← hidx]
      exact SymmetricDecrypt_SymmetricEncrypt _ _ _ hc
    · exact DeserializeCiphertexts_SerializeCiphertexts _ hreg
    · exact ReRandVector_chunks e _ _ _ hcval
    · exact OPRFEval_encrypts b (nonce task.TableIndex) rnd.hint _ _ hjoin

theorem perm_set_none {α : Type} (l : List (Option α)) (j : Nat) (hj : j < l.length)
    (h : l[j] = none) (c : α) (rest : List (Option α)) (hl : List.Perm l (none :: rest)) :
    List.Perm (l.set j (some c)) (some c :: rest) := by
  have hsplit : l = l.take j ++ none :: l.drop (j + 1) := by
    conv_lhs => rw [← List.take_append_drop j l, List.drop_eq_getElem_cons hj, h]
  rw [List.set_eq_take_cons_drop _ hj]
  refine List.perm_middle.trans (List.Perm.cons _ ?_)
  rw [hsplit] at hl
  exact (List.perm_middle.symm.trans hl).cons_inv

theorem nodup_getElem_not_mem_take {l : List Nat} (h : l.Nodup) (i : Nat) (hi : i < l.length) :
    l[i] ∉ l.take i := by
  intro hmem
  rw [List.mem_take_iff_getElem] at hmem
  obtain ⟨j, hj, hjeq⟩ := hmem
  have hj1 : j < i := by omega
  have := (@List.Nodup.getElem_inj_iff _ l h j (by omega) i hi).mp hjeq
  omega

theorem convertLoop_spec [SymLib] (h : Helper G) (rpk : PublicKeyTuple G) (rnd : Nat → ConvRand G)
    (Q : ConvertRowTask G → EncRowWithHint G → Prop) (hnodup : h.rowPerm.Nodup) :
    ∀ (tasks : List (ConvertRowTask G)) (res : EncTableWithHint G) (i : Nat)
      (done : List (EncRowWithHint G)),
      (∀ j ∈ h.rowPerm, j < res.length) →
      i + tasks.length = h.rowPerm.length →
      List.Perm res (done.map some ++ List.replicate tasks.length none) →
      (∀ j, j < res.length → j ∉ h.rowPerm.take i → res[j]? = some none) →
      (∀ n task, tasks[n]? = some task →
        ∃ crow, h.ConvertRow rpk task.EncRowMsg task.TableIndex (rnd (i + n)) = .ok crow ∧
          Q task crow) →
      ∃ res1 crows, convertLoop h rpk rnd tasks res i = .ok res1 ∧
        List.Forall₂ Q tasks crows ∧ List.Perm res1 ((done ++ crows).map some) := by
  intro tasks
  induction tasks with
  | nil =>
    intro res i done _ _ hperm _ _
    exact ⟨res, [], rfl, List.Forall₂.nil, by simpa using hperm⟩
  | cons task rest ih =>
    intro res i done hbound hlen hperm hfree hconv
    obtain ⟨crow, hcrow, hQ⟩ := hconv 0 task (by simp)
    have hi : i < h.rowPerm.length := by simp at hlen; omega
    have hslot : h.rowPerm[i]? = some h.rowPerm[i] := List.getElem?_eq_getElem hi
    have hslotlt : h.rowPerm[i] < res.length := hbound _ (List.getElem_mem hi)
    have hnone : res[h.rowPerm[i]] = none := by
      have h1 := hfree _ hslotlt (nodup_getElem_not_mem_take hnodup i hi)
      rw [List.getElem?_eq_getElem hslotlt] at h1
      simpa using h1
    have hperm1 : List.Perm res
        (none :: (done.map some ++ List.replicate rest.length none)) := by
      refine hperm.trans ?_
      rw [List.length_cons, List.replicate_succ]
      exact List.perm_middle
    have hperm2 : List.Perm (res.set h.rowPerm[i] (some crow))
        ((done ++ [crow]).map some ++ List.replicate rest.length none) := by
      refine (perm_set_none res _ hslotlt hnone crow _ hperm1).trans ?_
      rw [List.map_append, List.append_assoc]
      exact List.perm_middle.symm
    have hfree2 : ∀ j, j < (res.set h.rowPerm[i] (some crow)).length →
        j ∉ h.rowPerm.take (i + 1) → (res.set h.rowPerm[i] (some crow))[j]? = some none := by
      intro j hj hnot
      rw [List.length_set] at hj
      rw [List.take_succ, hslot] at hnot
      simp only [Option.toList_some, List.mem_append, List.mem_singleton, not_or] at hnot
      rw [List.getElem?_set_ne (fun h1 => hnot.2 h1.symm)]
      exact hfree j hj hnot.1
    obtain ⟨res1, crows, hloop, hrel, hfinal⟩ := ih (res.set h.rowPerm[i] (some crow)) (i + 1)
      (done ++ [crow]) (by intro j hj; rw [List.length_set]; exact hbound j hj)
      (by simp at hlen ⊢; omega) hperm2 hfree2
      (by
        intro n t ht
        have := hconv (n + 1) t (by simpa using ht)
        rwa [show i + (n + 1) = i + 1 + n from by omega] at this)
    refine ⟨res1, crow :: crows, ?_, List.Forall₂.cons hQ hrel, by simpa using hfinal⟩
    rw [convertLoop]
    simp only [Nat.add_zero] at hcrow
    simp only [hcrow, hslot, hslotlt, if_true]
    exact hloop

theorem forall₂_exists_of_mem_left {α β : Type} {R : α → β → Prop} {l1 : List α} {l2 : List β}
    (h : List.Forall₂ R l1 l2) : ∀ a ∈ l1, ∃ b ∈ l2, R a b := by
  induction h with
  | nil => intro a ha; simp at ha
  | cons hhead _ ih =>
    intro a ha
    rcases List.mem_cons.mp ha with rfl | ha
    · exact ⟨_, List.mem_cons_self _ _, hhead⟩
    · obtain ⟨b, hb, hR⟩ := ih a ha
      exact ⟨b, List.mem_cons_of_mem _ hb, hR⟩

theorem forall₂_exists_of_mem_right {α β : Type} {R : α → β → Prop} {l1 : List α} {l2 : List β}
    (h : List.Forall₂ R l1 l2) : ∀ b ∈ l2, ∃ a ∈ l1, R a b := by
  induction h with
  | nil => intro b hb; simp at hb
  | cons hhead _ ih =>
    intro b hb
    rcases List.mem_cons.mp hb with rfl | hb
    · exact ⟨_, List.mem_cons_self _ _, hhead⟩
    · obtain ⟨a, ha, hR⟩ := ih b hb
      exact ⟨a, List.mem_cons_of_mem _ ha, hR⟩

theorem forall₂_combine {α β γ : Type} {Q : α → β → Prop} {T : α → γ → Prop}
    {R : β → γ → Prop} (hR : ∀ a b c, Q a b → T a c → R b c) :
    ∀ {l1 : List α} {l2 : List β} {l3 : List γ},
      List.Forall₂ Q l1 l2 → List.Forall₂ T l1 l3 → List.Forall₂ R l2 l3 := by
  intro l1 l2 l3 h1
  induction h1 generalizing l3 with
  | nil => intro h2; cases h2; exact List.Forall₂.nil
  | cons hhead _ ih =>
    intro h2
    cases h2 with
    | cons hhead2 htail2 => exact List.Forall₂.cons (hR _ _ _ hhead hhead2) (ih htail2)

theorem prepareAll_spec (sid : Bytes) (b e : Scalar G) (prepOrder : SourceID → List Nat)
    (prepRnd : SourceID → Nat → RowRand G) :
    ∀ (tables : List (SourceID × TablePlain)),
      (∀ st ∈ tables, IsOrder (prepOrder st.1) st.2.length ∧ ∀ uv ∈ st.2, ValueEmbeds uv.2) →
      ∃ encTables, prepareAll sid { bpk := (PKEKeyGen b).2, epk := (PKEKeyGen e).2 }
          prepOrder prepRnd tables = .ok encTables ∧
        List.Forall₂ (TableFor b e sid) encTables tables := by
  intro tables
  induction tables with
  | nil => intro _; exact ⟨[], rfl, List.Forall₂.nil⟩
  | cons st tables ih =>
    intro h
    obtain ⟨s, T⟩ := st
    obtain ⟨ho, hv⟩ := h (s, T) (List.mem_cons_self _ _)
    obtain ⟨rows, hrows, hlen, T1, hT1, hrel⟩ := Prepare_spec sid b e
      { bpk := (PKEKeyGen b).2, epk := (PKEKeyGen e).2 } T (prepOrder s) (prepRnd s) ho hv
    obtain ⟨encTables, hall, hrelall⟩ := ih (fun st hst => h st (List.mem_cons_of_mem _ hst))
    refine ⟨(s, rows) :: encTables, ?_, List.Forall₂.cons ⟨rfl, hlen, T1, hT1, hrel⟩ hrelall⟩
    rw [prepareAll]
    simp only [hrows, hall]

theorem tasks_spec (h : Helper G) (b e : Scalar G) (sid : Bytes)
    (encTables : List (SourceID × EncTable G)) (tables : List (SourceID × TablePlain))
    (hrel : List.Forall₂ (TableFor b e sid) encTables tables) :
    ∃ P1, List.Perm P1 (provenance h tables) ∧
      List.Forall₂ (TaskFor b e sid) (h.tasks encTables) P1 := by
  unfold provenance Helper.tasks
  induction hrel with
  | nil => exact ⟨[], List.Perm.refl _, List.Forall₂.nil⟩
  | @cons et st ets sts hhead _ ih =>
    obtain ⟨P1, hP1, hF⟩ := ih
    obtain ⟨hs, _, T1, hT1, hrows⟩ := hhead
    refine ⟨T1.map (fun uv => { uid := uv.1, tindex := h.indexOfSource st.1, val := uv.2 }) ++ P1,
      ?_, ?_⟩
    · rw [List.flatMap_cons]
      exact List.Perm.append (hT1.map _) hP1
    · rw [List.flatMap_cons]
      refine List.rel_append ?_ hF
      rw [List.forall₂_map_left_iff, List.forall₂_map_right_iff]
      refine List.Forall₂.imp ?_ hrows
      intro row uv hrow
      exact ⟨by simp only [Helper.indexOfSource, hs], hrow⟩

theorem length_tasks (h : Helper G) (encTables : List (SourceID × EncTable G)) (nRows : Nat)
    (hlen : ∀ et ∈ encTables, et.2.length = nRows) :
    (h.tasks encTables).length = nRows * encTables.length := by
  unfold Helper.tasks
  induction encTables with
  | nil => simp
  | cons et ets ih =>
    rw [List.flatMap_cons, List.length_append, List.length_map, ih
      (fun et het => hlen et (List.mem_cons_of_mem _ het)), hlen et (List.mem_cons_self _ _),
      List.length_cons, Nat.mul_succ]
    omega

theorem provenance_mem (h : Helper G) (tables : List (SourceID × TablePlain)) (p : Prov)
    (hp : p ∈ provenance h tables) :
    ∃ st ∈ tables, (p.uid, p.val) ∈ st.2 ∧ p.tindex = h.indexOfSource st.1 := by
  unfold provenance at hp
  rw [List.mem_flatMap] at hp
  obtain ⟨st, hst, hp⟩ := hp
  rw [List.mem_map] at hp
  obtain ⟨uv, huv, rfl⟩ := hp
  exact ⟨st, hst, huv, rfl⟩

/-- The helper converts prepared tables of the expected size into a table that
holds, in some order, one conversion of every plain row. -/
theorem Convert_spec [SymLib] (sid : Bytes) (S : List SourceID) (nRows : Nat)
    (b e k : Scalar G) (nonce : Nat → Scalar G) (perm : List Nat) (hS : S.Nodup)
    (encTables : List (SourceID × EncTable G)) (tables : List (SourceID × TablePlain))
    (hrel : List.Forall₂ (TableFor b e sid) encTables tables)
    (hsrc : ∀ st ∈ tables, st.1 ∈ S) (hlenT : ∀ st ∈ tables, st.2.length = nRows)
    (hcount : tables.length = S.length) (hperm : IsOrder perm (nRows * S.length))
    (order : List Nat) (horder : IsOrder order (nRows * S.length)) (rnd : Nat → ConvRand G)
    (hreg : RerandRegular (PKEKeyGen e).2
      (reorder order ((NewHelper sid S nRows k nonce perm).tasks encTables)) rnd) :
    ∃ joined crows P2,
      (NewHelper sid S nRows k nonce perm).Convert
        { bpk := (PKEKeyGen b).2, epk := (PKEKeyGen e).2 } encTables order rnd = .ok joined ∧
      List.Perm joined (crows.map some) ∧
      List.Forall₂ (HintRowFor b e k sid ((List.range S.length).map nonce)) crows P2 ∧
      List.Perm P2 (provenance (NewHelper sid S nRows k nonce perm) tables) := by
  have hlenE : ∀ et ∈ encTables, et.2.length = nRows := by
    intro et het
    obtain ⟨st, hst, _, hl, _⟩ := forall₂_exists_of_mem_left hrel et het
    rw [hl, hlenT st hst]
  have hlen0 : ((NewHelper sid S nRows k nonce perm).tasks encTables).length
      = nRows * S.length := by
    rw [length_tasks _ _ nRows hlenE, List.Forall₂.length_eq hrel, hcount]
  obtain ⟨P1, hP1, hT⟩ := tasks_spec (NewHelper sid S nRows k nonce perm) b e sid _ _ hrel
  have hre := reorder_perm order ((NewHelper sid S nRows k nonce perm).tasks encTables)
    (by rw [hlen0]; exact horder)
  obtain ⟨P2, hT2, hP2⟩ := List.perm_comp_forall₂ hre hT
  have hpermlen : perm.length = nRows * S.length := by
    rw [List.Perm.length_eq hperm, List.length_range]
  have hidx : ∀ p ∈ P2, p.tindex < S.length := by
    intro p hp
    obtain ⟨st, hst, _, hti⟩ := provenance_mem _ _ p ((hP2.trans hP1).subset hp)
    obtain ⟨i, hi, hsi⟩ := indexOfSource_spec sid S nRows k nonce perm hS st.1 (hsrc st hst)
    rw [hti, hi]
    exact (List.getElem?_eq_some_iff.mp hsi).1
  obtain ⟨res1, crows, hloop, hQ, hfinal⟩ := convertLoop_spec (NewHelper sid S nRows k nonce perm)
    { bpk := (PKEKeyGen b).2, epk := (PKEKeyGen e).2 } rnd
    (fun task crow => ∀ p, TaskFor b e sid task p →
      HintRowFor b e k sid ((List.range S.length).map nonce) crow p)
    ((List.Perm.nodup_iff hperm).mpr (List.nodup_range _))
    (reorder order ((NewHelper sid S nRows k nonce perm).tasks encTables))
    (List.replicate perm.length none) 0 []
    (by
      intro j hj
      have : j ∈ List.range (nRows * S.length) := hperm.subset hj
      rw [List.length_replicate, hpermlen]
      exact List.mem_range.mp this)
    (by
      rw [Nat.zero_add, List.Perm.length_eq hre, hlen0]
      exact hpermlen.symm)
    (by
      rw [List.map_nil, List.nil_append, List.Perm.length_eq hre, hlen0, hpermlen])
    (by
      intro j hj _
      rw [List.length_replicate] at hj
      rw [List.getElem?_replicate, if_pos hj])
    (by
      intro n task hn
      rw [Nat.zero_add]
      have hmem : task ∈ reorder order ((NewHelper sid S nRows k nonce perm).tasks encTables) :=
        List.getElem?_mem hn
      obtain ⟨p, hp, hTp⟩ := forall₂_exists_of_mem_left hT2 task hmem
      have htidx : task.TableIndex < S.length := by rw [hTp.1]; exact hidx p hp
      exact ConvertRow_spec sid S nRows b e k nonce perm task (rnd n) htidx
        (hreg (n, task) (by
          rw [List.mem_iff_getElem?]
          exact ⟨n, by rw [List.getElem?_enum, hn]; rfl⟩)))
  refine ⟨res1, crows, P2, ?_, by simpa using hfinal,
    forall₂_combine (fun a b c hab hac => hab c hac) hQ hT2, hP2.trans hP1⟩
  unfold Helper.Convert Helper.ConvertTablesStream
  have h1 : (NewHelper sid S nRows k nonce perm).padKey.isNone = false := rfl
  have h2 : (NewHelper sid S nRows k nonce perm).padKeyShares.isNone = false := rfl
  rw [h1, h2]
  simp only [Bool.false_eq_true, or_self, if_false]
  exact hloop

/-! ## The receiver -/

theorem groupLoop_spec (r : Receiver G) :
    ∀ (L : List (EncRowWithHint G)) (g0 : List (Bytes × List (EncRowWithHint G))),
      (∀ row ∈ L, (OPRFUnblind r.recvSK.bsk row.Cnyme).GetMessageBytes
        = .ok (rowKey r.recvSK.bsk row)) →
      groupLoop r (L.map some) g0 = .ok (groupFold (rowKey r.recvSK.bsk) L g0) := by
  intro L
  induction L with
  | nil => intro g0 _; rfl
  | cons row L ih =>
    intro g0 h
    rw [List.map_cons, groupLoop, h row (List.mem_cons_self _ _)]
    simp only
    rw [ih _ (fun row hrow => h row (List.mem_cons_of_mem _ hrow))]
    rfl

theorem mapSet_of_not_mem {K V : Type} [DecidableEq K] (m : List (K × V)) (k : K) (v : V)
    (h : k ∉ m.map Prod.fst) : mapSet m k v = m ++ [(k, v)] := by
  induction m with
  | nil => rfl
  | cons e m ih =>
    rw [List.map_cons, List.mem_cons, not_or] at h
    rw [mapSet, if_neg (fun h1 => h.1 h1.symm), ih h.2]
    rfl

theorem foldl_mapSet_nodup {α K V : Type} [DecidableEq K] (kf : α → K) (vf : α → V) :
    ∀ (l : List α) (m : List (K × V)), (m.map Prod.fst ++ l.map kf).Nodup →
      l.foldl (fun out p => mapSet out (kf p) (vf p)) m = m ++ l.map (fun p => (kf p, vf p)) := by
  intro l
  induction l with
  | nil => intro m _; simp
  | cons a l ih =>
    intro m h
    have hnot : kf a ∉ m.map Prod.fst := by
      intro hmem
      have := (List.nodup_append.mp h).2.2
      exact this hmem (List.mem_cons_self _ _)
    rw [List.foldl_cons, mapSet_of_not_mem m _ _ hnot, ih]
    · simp
    · simp only [List.map_append, List.map_cons, List.map_nil, List.append_assoc,
        List.singleton_append]
      simpa using h

theorem foldl_Mul_eq_prod (l : List G) (a : G) : l.foldl Mul a = a * l.prod := by
  induction l generalizing a with
  | nil => simp
  | cons b l ih => rw [List.foldl_cons, ih, List.prod_cons, Mul, mul_assoc]

/-- The second loop of `decryptGroup` on conversions of plain rows of one uid, when
`invMask` is the inverse of the common pad `H(uid)^(k * padKey)`. -/
theorem decryptLoop_spec [SymLib] (sid : Bytes) (S : List SourceID) (b e k : Scalar G)
    (shares : List (Scalar G)) (M : G) (h256 : S.length ≤ 256) :
    ∀ (bucket : List (EncRowWithHint G)) (Pb : List Prov),
      List.Forall₂ (HintRowFor b e k sid shares) bucket Pb →
      (∀ p ∈ Pb, ScalarExp (ScalarExp (HashToPoint p.uid sid) k) (nonceSum shares) = M) →
      (∀ p ∈ Pb, p.tindex < S.length) →
      ∀ out, decryptLoop (NewReceiver sid S b e) M⁻¹
          (bucket.map (decEntry (PKEKeyGen b).1)) out
        = .ok (Pb.foldl (fun out p => mapSet out (S[p.tindex]?.getD []) p.val) out) := by
  intro bucket Pb hF
  induction hF with
  | nil => intro _ _ out; rfl
  | @cons row p bucket Pb hhead _ ih =>
    intro hM hidx out
    obtain ⟨_, ⟨R, cts, hkey, hsym, hdes, hchunks⟩, _⟩ := hhead
    have hlt := hidx p (List.mem_cons_self _ _)
    have hkeyp : Mul (OPRFUnblind (PKEKeyGen b).1 row.CValKey).m M⁻¹ = R := by
      unfold OPRFUnblind
      rw [PKEDecrypt_encrypts b _ _ hkey, hM p (List.mem_cons_self _ _), Mul]
      simp
    have hbyte : (byteOfNat p.tindex).val = p.tindex := byteOfNat_val _ (by omega)
    have hsrc : S[(byteOfNat p.tindex).val]? = some (S[p.tindex]?.getD []) := by
      rw [hbyte, List.getElem?_eq_getElem hlt]
      rfl
    rw [List.map_cons, decryptLoop]
    simp only [decEntry, NewReceiver, NewReceiverWithKeys]
    rw [hkeyp, hsym]
    simp only [hsrc, hdes, PKEDecryptVector_of_value e cts p.val hchunks]
    rw [List.foldl_cons]
    exact ih (fun q hq => hM q (List.mem_cons_of_mem _ hq))
      (fun q hq => hidx q (List.mem_cons_of_mem _ hq)) _

theorem forall₂_and_right {α β : Type} {R : α → β → Prop} {P : β → Prop} {l1 : List α}
    {l2 : List β} (h : List.Forall₂ R l1 l2) (hP : ∀ b ∈ l2, P b) :
    List.Forall₂ (fun a b => R a b ∧ P b) l1 l2 := by
  induction h with
  | nil => exact List.Forall₂.nil
  | cons hhead _ ih =>
    exact List.Forall₂.cons ⟨hhead, hP _ (List.mem_cons_self _ _)⟩
      (ih (fun b hb => hP b (List.mem_cons_of_mem _ hb)))

theorem forall₂_map_eq {α β γ : Type} {R : α → β → Prop} {f : α → γ} {g : β → γ}
    (hR : ∀ a b, R a b → f a = g b) :
    ∀ {l1 : List α} {l2 : List β}, List.Forall₂ R l1 l2 → l1.map f = l2.map g := by
  intro l1 l2 h
  induction h with
  | nil => rfl
  | cons hhead _ ih => rw [List.map_cons, List.map_cons, ih, hR _ _ hhead]

theorem map_range_getElem?_getD {α : Type} (l : List α) (d : α) :
    (List.range l.length).map (fun t => l[t]?.getD d) = l := by
  apply List.ext_getElem
  · simp
  · intro i h1 h2
    simp only [List.getElem_map, List.getElem_range]
    rw [List.getElem?_eq_getElem h2]
    rfl

theorem mapGet_perm {K V : Type} [DecidableEq K] (m m1 : List (K × V)) (hp : List.Perm m m1)
    (h : (m.map Prod.fst).Nodup) (k : K) : mapGet m k = mapGet m1 k := by
  have h1 : (m1.map Prod.fst).Nodup := (List.Perm.nodup_iff (hp.map _)).mp h
  apply Option.ext
  intro v
  rw [Option.mem_def, Option.mem_def, ← mem_iff_mapGet m h, ← mem_iff_mapGet m1 h1]
  exact hp.mem_iff

/-- `decryptGroup` on a bucket that holds one conversion per table index of the
plain rows of one uid: the map from source id to value. -/
theorem decryptGroup_spec [SymLib] (sid : Bytes) (S : List SourceID) (b e k : Scalar G)
    (nonce : Nat → Scalar G) (hS : S.Nodup) (h256 : S.length ≤ 256)
    (bucket : List (EncRowWithHint G)) (Pb : List Prov)
    (hF : List.Forall₂ (HintRowFor b e k sid ((List.range S.length).map nonce)) bucket Pb)
    (u : Bytes) (hu : ∀ p ∈ Pb, p.uid = u)
    (hidx : List.Perm (Pb.map Prov.tindex) (List.range S.length)) :
    (NewReceiver sid S b e).decryptGroup bucket
        = .ok (Pb.map (fun p => (S[p.tindex]?.getD [], p.val))) ∧
      ((Pb.map (fun p => (S[p.tindex]?.getD [], p.val))).map Prod.fst).Nodup ∧
      List.Perm ((Pb.map (fun p => (S[p.tindex]?.getD [], p.val))).map Prod.fst) S := by
  have hlt : ∀ p ∈ Pb, p.tindex < S.length := by
    intro p hp
    exact List.mem_range.mp (hidx.subset (List.mem_map_of_mem _ hp))
  have hkeys : List.Perm ((Pb.map (fun p => (S[p.tindex]?.getD [], p.val))).map Prod.fst) S := by
    rw [List.map_map]
    have h1 : (Pb.map (Prod.fst ∘ fun p => (S[p.tindex]?.getD [], p.val)))
        = (Pb.map Prov.tindex).map (fun t => S[t]?.getD []) := by
      rw [List.map_map]
      rfl
    rw [h1]
    have h2 := hidx.map (fun t => S[t]?.getD [])
    rwa [map_range_getElem?_getD] at h2
  have hnodup := (List.Perm.nodup_iff hkeys).mpr hS
  refine ⟨?_, hnodup, hkeys⟩
  have hF2 := forall₂_and_right hF (fun p hp => And.intro (hu p hp) (hlt p hp))
  have hhints : bucket.map (fun row => (OPRFUnblind (PKEKeyGen b).1 row.CHint).m)
      = Pb.map (fun p => ScalarExp (ScalarExp (HashToPoint u sid) k) (nonce p.tindex)) := by
    apply forall₂_map_eq _ hF2
    intro row p hrow
    obtain ⟨⟨_, _, share, hshare, hhint⟩, hpu, hpt⟩ := hrow
    rw [List.getElem?_map, List.getElem?_range hpt] at hshare
    simp only [Option.map_some', Option.some.injEq] at hshare
    unfold OPRFUnblind
    rw [PKEDecrypt_encrypts b _ _ hhint, ← hshare, hpu]
  have hmask : (bucket.map (decEntry (PKEKeyGen b).1)).foldl
      (fun mask dge => Mul mask dge.hint.m) Identity
      = ScalarExp (ScalarExp (HashToPoint u sid) k)
          (nonceSum ((List.range S.length).map nonce)) := by
    have h1 : (bucket.map (decEntry (PKEKeyGen b).1)).foldl
        (fun mask dge => Mul mask dge.hint.m) Identity
        = (bucket.map (fun row => (OPRFUnblind (PKEKeyGen b).1 row.CHint).m)).foldl Mul
            Identity := by
      rw [List.foldl_map, List.foldl_map]
      rfl
    rw [h1, hhints, foldl_Mul_eq_prod, Identity, one_mul, nonceSum_eq_sum, ScalarExp_sum,
      List.map_map]
    have h2 : Pb.map (fun p => ScalarExp (ScalarExp (HashToPoint u sid) k) (nonce p.tindex))
        = (Pb.map Prov.tindex).map
            ((fun s => ScalarExp (ScalarExp (HashToPoint u sid) k) s) ∘ nonce) := by
      rw [List.map_map]
      rfl
    rw [h2]
    exact (hidx.map _).prod_eq
  have hloop := decryptLoop_spec sid S b e k ((List.range S.length).map nonce)
    (ScalarExp (ScalarExp (HashToPoint u sid) k) (nonceSum ((List.range S.length).map nonce)))
    h256 bucket Pb hF (fun p hp => by rw [hu p hp]) hlt []
  rw [foldl_mapSet_nodup (fun p => S[p.tindex]?.getD []) (fun p => p.val) Pb []
    (by simpa [List.map_map] using hnodup)] at hloop
  rw [List.nil_append] at hloop
  rw [← hloop, ← hmask]
  rfl

theorem mem_reorder {α : Type} (order : List Nat) (l : List α) (a : α) (h : a ∈ reorder order l) :
    a ∈ l := by
  unfold reorder at h
  rw [List.mem_filterMap] at h
  obtain ⟨i, _, hi⟩ := h
  exact List.getElem?_mem hi

theorem intersectHint_fold [SymLib] (r : Receiver G) :
    ∀ (l : List (Bytes × List (EncRowWithHint G))) (vals0 : List (List Bytes)),
      (∀ kg ∈ l, kg.2.length = r.sourceIDs.length → (joinRow r kg.2).isSome = true) →
      l.foldl (intersectStep r) (.ok { sourceids := r.sourceIDs, values := vals0 })
      = (.ok { sourceids := r.sourceIDs, values := vals0 ++ l.filterMap (bucketRow r) } :
          Except Fault JoinTable) := by
  intro l
  induction l with
  | nil => intro vals0 _; simp
  | cons kg l ih =>
    intro vals0 h
    rw [List.foldl_cons, List.filterMap_cons]
    by_cases hlen : kg.2.length = r.sourceIDs.length
    · have hsome := h kg (List.mem_cons_self _ _) hlen
      unfold joinRow at hsome
      cases hdec : r.decryptGroup kg.2 with
      | error e => rw [hdec] at hsome; simp at hsome
      | ok vals =>
        rw [hdec] at hsome
        simp only at hsome
        cases hins : insertRow r.sourceIDs vals (List.replicate r.sourceIDs.length []) with
        | error e => rw [hins] at hsome; simp [Except.toOption] at hsome
        | ok row =>
          have hrow : bucketRow r kg = some row := by
            unfold bucketRow joinRow
            rw [if_pos hlen, hdec]
            simp only [hins, Except.toOption]
          have hstep : intersectStep r (.ok { sourceids := r.sourceIDs, values := vals0 }) kg
              = .ok { sourceids := r.sourceIDs, values := vals0 ++ [row] } := by
            unfold intersectStep
            simp only [hlen, if_true, hdec, JoinTable.Insert, hins]
          rw [hrow, hstep, ih _ (fun kg hkg => h kg (List.mem_cons_of_mem _ hkg))]
          simp
    · have hrow : bucketRow r kg = none := by
        unfold bucketRow
        rw [if_neg hlen]
      have hstep : intersectStep r (.ok { sourceids := r.sourceIDs, values := vals0 }) kg
          = .ok { sourceids := r.sourceIDs, values := vals0 } := by
        unfold intersectStep
        simp only [hlen, if_false]
      rw [hrow, hstep]
      exact ih _ (fun kg hkg => h kg (List.mem_cons_of_mem _ hkg))

theorem intersectHint_spec [SymLib] (r : Receiver G)
    (groups : List (Bytes × List (EncRowWithHint G))) (order : List Nat)
    (h : ∀ kg ∈ groups, kg.2.length = r.sourceIDs.length → (joinRow r kg.2).isSome = true) :
    r.intersectHint groups order
      = .ok { sourceids := r.sourceIDs, values := (reorder order groups).filterMap (bucketRow r) } := by
  unfold Receiver.intersectHint NewJoinTable
  rw [intersectHint_fold r _ [] (fun kg hkg => h kg (mem_reorder _ _ _ hkg)), List.nil_append]

theorem IntersectSimple_fold (n : Nat) (sources : List SourceID) :
    ∀ (l : List (Bytes × List (SourceID × Bytes))) (vals0 : List (List Bytes)),
      l.foldl (intersectSimpleStep n) { sourceids := sources, values := vals0 }
      = { sourceids := sources, values := vals0 ++ l.filterMap (plainRow n sources) } := by
  intro l
  induction l with
  | nil => intro vals0; simp
  | cons uv l ih =>
    intro vals0
    rw [List.foldl_cons, List.filterMap_cons]
    by_cases hlen : uv.2.length = n
    · cases hins : insertRow sources uv.2 (List.replicate sources.length []) with
      | error e =>
        have hstep : intersectSimpleStep n { sourceids := sources, values := vals0 } uv
            = { sourceids := sources, values := vals0 } := by
          unfold intersectSimpleStep
          simp only [hlen, if_true, JoinTable.Insert, hins]
        have hrow : plainRow n sources uv = none := by
          unfold plainRow
          simp only [hlen, if_true, hins, Except.toOption]
        rw [hstep, hrow]
        exact ih vals0
      | ok row =>
        have hstep : intersectSimpleStep n { sourceids := sources, values := vals0 } uv
            = { sourceids := sources, values := vals0 ++ [row] } := by
          unfold intersectSimpleStep
          simp only [hlen, if_true, JoinTable.Insert, hins]
        have hrow : plainRow n sources uv = some row := by
          unfold plainRow
          simp only [hlen, if_true, hins, Except.toOption]
        rw [hstep, hrow, ih]
        simp
    · have hstep : intersectSimpleStep n { sourceids := sources, values := vals0 } uv
          = { sourceids := sources, values := vals0 } := by
        unfold intersectSimpleStep
        simp only [hlen, if_false]
      have hrow : plainRow n sources uv = none := by
        unfold plainRow
        simp only [hlen, if_false]
      rw [hstep, hrow]
      exact ih vals0

theorem IntersectSimple_spec (tables : List (SourceID × TablePlain)) (sources : List SourceID)
    (order : List Nat) :
    IntersectSimple tables sources order
      = { sourceids := sources
          values := (reorder order (partJoinLoop tables)).filterMap
            (plainRow tables.length sources) } := by
  unfold IntersectSimple NewJoinTable
  rw [IntersectSimple_fold, List.nil_append]

/-! ## The plain join -/

theorem partJoinLoop_eq_fold (tables : List (SourceID × TablePlain)) :
    partJoinLoop tables = (entries tables).foldl partJoinStep [] := by
  unfold partJoinLoop entries
  generalize ([] : List (Bytes × List (SourceID × Bytes))) = g0
  induction tables generalizing g0 with
  | nil => rfl
  | cons st tables ih =>
    rw [List.foldl_cons, List.flatMap_cons, List.foldl_append, List.foldl_map, ih]
    rfl

theorem entries_filter (tables : List (SourceID × TablePlain)) (u : Bytes) :
    ((entries tables).filter (fun en => decide (en.1 = u))).map Prod.snd = colsOf tables u := by
  unfold entries colsOf
  induction tables with
  | nil => rfl
  | cons st tables ih =>
    rw [List.flatMap_cons, List.flatMap_cons, List.filter_append, List.map_append, ih,
      List.filter_map, List.map_map]
    rfl

theorem entries_keys (tables : List (SourceID × TablePlain)) :
    (entries tables).map Prod.fst = allUids tables := by
  unfold entries allUids
  induction tables with
  | nil => rfl
  | cons st tables ih =>
    rw [List.flatMap_cons, List.flatMap_cons, List.map_append, ih, List.map_map]
    rfl

theorem filter_key_length (T : TablePlain) (hT : (T.map Prod.fst).Nodup) (u : Bytes) :
    (T.filter (fun uv => decide (uv.1 = u))).length ≤ 1 := by
  induction T with
  | nil => simp
  | cons uv T ih =>
    rw [List.map_cons, List.nodup_cons] at hT
    rw [List.filter_cons]
    by_cases h : uv.1 = u
    · have hnil : T.filter (fun uv => decide (uv.1 = u)) = [] := by
        rw [List.filter_eq_nil_iff]
        intro x hx hxu
        simp only [decide_eq_true_eq] at hxu
        exact hT.1 (by rw [h, ← hxu]; exact List.mem_map_of_mem _ hx)
      simp [h, hnil]
    · simp only [h, decide_False, Bool.false_eq_true, if_false]
      exact ih hT.2

theorem colsOf_keys_sublist (tables : List (SourceID × TablePlain))
    (hT : ∀ st ∈ tables, (st.2.map Prod.fst).Nodup) (u : Bytes) :
    ((colsOf tables u).map Prod.fst).Sublist (tables.map Prod.fst) := by
  unfold colsOf
  induction tables with
  | nil => exact List.Sublist.slnil
  | cons st tables ih =>
    have ih1 := ih (fun st hst => hT st (List.mem_cons_of_mem _ hst))
    have hlen := filter_key_length st.2 (hT st (List.mem_cons_self _ _)) u
    rw [List.flatMap_cons, List.map_append, List.map_cons]
    rcases hf : st.2.filter (fun uv => decide (uv.1 = u)) with _ | ⟨x, _ | ⟨y, rest⟩⟩
    · rw [hf, List.map_nil, List.map_nil, List.nil_append]
      exact List.Sublist.cons _ ih1
    · rw [hf, List.map_cons, List.map_nil, List.map_cons, List.map_nil, List.singleton_append]
      exact List.Sublist.cons₂ _ ih1
    · rw [hf] at hlen
      simp at hlen

theorem colsOf_keys_nodup (tables : List (SourceID × TablePlain))
    (hk : (tables.map Prod.fst).Nodup) (hT : ∀ st ∈ tables, (st.2.map Prod.fst).Nodup)
    (u : Bytes) : ((colsOf tables u).map Prod.fst).Nodup :=
  (colsOf_keys_sublist tables hT u).nodup hk

theorem mapGet_partFold (u : Bytes) :
    ∀ (ens : List (Bytes × (SourceID × Bytes))) (g0 : List (Bytes × List (SourceID × Bytes))),
      (((mapGet g0 u).getD [] ++
        (ens.filter (fun en => decide (en.1 = u))).map Prod.snd).map Prod.fst).Nodup →
      mapGet (ens.foldl partJoinStep g0) u =
        if (ens.filter (fun en => decide (en.1 = u))).isEmpty then mapGet g0 u
        else some ((mapGet g0 u).getD [] ++
          (ens.filter (fun en => decide (en.1 = u))).map Prod.snd) := by
  intro ens
  induction ens with
  | nil => intro g0 _; simp
  | cons en ens ih =>
    intro g0 hnd
    rw [List.filter_cons] at hnd
    rw [List.foldl_cons, List.filter_cons]
    by_cases h : en.1 = u
    · simp only [h, decide_True, if_true, List.isEmpty_cons, Bool.false_eq_true, if_false,
        List.map_cons] at hnd ⊢
      have hnot : en.2.1 ∉ ((mapGet g0 u).getD []).map Prod.fst := by
        intro hmem
        rw [List.map_append, List.map_cons] at hnd
        exact (List.nodup_append.mp hnd).2.2 hmem (List.mem_cons_self _ _)
      have hget : mapGet (partJoinStep g0 en) u = some ((mapGet g0 u).getD [] ++ [en.2]) := by
        unfold partJoinStep
        rw [mapGet_mapSet, if_pos h, h, mapSet_of_not_mem _ _ _ hnot]
      rw [ih (partJoinStep g0 en) (by rw [hget]; simpa using hnd), hget]
      by_cases hf : (ens.filter (fun en => decide (en.1 = u))).isEmpty
      · rw [if_pos hf]
        rw [List.isEmpty_iff] at hf
        simp [hf]
      · rw [if_neg hf]
        simp
    · simp only [h, decide_False, Bool.false_eq_true, if_false] at hnd ⊢
      have hget : mapGet (partJoinStep g0 en) u = mapGet g0 u := by
        unfold partJoinStep
        rw [mapGet_mapSet, if_neg h]
      rw [ih (partJoinStep g0 en) (by rw [hget]; exact hnd), hget]

theorem partFold_keys_nodup :
    ∀ (ens : List (Bytes × (SourceID × Bytes))) (g0 : List (Bytes × List (SourceID × Bytes))),
      (g0.map Prod.fst).Nodup → ((ens.foldl partJoinStep g0).map Prod.fst).Nodup := by
  intro ens
  induction ens with
  | nil => intro g0 h; exact h
  | cons en ens ih =>
    intro g0 h
    rw [List.foldl_cons]
    exact ih _ (keys_mapSet_nodup _ _ _ h)

/-- The map `partJoin` of `IntersectSimple`: every uid of the tables is a key, with
its columns. -/
theorem partJoinLoop_spec (tables : List (SourceID × TablePlain))
    (hk : (tables.map Prod.fst).Nodup) (hT : ∀ st ∈ tables, (st.2.map Prod.fst).Nodup) :
    ((partJoinLoop tables).map Prod.fst).Nodup ∧
    ∀ u vals, (u, vals) ∈ partJoinLoop tables ↔ (u ∈ allUids tables ∧ vals = colsOf tables u) := by
  rw [partJoinLoop_eq_fold]
  have hnd := partFold_keys_nodup (entries tables) [] List.nodup_nil
  refine ⟨hnd, ?_⟩
  intro u vals
  rw [mem_iff_mapGet _ hnd, mapGet_partFold u (entries tables) []
    (by rw [mapGet_nil]; simpa [entries_filter] using colsOf_keys_nodup tables hk hT u)]
  rw [mapGet_nil, Option.getD_none, List.nil_append, entries_filter, ← entries_keys]
  by_cases hf : ((entries tables).filter (fun en => decide (en.1 = u))).isEmpty
  · rw [if_pos hf]
    rw [List.isEmpty_iff, List.filter_eq_nil_iff] at hf
    constructor
    · intro h; simp at h
    · rintro ⟨hmem, _⟩
      obtain ⟨en, hen, rfl⟩ := List.mem_map.mp hmem
      exact absurd (by simp) (hf en hen)
  · rw [if_neg hf]
    rw [List.isEmpty_iff, List.filter_eq_nil_iff] at hf
    push_neg at hf
    obtain ⟨en, hen, henu⟩ := hf
    simp only [decide_eq_true_eq] at henu
    constructor
    · intro h
      simp only [Option.some.injEq] at h
      exact ⟨by rw [← henu]; exact List.mem_map_of_mem _ hen, h.symm⟩
    · rintro ⟨_, h⟩
      rw [h]

/-! ## Buckets and uids -/

theorem perm_map_some {α : Type} (l : List (Option α)) (m : List α)
    (h : List.Perm l (m.map some)) : ∃ m1, l = m1.map some ∧ List.Perm m1 m := by
  have hF : List.Forall₂ (fun (o : Option α) (a : α) => o = some a) (m.map some) m := by
    rw [List.forall₂_map_left_iff]
    exact List.forall₂_same.mpr (fun _ _ => rfl)
  obtain ⟨m1, hF1, hm1⟩ := List.perm_comp_forall₂ h hF
  refine ⟨m1, ?_, hm1⟩
  clear h hF hm1
  induction hF1 with
  | nil => rfl
  | cons hhead _ ih => rw [List.map_cons, ← ih, hhead]

theorem forall₂_filter {α β : Type} {R : α → β → Prop} (p : α → Bool) (q : β → Bool)
    (hpq : ∀ a b, R a b → p a = q b) :
    ∀ {l1 : List α} {l2 : List β}, List.Forall₂ R l1 l2 →
      List.Forall₂ R (l1.filter p) (l2.filter q) := by
  intro l1 l2 h
  induction h with
  | nil => exact List.Forall₂.nil
  | @cons a b l1 l2 hhead _ ih =>
    rw [List.filter_cons, List.filter_cons, hpq a b hhead]
    cases q b
    · simpa using ih
    · simpa using List.Forall₂.cons hhead ih

theorem length_provenance (h : Helper G) (tables : List (SourceID × TablePlain)) (nRows : Nat)
    (hlen : ∀ st ∈ tables, st.2.length = nRows) :
    (provenance h tables).length = nRows * tables.length := by
  unfold provenance
  induction tables with
  | nil => simp
  | cons st tables ih =>
    rw [List.flatMap_cons, List.length_append, List.length_map,
      ih (fun st hst => hlen st (List.mem_cons_of_mem _ hst)), hlen st (List.mem_cons_self _ _),
      List.length_cons, Nat.mul_succ]
    omega

theorem provenance_uids (h : Helper G) (tables : List (SourceID × TablePlain)) :
    (provenance h tables).map Prov.uid = allUids tables := by
  unfold provenance allUids
  induction tables with
  | nil => rfl
  | cons st tables ih =>
    rw [List.flatMap_cons, List.flatMap_cons, List.map_append, ih, List.map_map]
    rfl

theorem provenance_filter_tindex (h : Helper G) (tables : List (SourceID × TablePlain))
    (u : Bytes) :
    ((provenance h tables).filter (fun p => decide (p.uid = u))).map Prov.tindex
      = ((colsOf tables u).map Prod.fst).map h.indexOfSource := by
  unfold provenance colsOf
  induction tables with
  | nil => rfl
  | cons st tables ih =>
    rw [List.flatMap_cons, List.flatMap_cons, List.filter_append, List.map_append, ih,
      List.map_append, List.map_append, List.filter_map]
    congr 1
    simp only [List.map_map]
    rfl

theorem indexOfSource_getElem (sid : Bytes) (S : List SourceID) (nRows : Nat) (k : Scalar G)
    (nonce : Nat → Scalar G) (perm : List Nat) (hS : S.Nodup) (i : Nat) (hi : i < S.length) :
    (NewHelper sid S nRows k nonce perm).indexOfSource S[i] = i := by
  unfold Helper.indexOfSource NewHelper Helper.genNonces
  simp only [List.enum]
  rw [sourceIndices_getElem S 0 [] hS i hi]
  simp

theorem indexOfSource_map (sid : Bytes) (S : List SourceID) (nRows : Nat) (k : Scalar G)
    (nonce : Nat → Scalar G) (perm : List Nat) (hS : S.Nodup) :
    S.map (NewHelper sid S nRows k nonce perm).indexOfSource = List.range S.length := by
  apply List.ext_getElem
  · simp
  · intro i h1 h2
    rw [List.getElem_map, List.getElem_range]
    exact indexOfSource_getElem sid S nRows k nonce perm hS i (by simpa using h1)

theorem provenance_filter_cols (sid : Bytes) (S : List SourceID) (nRows : Nat) (k : Scalar G)
    (nonce : Nat → Scalar G) (perm : List Nat) (hS : S.Nodup)
    (tables : List (SourceID × TablePlain)) (hsrc : ∀ st ∈ tables, st.1 ∈ S) (u : Bytes) :
    ((provenance (NewHelper sid S nRows k nonce perm) tables).filter
        (fun p => decide (p.uid = u))).map (provEntry S)
      = colsOf tables u := by
  unfold provenance colsOf
  induction tables with
  | nil => rfl
  | cons st tables ih =>
    rw [List.flatMap_cons, List.flatMap_cons, List.filter_append, List.map_append,
      ih (fun st hst => hsrc st (List.mem_cons_of_mem _ hst)), List.filter_map, List.map_map]
    congr 1
    apply List.map_congr_left
    intro uv _
    obtain ⟨i, hi, hsi⟩ := List.getElem_of_mem (hsrc st (List.mem_cons_self _ _))
    simp only [Function.comp, provEntry]
    rw [← hsi, indexOfSource_getElem sid S nRows k nonce perm hS i hi,
      List.getElem?_eq_getElem hi, Option.getD_some]

theorem colsOf_keys_mem (tables : List (SourceID × TablePlain)) (S : List SourceID)
    (hk : List.Perm (tables.map Prod.fst) S) (hT : ∀ st ∈ tables, (st.2.map Prod.fst).Nodup)
    (u : Bytes) : ∀ p ∈ colsOf tables u, p.1 ∈ S := by
  intro p hp
  exact hk.subset ((colsOf_keys_sublist tables hT u).subset (List.mem_map_of_mem _ hp))

/-- The rows of `IntersectSimple`: one for every uid that all tables have. -/
theorem IntersectSimple_values (tables : List (SourceID × TablePlain)) (S : List SourceID)
    (io : List Nat) (hS : S.Nodup) (hk : List.Perm (tables.map Prod.fst) S)
    (hT : ∀ st ∈ tables, (st.2.map Prod.fst).Nodup)
    (hio : IsOrder io (allUids tables).dedup.length) :
    (IntersectSimple tables S io).sourceids = S ∧
      List.Perm (IntersectSimple tables S io).values (joinRows tables S) := by
  have hkn : (tables.map Prod.fst).Nodup := (List.Perm.nodup_iff hk).mpr hS
  have hcount : tables.length = S.length := by
    rw [← List.length_map tables Prod.fst, hk.length_eq]
  obtain ⟨hnd, hmem⟩ := partJoinLoop_spec tables hkn hT
  have hperm : List.Perm (partJoinLoop tables)
      ((allUids tables).dedup.map (fun u => (u, colsOf tables u))) := by
    rw [List.perm_ext_iff_of_nodup (List.Nodup.of_map _ hnd)
      (List.Nodup.map (fun a b hab => (Prod.mk.inj hab).1) (List.nodup_dedup _))]
    rintro ⟨u, vals⟩
    rw [hmem, List.mem_map]
    constructor
    · rintro ⟨hu, rfl⟩
      exact ⟨u, List.mem_dedup.mpr hu, rfl⟩
    · rintro ⟨u1, hu1, heq⟩
      obtain ⟨rfl, rfl⟩ := Prod.mk.inj heq
      exact ⟨List.mem_dedup.mp hu1, rfl⟩
  have hlen : (partJoinLoop tables).length = (allUids tables).dedup.length := by
    rw [hperm.length_eq, List.length_map]
  rw [IntersectSimple_spec]
  refine ⟨rfl, ?_⟩
  refine ((reorder_perm io _ (by rw [hlen]; exact hio)).filterMap _).trans ?_
  refine (hperm.filterMap _).trans ?_
  rw [List.filterMap_map]
  unfold joinRows
  apply List.Perm.of_eq
  apply List.filterMap_congr
  intro u _
  simp only [Function.comp, plainRow, hcount]
  split
  · rw [insertRow_replicate S hS _ (colsOf_keys_nodup tables hkn hT u)
      (colsOf_keys_mem tables S hk hT u)]
    rfl
  · rfl

theorem pseudonymKey_ok (sid : Bytes) (k : Scalar G) (u : Bytes)
    (h : (pseudonymKey sid k u).toOption.isSome = true) :
    pseudonymKey sid k u = .ok (uidKey sid k u) := by
  unfold uidKey
  cases hp : pseudonymKey sid k u with
  | error e => rw [hp] at h; simp [Except.toOption] at h
  | ok key => simp [Except.toOption]

theorem uidKey_inj (sid : Bytes) (k : Scalar G) (uids : List Bytes)
    (hkeys : PseudonymsDistinct sid k uids) (u u1 : Bytes) (hu : u ∈ uids) (hu1 : u1 ∈ uids)
    (h : uidKey sid k u = uidKey sid k u1) : u = u1 := by
  apply hkeys.2 u hu u1 hu1
  rw [pseudonymKey_ok sid k u (hkeys.1 u hu), pseudonymKey_ok sid k u1 (hkeys.1 u1 hu1), h]

theorem rowKey_spec [SymLib] (sid : Bytes) (b e k : Scalar G) (shares : List (Scalar G))
    (uids : List Bytes) (hkeys : PseudonymsDistinct sid k uids) (row : EncRowWithHint G)
    (p : Prov) (hrow : HintRowFor b e k sid shares row p) (hp : p.uid ∈ uids) :
    (OPRFUnblind (PKEKeyGen b).1 row.Cnyme).GetMessageBytes = .ok (uidKey sid k p.uid) ∧
      rowKey (PKEKeyGen b).1 row = uidKey sid k p.uid := by
  have h1 : (OPRFUnblind (PKEKeyGen b).1 row.Cnyme).GetMessageBytes
      = .ok (uidKey sid k p.uid) := by
    unfold OPRFUnblind
    rw [PKEDecrypt_encrypts b _ _ hrow.1]
    exact pseudonymKey_ok sid k p.uid (hkeys.1 _ hp)
  refine ⟨h1, ?_⟩
  unfold rowKey
  rw [h1]
  rfl

/-- The bucket of a uid holds one conversion per table that has the uid; when it is
full, the receiver derives the row of the uid's values. -/
theorem bucket_spec [SymLib] (sid : Bytes) (S : List SourceID) (nRows : Nat) (b e k : Scalar G)
    (nonce : Nat → Scalar G) (perm : List Nat) (hS : S.Nodup) (h256 : S.length ≤ 256)
    (tables : List (SourceID × TablePlain)) (hk : List.Perm (tables.map Prod.fst) S)
    (hT : ∀ st ∈ tables, (st.2.map Prod.fst).Nodup)
    (hkeys : PseudonymsDistinct sid k (allUids tables))
    (Lrows : List (EncRowWithHint G)) (P3 : List Prov)
    (hF : List.Forall₂ (HintRowFor b e k sid ((List.range S.length).map nonce)) Lrows P3)
    (hP3 : List.Perm P3 (provenance (NewHelper sid S nRows k nonce perm) tables))
    (u : Bytes) (hu : u ∈ allUids tables) :
    (Lrows.filter (fun row => decide (rowKey (PKEKeyGen b).1 row = uidKey sid k u))).length
        = (colsOf tables u).length ∧
      ((colsOf tables u).length = S.length →
        joinRow (NewReceiver sid S b e)
            (Lrows.filter (fun row => decide (rowKey (PKEKeyGen b).1 row = uidKey sid k u)))
          = some (S.map (fun s => (mapGet (colsOf tables u) s).getD []))) := by
  have hsrc : ∀ st ∈ tables, st.1 ∈ S := fun st hst => hk.subset (List.mem_map_of_mem _ hst)
  have hcount : tables.length = S.length := by
    rw [← List.length_map tables Prod.fst, hk.length_eq]
  have hF1 := forall₂_and_right hF (P := fun p => p.uid ∈ allUids tables) (by
    intro p hp
    rw [← provenance_uids (NewHelper sid S nRows k nonce perm) tables]
    exact List.mem_map_of_mem _ (hP3.subset hp))
  have hF2 := forall₂_filter
    (fun row => decide (rowKey (PKEKeyGen b).1 row = uidKey sid k u))
    (fun p : Prov => decide (p.uid = u)) (by
      intro row p hrp
      obtain ⟨hrow, hp⟩ := hrp
      show decide (rowKey (PKEKeyGen b).1 row = uidKey sid k u) = decide (p.uid = u)
      rw [(rowKey_spec sid b e k _ _ hkeys row p hrow hp).2]
      by_cases hpu : p.uid = u
      · simp [hpu]
      · have : ¬ uidKey sid k p.uid = uidKey sid k u :=
          fun h => hpu (uidKey_inj sid k _ hkeys _ _ hp hu h)
        simp [hpu, this]) hF1
  have hF3 : List.Forall₂ (HintRowFor b e k sid ((List.range S.length).map nonce))
      (Lrows.filter (fun row => decide (rowKey (PKEKeyGen b).1 row = uidKey sid k u)))
      (P3.filter (fun p => decide (p.uid = u))) := List.Forall₂.imp (fun _ _ h => h.1) hF2
  have hPb := hP3.filter (fun p => decide (p.uid = u))
  have hcols := provenance_filter_cols sid S nRows k nonce perm hS tables hsrc u
  have hlen : (Lrows.filter (fun row => decide (rowKey (PKEKeyGen b).1 row = uidKey sid k u))).length
      = (colsOf tables u).length := by
    rw [List.Forall₂.length_eq hF3, hPb.length_eq, ← hcols, List.length_map]
  refine ⟨hlen, ?_⟩
  intro hfull
  have hkeyseq : (colsOf tables u).map Prod.fst = tables.map Prod.fst :=
    (colsOf_keys_sublist tables hT u).eq_of_length (by simp [hfull, hcount])
  have hidx : List.Perm ((P3.filter (fun p => decide (p.uid = u))).map Prov.tindex)
      (List.range S.length) := by
    refine (hPb.map Prov.tindex).trans ?_
    rw [provenance_filter_tindex, hkeyseq, ← indexOfSource_map sid S nRows k nonce perm hS]
    exact hk.map _
  obtain ⟨hdec, hnodup, hkeysS⟩ := decryptGroup_spec sid S b e k nonce hS h256 _ _ hF3 u
    (fun p hp => by simpa using (List.mem_filter.mp hp).2) hidx
  have hperm : List.Perm ((P3.filter (fun p => decide (p.uid = u))).map (provEntry S))
      (colsOf tables u) := by
    rw [← hcols]
    exact hPb.map _
  unfold joinRow
  rw [hdec]
  have hsid : (NewReceiver sid S b e).sourceIDs = S := rfl
  simp only [hsid]
  rw [insertRow_replicate S hS _ hnodup (fun p hp => hkeysS.subset (List.mem_map_of_mem _ hp))]
  simp only [Except.toOption, Option.some.injEq]
  apply List.map_congr_left
  intro s _
  have := mapGet_perm _ _ hperm hnodup s
  unfold provEntry at this
  rw [this]

/-- The receiver joins a table of conversions of all plain rows into the join rows. -/
theorem JoinTables_spec [SymLib] (sid : Bytes) (S : List SourceID) (nRows : Nat)
    (b e k : Scalar G) (nonce : Nat → Scalar G) (perm : List Nat) (hS : S.Nodup)
    (h256 : S.length ≤ 256) (tables : List (SourceID × TablePlain))
    (hk : List.Perm (tables.map Prod.fst) S) (hT : ∀ st ∈ tables, (st.2.map Prod.fst).Nodup)
    (hlenT : ∀ st ∈ tables, st.2.length = nRows)
    (hkeys : PseudonymsDistinct sid k (allUids tables))
    (joined : EncTableWithHint G) (crows : List (EncRowWithHint G)) (P2 : List Prov)
    (hj : List.Perm joined (crows.map some))
    (hF : List.Forall₂ (HintRowFor b e k sid ((List.range S.length).map nonce)) crows P2)
    (hP2 : List.Perm P2 (provenance (NewHelper sid S nRows k nonce perm) tables))
    (arrival order : List Nat) (harr : IsOrder arrival (nRows * S.length))
    (hord : IsOrder order (allUids tables).dedup.length) (n : Nat) :
    ∃ jt, (NewReceiver sid S b e).JoinTables joined n arrival order = .ok jt ∧
      jt.sourceids = S ∧ List.Perm jt.values (joinRows tables S) := by
  have hcount : tables.length = S.length := by
    rw [← List.length_map tables Prod.fst, hk.length_eq]
  have hjlen : joined.length = nRows * S.length := by
    rw [hj.length_eq, List.length_map, List.Forall₂.length_eq hF, hP2.length_eq,
      length_provenance _ _ nRows hlenT, hcount]
  have hL := (reorder_perm arrival joined (by rw [hjlen]; exact harr)).trans hj
  obtain ⟨Lrows, hLeq, hLr⟩ := perm_map_some _ _ hL
  obtain ⟨P3, hF3, hP32⟩ := List.perm_comp_forall₂ hLr hF
  have hP3 := hP32.trans hP2
  have huid : ∀ p ∈ P3, p.uid ∈ allUids tables := by
    intro p hp
    rw [← provenance_uids (NewHelper sid S nRows k nonce perm) tables]
    exact List.mem_map_of_mem _ (hP3.subset hp)
  have hrowkey : ∀ row ∈ Lrows, ∃ p ∈ P3,
      (OPRFUnblind (PKEKeyGen b).1 row.Cnyme).GetMessageBytes = .ok (uidKey sid k p.uid) ∧
      rowKey (PKEKeyGen b).1 row = uidKey sid k p.uid := by
    intro row hrow
    obtain ⟨p, hp, hrp⟩ := forall₂_exists_of_mem_left hF3 row hrow
    exact ⟨p, hp, rowKey_spec sid b e k _ _ hkeys row p hrp (huid p hp)⟩
  have hgroup : groupLoop (NewReceiver sid S b e) (Lrows.map some) []
      = .ok (groupFold (rowKey (PKEKeyGen b).1) Lrows []) := by
    apply groupLoop_spec (NewReceiver sid S b e) Lrows []
    intro row hrow
    obtain ⟨p, _, h1, h2⟩ := hrowkey row hrow
    have hb : (NewReceiver sid S b e).recvSK.bsk = (PKEKeyGen b).1 := rfl
    rw [hb, h1, h2]
  have hgn := groupFold_keys_nodup (rowKey (PKEKeyGen b).1) Lrows [] List.nodup_nil
  have htn : (((allUids tables).dedup.map (fun u => (uidKey sid k u,
      Lrows.filter (fun row => decide (rowKey (PKEKeyGen b).1 row = uidKey sid k u))))).map
        Prod.fst).Nodup := by
    rw [List.map_map]
    apply List.Nodup.map_on _ (List.nodup_dedup _)
    intro u hu u1 hu1 heq
    exact uidKey_inj sid k _ hkeys u u1 (List.mem_dedup.mp hu) (List.mem_dedup.mp hu1) heq
  have hperm : List.Perm (groupFold (rowKey (PKEKeyGen b).1) Lrows [])
      ((allUids tables).dedup.map (fun u => (uidKey sid k u,
        Lrows.filter (fun row => decide (rowKey (PKEKeyGen b).1 row = uidKey sid k u))))) := by
    rw [List.perm_ext_iff_of_nodup (List.Nodup.of_map _ hgn) (List.Nodup.of_map _ htn)]
    rintro ⟨key, bkt⟩
    rw [mem_iff_mapGet _ hgn, mapGet_groupFold_nil, List.mem_map]
    by_cases hf : (Lrows.filter (fun row => decide (rowKey (PKEKeyGen b).1 row = key))).isEmpty
    · rw [if_pos hf]
      rw [List.isEmpty_iff, List.filter_eq_nil_iff] at hf
      constructor
      · intro h; simp at h
      · rintro ⟨u, hu, heq⟩
        obtain ⟨rfl, _⟩ := Prod.mk.inj heq
        exfalso
        have hu1 := List.mem_dedup.mp hu
        rw [← provenance_uids (NewHelper sid S nRows k nonce perm) tables] at hu1
        obtain ⟨p, hp, hpu⟩ := List.mem_map.mp hu1
        obtain ⟨row, hrow, hrp⟩ := forall₂_exists_of_mem_right hF3 p (hP3.symm.subset hp)
        have hkey := (rowKey_spec sid b e k _ _ hkeys row p hrp (huid p (hP3.symm.subset hp))).2
        exact hf row hrow (by simp [hkey, hpu])
    · rw [if_neg hf]
      rw [List.isEmpty_iff, List.filter_eq_nil_iff] at hf
      push_neg at hf
      obtain ⟨row, hrow, hrk⟩ := hf
      simp only [decide_eq_true_eq] at hrk
      obtain ⟨p, hp, _, h2⟩ := hrowkey row hrow
      constructor
      · intro h
        simp only [Option.some.injEq] at h
        refine ⟨p.uid, List.mem_dedup.mpr (huid p hp), ?_⟩
        rw [← h2, hrk, h]
      · rintro ⟨u, _, heq⟩
        obtain ⟨rfl, rfl⟩ := Prod.mk.inj heq
        rfl
  have hglen : (groupFold (rowKey (PKEKeyGen b).1) Lrows []).length
      = (allUids tables).dedup.length := by
    rw [hperm.length_eq, List.length_map]
  have hsid : (NewReceiver sid S b e).sourceIDs = S := rfl
  have hok : ∀ kg ∈ groupFold (rowKey (PKEKeyGen b).1) Lrows [],
      kg.2.length = (NewReceiver sid S b e).sourceIDs.length →
      (joinRow (NewReceiver sid S b e) kg.2).isSome = true := by
    intro kg hkg hlen
    obtain ⟨u, hu, rfl⟩ := List.mem_map.mp (hperm.subset hkg)
    obtain ⟨h1, h2⟩ := bucket_spec sid S nRows b e k nonce perm hS h256 tables hk hT hkeys
      Lrows P3 hF3 hP3 u (List.mem_dedup.mp hu)
    simp only at hlen
    rw [h2 (by rw [← h1, hlen, hsid])]
    rfl
  have hres : (NewReceiver sid S b e).JoinTables joined n arrival order
      = .ok (JoinTable.mk S ((reorder order
          (groupFold (rowKey (PKEKeyGen b).1) Lrows [])).filterMap
            (bucketRow (NewReceiver sid S b e)))) := by
    unfold Receiver.JoinTables Receiver.JoinTablesStream
    rw [hLeq, hgroup]
    exact intersectHint_spec _ _ order hok
  refine ⟨_, hres, rfl, ?_⟩
  · simp only
    refine ((reorder_perm order _ (by rw [hglen]; exact hord)).filterMap _).trans ?_
    refine (hperm.filterMap _).trans ?_
    rw [List.filterMap_map]
    unfold joinRows
    apply List.Perm.of_eq
    apply List.filterMap_congr
    intro u hu
    obtain ⟨h1, h2⟩ := bucket_spec sid S nRows b e k nonce perm hS h256 tables hk hT hkeys
      Lrows P3 hF3 hP3 u (List.mem_dedup.mp hu)
    simp only [Function.comp, bucketRow, hsid, h1]
    split
    · rename_i hfull
      exact h2 hfull
    · rfl

/-- The columns of a uid: one per table that has the uid, holding its value there. -/
theorem colsOf_spec (tables : List (SourceID × TablePlain))
    (hkn : (tables.map Prod.fst).Nodup) (hT : ∀ st ∈ tables, (st.2.map Prod.fst).Nodup)
    (u : Bytes) :
    (colsOf tables u).length = tables.countP (fun st => decide (u ∈ st.2.map Prod.fst)) ∧
      ∀ s, mapGet (colsOf tables u) s = (mapGet tables s).bind (fun t => mapGet t u) := by
  induction tables with
  | nil => exact ⟨rfl, fun s => rfl⟩
  | cons st tables ih =>
    rw [List.map_cons, List.nodup_cons] at hkn
    have hT1 : ∀ st ∈ tables, (st.2.map Prod.fst).Nodup :=
      fun st hst => hT st (List.mem_cons_of_mem _ hst)
    obtain ⟨ihl, ihg⟩ := ih hkn.2 hT1
    have hTst := hT st (List.mem_cons_self _ _)
    have hlen := filter_key_length st.2 hTst u
    have hcols : colsOf (st :: tables) u
        = (st.2.filter (fun uv => decide (uv.1 = u))).map (fun uv => (st.1, uv.2))
          ++ colsOf tables u := by
      unfold colsOf
      rw [List.flatMap_cons]
    have hnone : mapGet (colsOf tables u) st.1 = none := by
      rw [mapGet_eq_none]
      exact fun h => hkn.1 ((colsOf_keys_sublist tables hT1 u).subset h)
    rcases hf : st.2.filter (fun uv => decide (uv.1 = u)) with _ | ⟨x, _ | ⟨y, rest⟩⟩
    · rw [hcols, hf, List.map_nil, List.nil_append]
      rw [List.filter_eq_nil_iff] at hf
      have hu : u ∉ st.2.map Prod.fst := by
        intro hmem
        obtain ⟨uv, huv, huv1⟩ := List.mem_map.mp hmem
        exact hf uv huv (by simp [huv1])
      constructor
      · rw [List.countP_cons_of_neg _ _ (by simp only [decide_eq_true_eq]; exact hu)]
        exact ihl
      · intro s
        rw [mapGet_cons]
        by_cases hs : st.1 = s
        · rw [if_pos hs, ← hs, hnone, Option.some_bind]
          exact ((mapGet_eq_none st.2 u).mpr hu).symm
        · rw [if_neg hs]
          exact ihg s
    · rw [hcols, hf, List.map_cons, List.map_nil, List.singleton_append]
      have hx : x ∈ st.2.filter (fun uv => decide (uv.1 = u)) := by rw [hf]; exact List.mem_singleton_self _
      rw [List.mem_filter] at hx
      obtain ⟨hx1, hx2⟩ := hx
      simp only [decide_eq_true_eq] at hx2
      have hu : u ∈ st.2.map Prod.fst := by rw [← hx2]; exact List.mem_map_of_mem _ hx1
      constructor
      · rw [List.countP_cons_of_pos _ _ (by simp only [decide_eq_true_eq]; exact hu),
          List.length_cons, ihl]
      · intro s
        rw [mapGet_cons, mapGet_cons]
        by_cases hs : st.1 = s
        · rw [if_pos hs, if_pos hs, Option.some_bind]
          have hmem : (u, x.2) ∈ st.2 := by rw [← hx2]; exact hx1
          exact ((mem_iff_mapGet st.2 hTst u x.2).mp hmem).symm
        · rw [if_neg hs, if_neg hs]
          exact ihg s
    · rw [hf] at hlen
      simp at hlen

/-- The join rows are the rows of the uids that every table has, column `i`
holding the value in the table of the `i`-th source. -/
theorem joinRows_eq (tables : List (SourceID × TablePlain)) (S : List SourceID)
    (hS : S.Nodup) (hk : List.Perm (tables.map Prod.fst) S)
    (hT : ∀ st ∈ tables, (st.2.map Prod.fst).Nodup) :
    joinRows tables S = (commonUids tables).map (expectedRow tables S) := by
  have hkn : (tables.map Prod.fst).Nodup := (List.Perm.nodup_iff hk).mpr hS
  have hcount : tables.length = S.length := by
    rw [← List.length_map tables Prod.fst, hk.length_eq]
  unfold joinRows commonUids
  rw [← List.filterMap_eq_filter, List.map_filterMap]
  apply List.filterMap_congr
  intro u _
  obtain ⟨hl, hg⟩ := colsOf_spec tables hkn hT u
  have hiff : (colsOf tables u).length = S.length ↔
      tables.all (fun st => decide (u ∈ st.2.map Prod.fst)) = true := by
    rw [hl, ← hcount, List.countP_eq_length, List.all_eq_true]
  have hrow : S.map (fun s => (mapGet (colsOf tables u) s).getD []) = expectedRow tables S u := by
    unfold expectedRow
    apply List.map_congr_left
    intro s _
    rw [hg s]
  by_cases hc : (colsOf tables u).length = S.length
  · rw [if_pos hc, hrow]
    simp only [Option.guard, hiff.mp hc, if_true, Option.map_some']
  · rw [if_neg hc]
    have hall : ¬ tables.all (fun st => decide (u ∈ st.2.map Prod.fst)) = true :=
      fun h => hc (hiff.mpr h)
    simp only [Option.guard, hall, if_false, Option.map_none', Bool.false_eq_true]

/-! ## Deciding the hypotheses on concrete runs -/

instance PseudonymsDistinct.decidable (sid : Bytes) (k : Scalar G) (uids : List Bytes) :
    Decidable (PseudonymsDistinct sid k uids) := by
  unfold PseudonymsDistinct
  infer_instance

instance IsOrder.decidable (order : List Nat) (n : Nat) : Decidable (IsOrder order n) := by
  unfold IsOrder
  infer_instance

instance RunRand.Valid.decidable (rr : RunRand G) (S : List SourceID) (nRows : Nat)
    (tables : List (SourceID × TablePlain)) : Decidable (rr.Valid S nRows tables) := by
  unfold RunRand.Valid
  infer_instance

instance RerandRegular.decidable [DecidableEq G] (epk : PublicKey G)
    (tasks : List (ConvertRowTask G)) (rnd : Nat → ConvRand G) :
    Decidable (RerandRegular epk tasks rnd) := by
  unfold RerandRegular
  infer_instance

instance RunRand.Regular.decidable [DecidableEq G] (rr : RunRand G) (sid : Bytes)
    (S : List SourceID) (nRows : Nat) (tables : List (SourceID × TablePlain)) :
    Decidable (rr.Regular sid S nRows tables) := by
  unfold RunRand.Regular
  split <;> infer_instance

/-! ## Table indices beyond one byte -/

/-- The keys that `decryptLoop` adds to the map are source ids at an index below
256: the index is read from one byte. -/
theorem decryptLoop_keys [SymLib] (r : Receiver G) (invMask : G) :
    ∀ (l : List (EncValueWithHint G)) (out vals : List (SourceID × Bytes)),
      decryptLoop r invMask l out = .ok vals →
      (∀ s ∈ out.map Prod.fst, ∃ i, i < 256 ∧ r.sourceIDs[i]? = some s) →
      ∀ s ∈ vals.map Prod.fst, ∃ i, i < 256 ∧ r.sourceIDs[i]? = some s := by
  intro l
  induction l with
  | nil =>
    intro out vals h hout
    rw [decryptLoop] at h
    cases h
    exact hout
  | cons dge rest ih =>
    intro out vals h hout
    rw [decryptLoop] at h
    simp only at h
    cases h1 : SymmetricDecrypt (KeyFromPoint (Mul dge.blindedkey.m invMask) r.sid) dge.val with
    | error e => rw [h1] at h; cases h
    | ok data =>
      rw [h1] at h
      cases data with
      | nil => cases h
      | cons first encValBytes =>
        simp only at h
        cases h2 : r.sourceIDs[first.val]? with
        | none => rw [h2] at h; cases h
        | some sourceID =>
          rw [h2] at h
          simp only at h
          cases h3 : (DeserializeCiphertexts encValBytes : Except Fault (List (Ciphertext G))) with
          | error e => rw [h3] at h; cases h
          | ok encVal =>
            rw [h3] at h
            simp only at h
            cases h4 : PKEDecryptVector r.recvSK.esk encVal with
            | error e => rw [h4] at h; cases h
            | ok pt =>
              rw [h4] at h
              simp only at h
              apply ih _ _ h
              intro s hs
              rw [keys_mapSet] at hs
              split at hs
              · exact hout s hs
              · rw [List.mem_append, List.mem_singleton] at hs
                rcases hs with hs | rfl
                · exact hout s hs
                · exact ⟨first.val, first.isLt, h2⟩

/-- Entries whose source ids sit below index 256 leave the columns from 256 on
untouched. -/
theorem insertRow_high (S : List SourceID) (hS : S.Nodup) :
    ∀ (vals : List (SourceID × Bytes)) (row row1 : List Bytes),
      insertRow S vals row = .ok row1 →
      (∀ s ∈ vals.map Prod.fst, ∃ i, i < 256 ∧ S[i]? = some s) →
      ∀ j, 256 ≤ j → row1[j]? = row[j]? := by
  intro vals
  induction vals with
  | nil =>
    intro row row1 h _ j _
    rw [insertRow] at h
    cases h
    rfl
  | cons sv vals ih =>
    intro row row1 h hkeys j hj
    obtain ⟨s, v⟩ := sv
    rw [insertRow] at h
    split at h
    · cases h
    · obtain ⟨i, hi, hsi⟩ := hkeys s (by simp)
      have hlt : i < S.length := (List.getElem?_eq_some_iff.mp hsi).1
      have hidx : @List.indexOf SourceID instBEqOfDecidableEq s S = i := by
        have := (List.getElem?_eq_some_iff.mp hsi).2
        rw [← this]
        exact List.indexOf_getElem hS i hlt
      rw [ih _ _ h (fun t ht => hkeys t (by
        rw [List.map_cons]; exact List.mem_cons_of_mem _ ht)) j hj, hidx]
      exact List.getElem?_set_ne (by omega)

/-- A step of `intersectHint` adds only rows whose columns from 256 on are empty. -/
theorem intersectStep_high [SymLib] (r : Receiver G) (hS : r.sourceIDs.Nodup)
    (join jt : JoinTable) (kg : Bytes × List (EncRowWithHint G))
    (hids : join.sourceids = r.sourceIDs)
    (h : intersectStep r (.ok join) kg = .ok jt)
    (hrows : ∀ row ∈ join.values, ColumnsBelow 256 row) :
    jt.sourceids = r.sourceIDs ∧ ∀ row ∈ jt.values, ColumnsBelow 256 row := by
  unfold intersectStep at h
  simp only at h
  split at h
  · cases hd : r.decryptGroup kg.2 with
    | error e => rw [hd] at h; cases h
    | ok vals =>
      rw [hd] at h
      simp only at h
      unfold JoinTable.Insert at h
      rw [hids] at h
      cases hi : insertRow r.sourceIDs vals (List.replicate r.sourceIDs.length []) with
      | error e => rw [hi] at h; cases h
      | ok row =>
        rw [hi] at h
        simp only at h
        cases h
        refine ⟨rfl, ?_⟩
        intro row1 hrow1
        rw [List.mem_append, List.mem_singleton] at hrow1
        rcases hrow1 with hrow1 | rfl
        · exact hrows row1 hrow1
        · intro j hj
          unfold Receiver.decryptGroup at hd
          have hkeys := decryptLoop_keys r _ _ [] vals hd (by simp)
          rw [insertRow_high r.sourceIDs hS vals _ _ hi hkeys j hj]
          by_cases hjl : j < r.sourceIDs.length
          · rw [List.getElem?_eq_getElem (by simpa using hjl)]
            simp
          · rw [List.getElem?_eq_none (by simpa using hjl)]
            rfl
  · cases h
    exact ⟨hids, hrows⟩

theorem intersectFold_high [SymLib] (r : Receiver G) (hS : r.sourceIDs.Nodup) :
    ∀ (l : List (Bytes × List (EncRowWithHint G))) (acc : Except Fault JoinTable)
      (jt : JoinTable), l.foldl (intersectStep r) acc = .ok jt →
      (∀ join, acc = .ok join →
        join.sourceids = r.sourceIDs ∧ ∀ row ∈ join.values, ColumnsBelow 256 row) →
      ∀ row ∈ jt.values, ColumnsBelow 256 row := by
  intro l
  induction l with
  | nil =>
    intro acc jt h hacc
    exact (hacc jt h).2
  | cons kg l ih =>
    intro acc jt h hacc
    rw [List.foldl_cons] at h
    apply ih _ jt h
    intro join1 hstep
    cases acc with
    | error e => cases hstep
    | ok join =>
      obtain ⟨hids, hrows⟩ := hacc join rfl
      exact intersectStep_high r hS join join1 kg hids hstep hrows

/-- Whatever the helper sends, the rows that the receiver returns for distinct
source ids are empty in every column from 256 on: the table index travels in one
byte. -/
theorem JoinTables_high [SymLib] (r : Receiver G) (hS : r.sourceIDs.Nodup)
    (joined : EncTableWithHint G) (n : Nat) (arrival order : List Nat) (jt : JoinTable)
    (h : r.JoinTables joined n arrival order = .ok jt) :
    ∀ row ∈ jt.values, ColumnsBelow 256 row := by
  unfold Receiver.JoinTables Receiver.JoinTablesStream at h
  cases hg : groupLoop r (reorder arrival joined) [] with
  | error e => rw [hg] at h; cases h
  | ok groups =>
    rw [hg] at h
    simp only at h
    unfold Receiver.intersectHint at h
    apply intersectFold_high r hS _ _ jt h
    intro join hjoin
    cases hjoin
    exact ⟨rfl, fun row hrow => by cases hrow⟩

theorem runMPPJ_high [SymLib] (sid : Bytes) (S : List SourceID) (nRows : Nat)
    (tables : List (SourceID × TablePlain)) (rr : RunRand G) (hS : S.Nodup) (jt : JoinTable)
    (h : runMPPJ sid S nRows tables rr = .ok jt) :
    ∀ row ∈ jt.values, ColumnsBelow 256 row := by
  unfold runMPPJ at h
  simp only at h
  cases hp : prepareAll sid (NewReceiver sid S rr.bkey rr.ekey).GetPK rr.prepOrder rr.prepRnd
      tables with
  | error e => rw [hp] at h; cases h
  | ok encTables =>
    rw [hp] at h
    simp only at h
    cases hc : (NewHelper sid S nRows rr.convK rr.nonce rr.rowPerm).Convert
        (NewReceiver sid S rr.bkey rr.ekey).recvPK encTables rr.convOrder rr.convRnd with
    | error e => rw [hc] at h; cases h
    | ok joinedTables =>
      rw [hc] at h
      simp only at h
      exact JoinTables_high (NewReceiver sid S rr.bkey rr.ekey) hS _ _ _ _ jt h

/-! ## Claim C1 -/

/-- C1 (amended): for at most 256 distinct source ids, one plain table per
source with `nRows` rows, values whose padded chunks embed on one of the first 254
candidates, uids with pairwise distinct pseudonym keys, orders that are
permutations, and re-randomized value ciphertexts without an identity component, the
run `JoinTables(Convert(Prepare))` returns a join table with the source-id columns
and the multiset of rows of `IntersectSimple`: one row per uid present in every
table, column `i` holding the value of the uid in the table of `S[i]`. -/
theorem runMPPJ_eq_IntersectSimple [SymLib] (sid : Bytes) (S : List SourceID) (nRows : Nat)
    (tables : List (SourceID × TablePlain)) (rr : RunRand G) (io : List Nat)
    (hS : S.Nodup) (h256 : S.length ≤ 256)
    (hk : List.Perm (tables.map Prod.fst) S)
    (hT : ∀ st ∈ tables, (st.2.map Prod.fst).Nodup)
    (hlen : ∀ st ∈ tables, st.2.length = nRows)
    (hval : ∀ st ∈ tables, ∀ uv ∈ st.2, ValueEmbeds uv.2)
    (hkeys : PseudonymsDistinct sid rr.convK (allUids tables))
    (hrr : rr.Valid S nRows tables)
    (hio : IsOrder io (allUids tables).dedup.length)
    (hreg : rr.Regular sid S nRows tables) :
    ∃ jt, runMPPJ sid S nRows tables rr = .ok jt ∧
      jt.sourceids = (IntersectSimple tables S io).sourceids ∧
      List.Perm jt.values (IntersectSimple tables S io).values ∧
      List.Perm jt.values ((commonUids tables).map (expectedRow tables S)) := by
  obtain ⟨hperm, hprep, hconv, harr, hbucket⟩ := hrr
  have hcount : tables.length = S.length := by
    rw [← List.length_map tables Prod.fst, hk.length_eq]
  have hsrc : ∀ st ∈ tables, st.1 ∈ S := fun st hst => hk.subset (List.mem_map_of_mem _ hst)
  obtain ⟨encTables, hprepare, hrel⟩ := prepareAll_spec sid rr.bkey rr.ekey rr.prepOrder
    rr.prepRnd tables (fun st hst => ⟨by rw [hlen st hst]; exact hprep st.1 (hsrc st hst),
      hval st hst⟩)
  have hpk : (NewReceiver sid S rr.bkey rr.ekey).GetPK
      = { bpk := (PKEKeyGen rr.bkey).2, epk := (PKEKeyGen rr.ekey).2 } := rfl
  unfold RunRand.Regular at hreg
  rw [hpk, hprepare] at hreg
  obtain ⟨joined, crows, P2, hconvert, hj, hF, hP2⟩ := Convert_spec sid S nRows rr.bkey rr.ekey
    rr.convK rr.nonce rr.rowPerm hS encTables tables hrel hsrc hlen hcount hperm rr.convOrder
    hconv rr.convRnd hreg
  obtain ⟨jt, hjoin, hids, hvals⟩ := JoinTables_spec sid S nRows rr.bkey rr.ekey rr.convK
    rr.nonce rr.rowPerm hS h256 tables hk hT hlen hkeys joined crows P2 hj hF hP2 rr.arrival
    rr.bucketOrder harr hbucket encTables.length
  obtain ⟨hsids, hsvals⟩ := IntersectSimple_values tables S io hS hk hT hio
  refine ⟨jt, ?_, hids.trans hsids.symm, hvals.trans hsvals.symm, ?_⟩
  · unfold runMPPJ
    simp only
    have hpk1 : (NewReceiver sid S rr.bkey rr.ekey).recvPK
        = { bpk := (PKEKeyGen rr.bkey).2, epk := (PKEKeyGen rr.ekey).2 } := rfl
    rw [hpk, hprepare]
    simp only
    rw [hpk1, hconvert]
    exact hjoin
  · rw [← joinRows_eq tables S hS hk hT]
    exact hvals

set_option maxRecDepth 100000 in
/-- C1 (witness): the amended statement on the two tables of `tablesAB`, in the
model: the hypotheses hold there, and the run returns the rows of
`IntersectSimple`. -/
theorem runMPPJ_eq_IntersectSimple_witness :
    (∀ st ∈ tablesAB, ∀ uv ∈ st.2, ValueEmbeds uv.2) ∧
    PseudonymsDistinct [1] (runAB ModelPoint).convK (allUids tablesAB) ∧
    (runAB ModelPoint).Valid sourcesAB 2 tablesAB ∧
    (runAB ModelPoint).Regular [1] sourcesAB 2 tablesAB ∧
    ∃ jt, runMPPJ [1] sourcesAB 2 tablesAB (runAB ModelPoint) = .ok jt ∧
      jt.sourceids = (IntersectSimple tablesAB sourcesAB [1, 2, 0]).sourceids ∧
      List.Perm jt.values (IntersectSimple tablesAB sourcesAB [1, 2, 0]).values ∧
      List.Perm jt.values ((commonUids tablesAB).map (expectedRow tablesAB sourcesAB)) := by
  have hval : ∀ st ∈ tablesAB, ∀ uv ∈ st.2, ValueEmbeds uv.2 := by decide!
  have hkeys : PseudonymsDistinct [1] (runAB ModelPoint).convK (allUids tablesAB) := by decide!
  have hrr : (runAB ModelPoint).Valid sourcesAB 2 tablesAB := by decide!
  have hreg : (runAB ModelPoint).Regular [1] sourcesAB 2 tablesAB := by decide!
  have hS : sourcesAB.Nodup := by decide!
  have h256 : sourcesAB.length ≤ 256 := by decide!
  have hk : List.Perm (tablesAB.map Prod.fst) sourcesAB := by decide!
  have hT : ∀ st ∈ tablesAB, (st.2.map Prod.fst).Nodup := by decide!
  have hlen : ∀ st ∈ tablesAB, st.2.length = 2 := by decide!
  have hio : IsOrder [1, 2, 0] (allUids tablesAB).dedup.length := by decide!
  exact ⟨hval, hkeys, hrr, hreg,
    runMPPJ_eq_IntersectSimple [1] sourcesAB 2 tablesAB (runAB ModelPoint) [1, 2, 0]
      hS h256 hk hT hlen hval hkeys hrr hio hreg⟩

theorem mem_allUids_tables257 (u : Bytes) (hu : u ∈ allUids tables257) : u = [117] := by
  unfold allUids tables257 at hu
  rw [List.mem_flatMap] at hu
  obtain ⟨st, hst, hu1⟩ := hu
  obtain ⟨s, _, rfl⟩ := List.mem_map.mp hst
  simpa using hu1

theorem length_sources257 : sources257.length = 257 := by
  simp [sources257]

theorem nodup_sources257 : sources257.Nodup := by
  unfold sources257
  apply List.Nodup.map_on _ (List.nodup_range 257)
  intro i hi j hj h
  rw [List.mem_range] at hi hj
  have h1 : (byteOfNat (i / 256)).val = (byteOfNat (j / 256)).val := by
    rw [(List.cons.inj h).1]
  have h2 : (byteOfNat i).val = (byteOfNat j).val := by
    rw [(List.cons.inj (List.cons.inj h).2).1]
  simp only [byteOfNat, Fin.ofNat] at h1 h2
  omega

theorem mem_tables257 (st : SourceID × TablePlain) (hst : st ∈ tables257) :
    st.1 ∈ sources257 ∧ st.2 = [([117], [118])] := by
  obtain ⟨s, hs, rfl⟩ := List.mem_map.mp hst
  exact ⟨hs, rfl⟩

theorem keys_tables257 : tables257.map Prod.fst = sources257 := by
  unfold tables257
  rw [List.map_map]
  exact List.map_id _

theorem expectedRow_tables257 :
    (expectedRow tables257 sources257 [117])[256]? = some [118] := by
  have hs : sources257[256]? = some [1, 0] := by
    unfold sources257
    rw [List.getElem?_map, List.getElem?_range (by omega)]
    rfl
  have hmem : (([1, 0] : SourceID), ([([117], [118])] : TablePlain)) ∈ tables257 :=
    List.mem_map.mpr ⟨[1, 0], List.getElem?_mem hs, rfl⟩
  have hget := (mem_iff_mapGet tables257 (by rw [keys_tables257]; exact nodup_sources257)
    [1, 0] [([117], [118])]).mp hmem
  unfold expectedRow
  rw [List.getElem?_map, hs, Option.map_some', hget]
  rfl

theorem commonUids_tables257 : [117] ∈ commonUids tables257 := by
  unfold commonUids
  rw [List.mem_filter, List.mem_dedup, List.all_eq_true]
  constructor
  · unfold allUids
    rw [List.mem_flatMap]
    have hs : sources257[256]? = some [1, 0] := by
      unfold sources257
      rw [List.getElem?_map, List.getElem?_range (by omega)]
      rfl
    exact ⟨([1, 0], [([117], [118])]), List.mem_map.mpr ⟨[1, 0], List.getElem?_mem hs, rfl⟩,
      by simp⟩
  · intro st hst
    rw [(mem_tables257 st hst).2]
    simp

theorem dedup_allUids_tables257 : (allUids tables257).dedup.length = 1 := by decide!

/-- C1 (counterexample): the claim fails for 257 sources.  With distinct source
ids, one table per source holding the same uid, a value that embeds and valid
orders, no run returns the rows of `IntersectSimple`, because the table index is
sent in one byte and the column of the source at index 256 stays empty. -/
theorem runMPPJ_sources257 :
    sources257.Nodup ∧ tables257.map Prod.fst = sources257 ∧
    (∀ st ∈ tables257, st.2.length = 1 ∧ ∀ uv ∈ st.2, ValueEmbeds uv.2) ∧
    PseudonymsDistinct [1] (runInOrder 257 ModelPoint).convK (allUids tables257) ∧
    (runInOrder 257 ModelPoint).Valid sources257 1 tables257 ∧
    ¬ ∃ jt, runMPPJ [1] sources257 1 tables257 (runInOrder 257 ModelPoint) = .ok jt ∧
      jt.sourceids = (IntersectSimple tables257 sources257 [0]).sourceids ∧
      List.Perm jt.values (IntersectSimple tables257 sources257 [0]).values := by
  have hT : ∀ st ∈ tables257, (st.2.map Prod.fst).Nodup := by
    intro st hst
    rw [(mem_tables257 st hst).2]
    decide
  have hio : IsOrder [0] (allUids tables257).dedup.length := by
    rw [dedup_allUids_tables257]
    exact List.Perm.refl _
  have hemb : ValueEmbeds [118] := by decide!
  have hkey : (pseudonymKey [1] (runInOrder 257 ModelPoint).convK [117]).toOption.isSome
      = true := by decide!
  refine ⟨nodup_sources257, keys_tables257, ?_, ?_, ?_, ?_⟩
  · intro st hst
    rw [(mem_tables257 st hst).2]
    refine ⟨rfl, ?_⟩
    intro uv huv
    rw [List.mem_singleton] at huv
    rw [huv]
    exact hemb
  · constructor
    · intro u hu
      rw [mem_allUids_tables257 u hu]
      exact hkey
    · intro u hu u1 hu1 _
      rw [mem_allUids_tables257 u hu, mem_allUids_tables257 u1 hu1]
  · have hr : IsOrder (List.range 257) (1 * sources257.length) := by
      unfold IsOrder
      rw [length_sources257, Nat.one_mul]
    have h1 : IsOrder [0] 1 := List.Perm.refl _
    unfold RunRand.Valid runInOrder
    dsimp only
    refine ⟨?_, ?_, ?_, ?_, ?_⟩
    · exact hr
    · exact fun _ _ => h1
    · exact hr
    · exact hr
    · exact hio
  · rintro ⟨jt, hrun, _, hperm⟩
    have hk : List.Perm (tables257.map Prod.fst) sources257 := by
      rw [keys_tables257]
    have hvals := (IntersectSimple_values tables257 sources257 [0] nodup_sources257 hk hT hio).2
    rw [joinRows_eq tables257 sources257 nodup_sources257 hk hT] at hvals
    have hmem : expectedRow tables257 sources257 [117] ∈ jt.values :=
      (hperm.trans hvals).symm.subset (List.mem_map_of_mem _ commonUids_tables257)
    have hcol := runMPPJ_high [1] sources257 1 tables257 (runInOrder 257 ModelPoint)
      nodup_sources257 jt hrun _ hmem 256 (Nat.le_refl _)
    rw [expectedRow_tables257] at hcol
    cases hcol

/-! ## Claims C2, C3 and C6 -/

/-- C2 (counterexample): for the 30-byte value `value30` `PKEEncryptVector` succeeds
but does not return a single ciphertext: `pad` appends a full block, so there are
two chunks. -/
theorem PKEEncryptVector_value30_not_single :
    (∃ cts, PKEEncryptVector (PKEKeyGen (5 : Scalar ModelPoint)).2 value30 (fun _ => 7) = .ok cts) ∧
    ¬ ∃ ct : Ciphertext ModelPoint,
      PKEEncryptVector (PKEKeyGen (5 : Scalar ModelPoint)).2 value30 (fun _ => 7) = .ok [ct] := by
  have hlen : (PKEEncryptVector (PKEKeyGen (5 : Scalar ModelPoint)).2 value30
      (fun _ => 7)).toOption.map List.length = some 2 := by decide!
  constructor
  · cases h : PKEEncryptVector (PKEKeyGen (5 : Scalar ModelPoint)).2 value30 (fun _ => 7) with
    | error e => rw [h] at hlen; simp [Except.toOption] at hlen
    | ok cts => exact ⟨cts, rfl⟩
  · rintro ⟨ct, h⟩
    rw [h] at hlen
    simp [Except.toOption] at hlen

/-- C2 (amended): for a value of exactly 30 bytes whose chunks embed, with a key
pair of `PKEKeyGen`, `PKEEncryptVector` returns exactly two ciphertexts (the value
chunk and a full padding block) and `PKEDecryptVector` of them is the value. -/
theorem PKEEncryptVector_thirty_bytes (x : Scalar G) (r : Nat → Scalar G) (v : Bytes)
    (hlen : v.length = 30) (hv : ValueEmbeds v) :
    ∃ c1 c2 : Ciphertext G, PKEEncryptVector (PKEKeyGen x).2 v r = .ok [c1, c2] ∧
      PKEDecryptVector (PKEKeyGen x).1 [c1, c2] = .ok v := by
  obtain ⟨cts, hcts, hrel, hn⟩ := PKEEncryptVector_spec x r v hv
  have h2 : cts.length = 2 := by rw [hn, hlen]; rfl
  obtain ⟨c1, c2, rfl⟩ : ∃ c1 c2, cts = [c1, c2] := by
    match cts, h2 with
    | [c1, c2], _ => exact ⟨c1, c2, rfl⟩
  exact ⟨c1, c2, hcts, PKEDecryptVector_of_value x _ v hrel⟩

/-- C2 (witness): the amended statement at `value30` in the model. -/
theorem PKEEncryptVector_thirty_bytes_witness :
    value30.length = 30 ∧ ValueEmbeds value30 ∧
    ∃ c1 c2 : Ciphertext ModelPoint,
      PKEEncryptVector (PKEKeyGen (5 : Scalar ModelPoint)).2 value30 (fun _ => 7) = .ok [c1, c2] ∧
      PKEDecryptVector (PKEKeyGen (5 : Scalar ModelPoint)).1 [c1, c2] = .ok value30 :=
  ⟨rfl, by decide!, PKEEncryptVector_thirty_bytes 5 (fun _ => 7) value30 rfl (by decide!)⟩

/-- C3 (failing input): the row that `ProcessRow` builds for the 30-byte value
`value30` has two value ciphertexts; the wire framing keeps the first only, and
decrypting what arrives fails on the padding check instead of returning the
value. -/
theorem wireRoundTrip_value30 :
    ((NewDataSource (G := ModelPoint) [1] { bpk := (PKEKeyGen 3).2, epk := (PKEKeyGen 5).2 }).ProcessRow
        [117] value30 { blind := 11, enc := fun _ => 7 }).toOption.map
      (fun row => (row.Cval.length, wireRoundTrip (PKEKeyGen (5 : Scalar ModelPoint)).1 row))
      = some (2, .error (.error "invalid padding size")) := by
  decide!

theorem embedLoop_error (fuel i x : Nat) (e : Fault) (hi : i + fuel = 256) (hi2 : i ≤ 255)
    (h : embedLoop fuel i x = .error e) : e = .error "Failed to find a valid message point" := by
  induction fuel generalizing i x with
  | zero => omega
  | succ fuel ih =>
    rw [embedLoop] at h
    split at h
    · simp at h
    · split at h
      · simp only [Except.error.injEq] at h
        exact h.symm
      · exact ih (i + 1) (x + 1) (by omega) (by omega) h

/-- C6 (the code): on a payload of 31 or 32 bytes `NewMessageFromBytes` never returns
a message: either none of the 255 candidates has a square root and it returns its
error, or `elliptic.Marshal` panics because the candidate x-coordinate has more than
256 bits.  No bytes are recovered. -/
theorem NewMessageFromBytes_long_payload (p : Bytes) (hlen : p.length = 31 ∨ p.length = 32) :
    (NewMessageFromBytes p : Except Fault (Message G))
        = .error (.error "Failed to find a valid message point") ∨
    (NewMessageFromBytes p : Except Fault (Message G))
        = .error (.panic "crypto/elliptic: attempted operation on invalid point") := by
  have hlen0 : p.length ≠ 0 := by omega
  have hfirst : curveP < firstCandidate p := by
    unfold firstCandidate
    rw [bytesToNat_cons]
    have h3 : ((4 : Byte).val) = 4 := rfl
    have h4 : (256 : Nat) ^ 32 ≤ 256 ^ (p ++ [(2 : Byte)]).length := by
      apply Nat.pow_le_pow_right (by norm_num)
      simp only [List.length_append, List.length_singleton]
      omega
    have h5 := curveP_lt
    rw [h3]
    omega
  unfold NewMessageFromBytes
  simp only [hlen0, if_false]
  cases hloop : embedLoop 255 1 (bytesToNat ((4 : Byte) :: (p ++ [(2 : Byte)]))) with
  | error e =>
    left
    rw [embedLoop_error 255 1 _ e (by norm_num) (by norm_num) hloop]
  | ok xy =>
    right
    obtain ⟨x, y⟩ := xy
    have hx : firstCandidate p ≤ x := (embedLoop_ok _ _ _ _ _ hloop).2.1
    have hnot : ¬ ((x = 0 ∧ y = 0) ∨ IsOnCurve x y = true) := by
      rintro (⟨h0, _⟩ | h1)
      · omega
      · have := (IsOnCurve_lt h1).1
        omega
    simp only [ellipticMarshal, hnot, if_false]

/-- C6 (witness): the 31-byte payload `payload31` in the model. -/
theorem NewMessageFromBytes_long_payload_witness :
    (payload31.length = 31 ∨ payload31.length = 32) ∧
    ((NewMessageFromBytes payload31 : Except Fault (Message ModelPoint))
        = .error (.error "Failed to find a valid message point") ∨
     (NewMessageFromBytes payload31 : Except Fault (Message ModelPoint))
        = .error (.panic "crypto/elliptic: attempted operation on invalid point")) :=
  ⟨Or.inl rfl, NewMessageFromBytes_long_payload payload31 (Or.inl rfl)⟩

/-- The point of an unblinded evaluation of a blinded input. -/
theorem OPRFUnblind_point (b k r s : Scalar G) (x sid : Bytes) :
    (OPRFUnblind (PKEKeyGen b).1
        (OPRFEval k (PKEKeyGen b).2 (OPRFBlind (PKEKeyGen b).2 x sid r) s)).m
      = ScalarExp (HashToPoint x sid) k :=
  congrArg Message.m (PKEDecrypt_encrypts b _ _
    (OPRFEval_encrypts b k s _ _ (PKEEncrypt_encrypts b r (HashToMessage x sid))))

/-! ## Claims C7 to C10 -/

/-- C7: for a key pair of `PKEKeyGen` (the secret key is the negated scalar), every
message point and every encryption randomness, `PKEDecrypt` of `PKEEncrypt` is the
message. -/
theorem PKEDecrypt_PKEEncrypt (x r : Scalar G) (m : Message G) :
    PKEDecrypt (PKEKeyGen x).1 (PKEEncrypt (PKEKeyGen x).2 m r) = m :=
  PKEDecrypt_encrypts x _ m.m (PKEEncrypt_encrypts x r m)

/-- C8: for a key pair of `PKEKeyGen`, every message and every choice of the
encryption scalar `r` and of the re-randomization scalar `s`, decrypting the
re-randomized encryption gives the message. -/
theorem PKEDecrypt_ReRand_PKEEncrypt (x r s : Scalar G) (m : Message G) :
    PKEDecrypt (PKEKeyGen x).1 (ReRand (PKEKeyGen x).2 (PKEEncrypt (PKEKeyGen x).2 m r) s) = m :=
  PKEDecrypt_encrypts x _ m.m (ReRand_encrypts x s _ m.m (PKEEncrypt_encrypts x r m))

/-- C9: for a key pair `(bsk, bpk)` of `PKEKeyGen`, every OPRF key `k`, input `x`,
session id and randomness, unblinding the evaluation of the blinded input is the
point `HashToPoint(x, sid)` raised to `k`. -/
theorem OPRFUnblind_OPRFEval_OPRFBlind (b k r s : Scalar G) (x sid : Bytes) :
    OPRFUnblind (PKEKeyGen b).1 (OPRFEval k (PKEKeyGen b).2 (OPRFBlind (PKEKeyGen b).2 x sid r) s)
      = { m := ScalarExp (HashToPoint x sid) k } :=
  PKEDecrypt_encrypts b _ _
    (OPRFEval_encrypts b k s _ _ (PKEEncrypt_encrypts b r (HashToMessage x sid)))

/-- C10: for every list of scalars `s_i` (each with its own blinding scalar and
re-randomization scalar), the product of the unblinded evaluations of the blinded
input is `HashToPoint(x, sid)` raised to the sum of the `s_i`. -/
theorem hint_reconstruction (b : Scalar G) (x sid : Bytes)
    (shares : List (Scalar G × Scalar G × Scalar G)) :
    MulBatched (shares.map (fun t =>
        (OPRFUnblind (PKEKeyGen b).1
          (OPRFEval t.1 (PKEKeyGen b).2 (OPRFBlind (PKEKeyGen b).2 x sid t.2.1) t.2.2)).m))
      = ScalarExp (HashToPoint x sid) (nonceSum (shares.map (fun t => t.1))) := by
  rw [MulBatched_eq_prod, nonceSum_eq_sum, ScalarExp_sum, List.map_map]
  congr 1
  apply List.map_congr_left
  intro t _
  simp only [Function.comp, OPRFUnblind_point]

/-! ## Claim C11 -/

/-- The fields of a row returned by `ConvertRow` of the helper built by `NewHelper`,
for a table index below the number of sources. -/
theorem ConvertRow_fields [SymLib] (sid : Bytes) (S : List SourceID) (nRows : Nat)
    (k : Scalar G) (nonce : Nat → Scalar G) (perm : List Nat) (rpk : PublicKeyTuple G)
    (encRow : EncRow G) (j : Nat) (rnd : ConvRand G) (hj : j < S.length)
    (crow : EncRowWithHint G)
    (h : (NewHelper sid S nRows k nonce perm).ConvertRow rpk encRow j rnd = .ok crow) :
    crow.Cnyme = OPRFEval k rpk.bpk encRow.Cuid rnd.conv ∧
    SymmetricEncrypt (KeyFromPoint (RandomPoint rnd.point : G) sid)
        (byteOfNat j :: SerializeCiphertexts (ReRandVector rpk.epk encRow.Cval rnd.rerand))
      = .ok crow.CVal ∧
    crow.CValKey =
      { c0 := (OPRFEval (nonceSum ((List.range S.length).map nonce)) rpk.bpk
          (OPRFEval k rpk.bpk encRow.Cuid rnd.conv) rnd.pad).c0
        c1 := Mul (OPRFEval (nonceSum ((List.range S.length).map nonce)) rpk.bpk
          (OPRFEval k rpk.bpk encRow.Cuid rnd.conv) rnd.pad).c1 (RandomPoint rnd.point) } ∧
    crow.CHint = OPRFEval (nonce j) rpk.bpk (OPRFEval k rpk.bpk encRow.Cuid rnd.conv)
      rnd.hint := by
  obtain ⟨c, hc⟩ := SymmetricEncrypt_KeyFromPoint (RandomPoint rnd.point : G) sid
    (byteOfNat j :: SerializeCiphertexts (ReRandVector rpk.epk encRow.Cval rnd.rerand))
  have hshare : ((List.range S.length).map nonce)[j]? = some (nonce j) := by
    rw [List.getElem?_map, List.getElem?_range hj]
    rfl
  unfold Helper.ConvertRow Helper.blindAndHint NewHelper Helper.genNonces RandomKeyFromPoint at h
  simp only [hc, hshare] at h
  cases h
  exact ⟨rfl, hc, rfl, rfl⟩

/-- C11: take the rows that `ConvertRow` of the helper returns for one uid, one row
per table index `j < |S|` (row `j` from the blinded uid sent by source `j`, with the
point `R_j = RandomPoint` drawn for it), and put them in a bucket in any order.  In
`Receiver.decryptGroup` the point `Mul(blindedkey_j, invMask)` is `R_j` for every
`j`, and the symmetric key derived from it is the key under which the helper
encrypted the blob of row `j`. -/
theorem decryptGroup_key_point [SymLib] (sid : Bytes) (S : List SourceID) (nRows : Nat)
    (b e k : Scalar G) (nonce : Nat → Scalar G) (perm : List Nat) (uid : Bytes)
    (blind : Nat → Scalar G) (cval : Nat → List (Ciphertext G)) (rnd : Nat → ConvRand G)
    (rows : Nat → EncRowWithHint G) (order : List Nat)
    (hrows : ∀ j, j < S.length →
      (NewHelper sid S nRows k nonce perm).ConvertRow (NewReceiver sid S b e).GetPK
        { Cuid := OPRFBlind (NewReceiver sid S b e).GetPK.bpk uid sid (blind j), Cval := cval j }
        j (rnd j) = .ok (rows j))
    (horder : IsOrder order S.length) :
    ∀ j, j < S.length →
      Mul (OPRFUnblind (NewReceiver sid S b e).recvSK.bsk (rows j).CValKey).m
          (Point.Invert ((NewReceiver sid S b e).groupMask (order.map rows)))
        = RandomPoint (rnd j).point ∧
      SymmetricEncrypt
          (KeyFromPoint
            (Mul (OPRFUnblind (NewReceiver sid S b e).recvSK.bsk (rows j).CValKey).m
              (Point.Invert ((NewReceiver sid S b e).groupMask (order.map rows)))) sid)
          (byteOfNat j :: SerializeCiphertexts
            (ReRandVector (NewReceiver sid S b e).GetPK.epk (cval j) (rnd j).rerand))
        = .ok (rows j).CVal := by
  have hbsk : (NewReceiver sid S b e).recvSK.bsk = (PKEKeyGen b).1 := rfl
  have hbpk : (NewReceiver sid S b e).GetPK.bpk = (PKEKeyGen b).2 := rfl
  have hjoin : ∀ j, Encrypts b
      (OPRFEval k (PKEKeyGen b).2 (OPRFBlind (PKEKeyGen b).2 uid sid (blind j)) (rnd j).conv)
      (ScalarExp (HashToPoint uid sid) k) := fun j =>
    OPRFEval_encrypts b k (rnd j).conv _ _ (PKEEncrypt_encrypts b (blind j) (HashToMessage uid sid))
  have hhint : ∀ j, j < S.length → (OPRFUnblind (PKEKeyGen b).1 (rows j).CHint).m
      = ScalarExp (ScalarExp (HashToPoint uid sid) k) (nonce j) := by
    intro j hj
    obtain ⟨_, _, _, h4⟩ := ConvertRow_fields sid S nRows k nonce perm _ _ j (rnd j) hj _
      (hrows j hj)
    rw [h4, hbpk]
    unfold OPRFUnblind
    rw [PKEDecrypt_encrypts b _ _ (OPRFEval_encrypts b (nonce j) (rnd j).hint _ _ (hjoin j))]
  have hkey : ∀ j, j < S.length → (OPRFUnblind (PKEKeyGen b).1 (rows j).CValKey).m
      = ScalarExp (ScalarExp (HashToPoint uid sid) k) (nonceSum ((List.range S.length).map nonce))
          * RandomPoint (rnd j).point := by
    intro j hj
    obtain ⟨_, _, h3, _⟩ := ConvertRow_fields sid S nRows k nonce perm _ _ j (rnd j) hj _
      (hrows j hj)
    rw [h3, hbpk]
    have h1 := OPRFEval_encrypts b (nonceSum ((List.range S.length).map nonce)) (rnd j).pad
      _ _ (hjoin j)
    unfold OPRFUnblind
    apply congrArg Message.m (PKEDecrypt_encrypts b _ _ _)
    simp only [Encrypts, Mul] at h1 ⊢
    rw [h1]
    exact mul_right_comm _ _ _
  have hmask : (NewReceiver sid S b e).groupMask (order.map rows)
      = ScalarExp (ScalarExp (HashToPoint uid sid) k)
          (nonceSum ((List.range S.length).map nonce)) := by
    unfold Receiver.groupMask Receiver.decGroup
    rw [hbsk, List.foldl_map, List.foldl_map]
    have h1 : order.foldl (fun mask j => Mul mask (OPRFUnblind (PKEKeyGen b).1 (rows j).CHint).m)
        Identity
        = (order.map (fun j => (OPRFUnblind (PKEKeyGen b).1 (rows j).CHint).m)).foldl Mul
            Identity := by
      rw [List.foldl_map]
    have h2 : order.map (fun j => (OPRFUnblind (PKEKeyGen b).1 (rows j).CHint).m)
        = order.map (fun j => ScalarExp (ScalarExp (HashToPoint uid sid) k) (nonce j)) := by
      apply List.map_congr_left
      intro j hj
      exact hhint j (List.mem_range.mp (horder.subset hj))
    show order.foldl (fun mask j => Mul mask (OPRFUnblind (PKEKeyGen b).1 (rows j).CHint).m)
        Identity = _
    rw [h1, h2, foldl_Mul_eq_prod, Identity, one_mul, nonceSum_eq_sum, ScalarExp_sum,
      List.map_map]
    exact (List.Perm.map _ horder).prod_eq
  intro j hj
  have hpoint : Mul (OPRFUnblind (NewReceiver sid S b e).recvSK.bsk (rows j).CValKey).m
      (Point.Invert ((NewReceiver sid S b e).groupMask (order.map rows)))
      = RandomPoint (rnd j).point := by
    rw [hmask, hbsk, hkey j hj]
    simp only [Mul, Point.Invert]
    rw [mul_comm, ← mul_assoc, inv_mul_cancel, one_mul]
  refine ⟨hpoint, ?_⟩
  rw [hpoint]
  exact (ConvertRow_fields sid S nRows k nonce perm _ _ j (rnd j) hj _ (hrows j hj)).2.1

/-- C11 (witness): the two rows converted for the uid `b` in the run `runAB`, in the
model, bucketed in the order 1, 0: the receiver recovers the point of row 0 and the
point of row 1. -/
theorem decryptGroup_key_point_witness :
    Mul (OPRFUnblind (NewReceiver [1] sourcesAB (runAB ModelPoint).bkey
          (runAB ModelPoint).ekey).recvSK.bsk (convertedRowAB ModelPoint 0).CValKey).m
        (Point.Invert ((NewReceiver [1] sourcesAB (runAB ModelPoint).bkey
          (runAB ModelPoint).ekey).groupMask ([1, 0].map (convertedRowAB ModelPoint))))
      = RandomPoint ((runAB ModelPoint).convRnd 0).point ∧
    Mul (OPRFUnblind (NewReceiver [1] sourcesAB (runAB ModelPoint).bkey
          (runAB ModelPoint).ekey).recvSK.bsk (convertedRowAB ModelPoint 1).CValKey).m
        (Point.Invert ((NewReceiver [1] sourcesAB (runAB ModelPoint).bkey
          (runAB ModelPoint).ekey).groupMask ([1, 0].map (convertedRowAB ModelPoint))))
      = RandomPoint ((runAB ModelPoint).convRnd 1).point := by
  have hrows : ∀ i, i < sourcesAB.length →
      (NewHelper [1] sourcesAB 2 (runAB ModelPoint).convK (runAB ModelPoint).nonce
        (runAB ModelPoint).rowPerm).ConvertRow
        (NewReceiver [1] sourcesAB (runAB ModelPoint).bkey (runAB ModelPoint).ekey).GetPK
        { Cuid := OPRFBlind (NewReceiver [1] sourcesAB (runAB ModelPoint).bkey
            (runAB ModelPoint).ekey).GetPK.bpk [98] [1] ((7 + i : Nat) : Scalar ModelPoint)
          Cval := [] } i ((runAB ModelPoint).convRnd i)
        = .ok (convertedRowAB ModelPoint i) := by
    intro i hi
    obtain ⟨crow, hcrow, _⟩ := ConvertRow_spec [1] sourcesAB 2 (runAB ModelPoint).bkey
      (runAB ModelPoint).ekey (runAB ModelPoint).convK (runAB ModelPoint).nonce
      (runAB ModelPoint).rowPerm
      { EncRowMsg :=
          { Cuid := OPRFBlind (NewReceiver [1] sourcesAB (runAB ModelPoint).bkey
              (runAB ModelPoint).ekey).GetPK.bpk [98] [1] ((7 + i : Nat) : Scalar ModelPoint)
            Cval := [] }
        TableIndex := i } ((runAB ModelPoint).convRnd i) hi
      (fun ct hct => by simp [ReRandVector] at hct)
    have hc : (NewHelper [1] sourcesAB 2 (runAB ModelPoint).convK (runAB ModelPoint).nonce
        (runAB ModelPoint).rowPerm).ConvertRow
        (NewReceiver [1] sourcesAB (runAB ModelPoint).bkey (runAB ModelPoint).ekey).GetPK
        { Cuid := OPRFBlind (NewReceiver [1] sourcesAB (runAB ModelPoint).bkey
            (runAB ModelPoint).ekey).GetPK.bpk [98] [1] ((7 + i : Nat) : Scalar ModelPoint)
          Cval := [] } i ((runAB ModelPoint).convRnd i) = .ok crow := hcrow
    have hrow : convertedRowAB ModelPoint i = crow := by
      unfold convertedRowAB
      rw [hc]
    rw [hrow]
    exact hc
  have hkey := decryptGroup_key_point [1] sourcesAB 2 (runAB ModelPoint).bkey
    (runAB ModelPoint).ekey (runAB ModelPoint).convK (runAB ModelPoint).nonce
    (runAB ModelPoint).rowPerm [98] (fun j => ((7 + j : Nat) : Scalar ModelPoint))
    (fun _ => []) (runAB ModelPoint).convRnd (convertedRowAB ModelPoint) [1, 0] hrows
    (by decide)
  exact ⟨(hkey 0 (by decide)).1, (hkey 1 (by decide)).1⟩

/-! ## Claims C13 and C14 -/

theorem readCSVLoop_too_long (comma : Bytes) :
    ∀ (records : List (List Bytes)) (table : TablePlain),
      (∀ line ∈ records, line ≠ []) →
      (∃ line ∈ records, MAX_VAL_LEN < (List.intercalate comma line.tail).length) →
      readCSVLoop comma records table = .error (.error "value too long") := by
  intro records
  induction records with
  | nil => intro table _ h; obtain ⟨line, hl, _⟩ := h; cases hl
  | cons line records ih =>
    intro table hne h
    cases line with
    | nil => exact absurd rfl (hne [] (List.mem_cons_self _ _))
    | cons uid fields =>
      rw [readCSVLoop]
      by_cases hlong : (List.intercalate comma fields).length > MAX_VAL_LEN
      · rw [if_pos hlong]
      · rw [if_neg hlong]
        apply ih _ (fun l hl => hne l (List.mem_cons_of_mem _ hl))
        obtain ⟨l, hl, hlen⟩ := h
        rcases List.mem_cons.mp hl with rfl | hl
        · exact absurd hlen hlong
        · exact ⟨l, hl, hlen⟩

/-- C13 (counterexample): for the table `tableBadInput`, whose only row has the empty
uid and a value of 31 bytes, `ProcessRow` and `Prepare` return no error: `Prepare`
returns one row, whose value ciphertexts decrypt to the 31 bytes. -/
theorem Prepare_tableBadInput :
    ((NewDataSource [1] { bpk := (PKEKeyGen (3 : Scalar ModelPoint)).2, epk := (PKEKeyGen 5).2 }).Prepare
        { bpk := (PKEKeyGen 3).2, epk := (PKEKeyGen 5).2 } tableBadInput [0]
        (fun _ => { blind := 7, enc := fun _ => 11 })).map
      (fun rows => rows.map (fun row => PKEDecryptVector (PKEKeyGen (5 : Scalar ModelPoint)).1 row.Cval))
      = .ok [.ok (List.replicate 31 97)] := by
  decide!

/-- C13 (amended): `Prepare` and `ProcessRow` do not look at the uid or at the length
of the value: on every table whose values embed they return rows, one per entry,
also when a uid is empty or a value is longer than 30 bytes.  A value longer than
`MAX_VAL_LEN` = 30 bytes is rejected earlier, by `readCSV`, which returns its error
as soon as a record after the header has one. -/
theorem Prepare_no_input_check (sid : Bytes) (b e : Scalar G) (rpk1 : PublicKeyTuple G)
    (table : TablePlain) (order : List Nat) (rnd : Nat → RowRand G)
    (ho : IsOrder order table.length) (hv : ∀ uv ∈ table, ValueEmbeds uv.2)
    (comma : Bytes) (records : List (List Bytes)) (hne : ∀ line ∈ records, line ≠ []) :
    (∃ rows, (NewDataSource sid { bpk := (PKEKeyGen b).2, epk := (PKEKeyGen e).2 }).Prepare
        rpk1 table order rnd = .ok rows ∧ rows.length = table.length) ∧
    (∀ uv ∈ table, ∀ r : RowRand G,
      ∃ row, (NewDataSource sid { bpk := (PKEKeyGen b).2, epk := (PKEKeyGen e).2 }).ProcessRow
        uv.1 uv.2 r = .ok row) ∧
    ((∃ line ∈ records.drop 1, MAX_VAL_LEN < (List.intercalate comma line.tail).length) →
      readCSV comma records = .error (.error "value too long")) := by
  refine ⟨?_, ?_, ?_⟩
  · obtain ⟨rows, hrows, hlen, _⟩ := Prepare_spec sid b e rpk1 table order rnd ho hv
    exact ⟨rows, hrows, hlen⟩
  · intro uv huv r
    obtain ⟨row, hrow, _⟩ := ProcessRow_spec sid b e uv.1 uv.2 r (hv uv huv)
    exact ⟨row, hrow⟩
  · intro h
    exact readCSVLoop_too_long comma _ []
      (fun l hl => hne l (List.mem_of_mem_drop hl)) h

/-- C13 (witness): the amended statement on `tableBadInput` in the model, and on a
file whose second record carries that value. -/
theorem Prepare_no_input_check_witness :
    (∀ uv ∈ tableBadInput, ValueEmbeds uv.2) ∧
    (∃ rows, (NewDataSource [1]
        { bpk := (PKEKeyGen (3 : Scalar ModelPoint)).2, epk := (PKEKeyGen 5).2 }).Prepare
        { bpk := (PKEKeyGen 3).2, epk := (PKEKeyGen 5).2 } tableBadInput [0]
        (fun _ => { blind := 7, enc := fun _ => 11 }) = .ok rows ∧
      rows.length = tableBadInput.length) ∧
    readCSV [44] [[[117], [118]], [[], List.replicate 31 97]]
      = .error (.error "value too long") := by
  have hv : ∀ uv ∈ tableBadInput, ValueEmbeds uv.2 := by decide!
  have h := Prepare_no_input_check [1] (3 : Scalar ModelPoint) 5
    { bpk := (PKEKeyGen 3).2, epk := (PKEKeyGen 5).2 } tableBadInput [0]
    (fun _ => { blind := 7, enc := fun _ => 11 }) (by decide) hv [44]
    [[[117], [118]], [[], List.replicate 31 97]] (by decide)
  exact ⟨hv, h.1, h.2.2 (by decide)⟩

theorem processRows_eq_none (s : DataSource G) (rnd : Nat → RowRand G) :
    ∀ (l : List (Bytes × Bytes)) (idx : Nat),
      processRows s rnd idx l = none ↔
        ∃ i uv e, l[i]? = some uv ∧ s.ProcessRow uv.1 uv.2 (rnd (idx + i)) = .error e := by
  intro l
  induction l with
  | nil =>
    intro idx
    constructor
    · intro h; cases h
    · rintro ⟨i, uv, e, h, _⟩; cases h
  | cons uv l ih =>
    intro idx
    obtain ⟨uid, val⟩ := uv
    rw [processRows]
    cases hrow : s.ProcessRow uid val (rnd idx) with
    | error e =>
      simp only
      exact ⟨fun _ => ⟨0, (uid, val), e, List.getElem?_cons_zero, hrow⟩, fun _ => trivial⟩
    | ok row =>
      simp only
      cases hrest : processRows s rnd (idx + 1) l with
      | none =>
        simp only
        obtain ⟨i, uv, e, hi, he⟩ := (ih (idx + 1)).mp hrest
        refine ⟨fun _ => ⟨i + 1, uv, e, by simpa using hi, ?_⟩, fun _ => trivial⟩
        rw [← he]
        congr 2
        omega
      | some rows =>
        simp only
        constructor
        · intro h; cases h
        · rintro ⟨i, uv, e, hi, he⟩
          cases i with
          | zero =>
            simp only [List.getElem?_cons_zero, Option.some.injEq] at hi
            subst hi
            rw [Nat.add_zero] at he
            rw [hrow] at he
            cases he
          | succ i =>
            have : processRows s rnd (idx + 1) l = none :=
              (ih (idx + 1)).mpr ⟨i, uv, e, by simpa using hi, by
                rw [← he]; congr 2; omega⟩
            rw [hrest] at this
            cases this

/-- C14 (the code): `Prepare` blocks forever, neither returning a table nor an error,
exactly when `ProcessRow` fails for some row of the table: the worker that meets
the error returns without `wg.Done()`, so the output channel is never closed. -/
theorem Prepare_deadlock_iff (s : DataSource G) (rpk : PublicKeyTuple G) (table : TablePlain)
    (order : List Nat) (rnd : Nat → RowRand G) :
    s.Prepare rpk table order rnd = .error .deadlock ↔
      ∃ i uv e, (reorder order table)[i]? = some uv ∧
        s.ProcessRow uv.1 uv.2 (rnd i) = .error e := by
  have hiff := processRows_eq_none s rnd (reorder order table) 0
  simp only [Nat.zero_add] at hiff
  rw [← hiff]
  unfold DataSource.Prepare DataSource.PrepareStream
  cases hp : processRows s rnd 0 (reorder order table) with
  | none => simp
  | some rows =>
    simp only
    split <;> simp

/-! ## Claim C15 -/

/-- C15 (failing input): a helper set up for one source with two rows.  When a
single row arrives, `Convert` returns a table of two slots, one of them never
written, without any error; when three rows arrive it panics. -/
theorem Convert_row_count :
    ((NewHelper [1] [[97]] 2 (11 : Scalar ModelPoint) (fun _ => 13) [1, 0]).Convert
        { bpk := (PKEKeyGen 3).2, epk := (PKEKeyGen 5).2 }
        [([97], [{ Cuid := ⟨Gen, Gen⟩, Cval := [] }])] [0] (runAB ModelPoint).convRnd).map
      (fun res => res.map Option.isSome) = .ok [false, true] ∧
    ((NewHelper [1] [[97]] 2 (11 : Scalar ModelPoint) (fun _ => 13) [1, 0]).Convert
        { bpk := (PKEKeyGen 3).2, epk := (PKEKeyGen 5).2 }
        [([97], [{ Cuid := ⟨Gen, Gen⟩, Cval := [] }, { Cuid := ⟨Gen, Gen⟩, Cval := [] },
                 { Cuid := ⟨Gen, Gen⟩, Cval := [] }])] [0, 1, 2] (runAB ModelPoint).convRnd).map
      (fun res => res.map Option.isSome)
      = .error (.panic "conversion received more rows than expected") := by
  constructor <;> decide!

/-! ## Claim C16 -/

/-- The loop of `Insert` succeeds when all keys are in the source-id list. -/
theorem insertRow_ok (S : List SourceID) :
    ∀ (vals : List (SourceID × Bytes)) (row : List Bytes),
      (∀ p ∈ vals, p.1 ∈ S) → ∃ row1, insertRow S vals row = .ok row1 := by
  intro vals
  induction vals with
  | nil => intro row _; exact ⟨row, rfl⟩
  | cons sv vals ih =>
    intro row h
    obtain ⟨s, v⟩ := sv
    have hcol : @List.indexOf SourceID instBEqOfDecidableEq s S < S.length :=
      List.indexOf_lt_length.mpr (h (s, v) (List.mem_cons_self _ _))
    rw [insertRow, if_neg (by omega)]
    exact ih _ (fun p hp => h p (List.mem_cons_of_mem _ hp))

/-- A bucket that `decryptGroup` decrypts gives a row: `Insert` cannot fail on the
map it returns, whose keys are taken from `sourceIDs`. -/
theorem joinRow_isSome [SymLib] (r : Receiver G) (bucket : List (EncRowWithHint G))
    (vals : List (SourceID × Bytes)) (h : r.decryptGroup bucket = .ok vals) :
    (joinRow r bucket).isSome = true := by
  have hkeys := decryptLoop_keys r _ _ [] vals h (by simp)
  obtain ⟨row, hrow⟩ := insertRow_ok r.sourceIDs vals (List.replicate r.sourceIDs.length [])
    (fun p hp => by
      obtain ⟨i, _, hi⟩ := hkeys p.1 (List.mem_map_of_mem _ hp)
      exact List.getElem?_mem hi)
  unfold joinRow
  rw [h]
  simp only [hrow]
  rfl

theorem forall₂_full_buckets [SymLib] (r : Receiver G) :
    ∀ l : List (Bytes × List (EncRowWithHint G)),
      (∀ kg ∈ l, kg.2.length = r.sourceIDs.length → (joinRow r kg.2).isSome = true) →
      List.Forall₂ (fun kg row => joinRow r kg.2 = some row)
        (l.filter (fun kg => decide (kg.2.length = r.sourceIDs.length)))
        (l.filterMap (bucketRow r)) := by
  intro l
  induction l with
  | nil => intro _; exact List.Forall₂.nil
  | cons kg l ih =>
    intro h
    have ih1 := ih (fun kg hkg => h kg (List.mem_cons_of_mem _ hkg))
    rw [List.filter_cons, List.filterMap_cons]
    by_cases hp : kg.2.length = r.sourceIDs.length
    · obtain ⟨row, hrow⟩ := Option.isSome_iff_exists.mp (h kg (List.mem_cons_self _ _) hp)
      have hb : bucketRow r kg = some row := by
        unfold bucketRow
        rw [if_pos hp, hrow]
      simp only [hp, decide_True, if_true, hb]
      exact List.Forall₂.cons hrow ih1
    · have hb : bucketRow r kg = none := by
        unfold bucketRow
        rw [if_neg hp]
      simp only [hp, decide_False, Bool.false_eq_true, if_false, hb]
      exact ih1

/-- C16 (counterexample): for one source and one bucket of size one whose row has an
empty blob, `intersectHint` emits no row for the bucket: `decryptGroup` fails and
`intersectHint` panics. -/
theorem intersectHint_corrupt_bucket :
    (NewReceiver [1] [[97]] (3 : Scalar ModelPoint) 5).intersectHint
        [([7], [{ Cnyme := ⟨Gen, Gen⟩, CVal := [], CValKey := ⟨Gen, Gen⟩,
                  CHint := ⟨Gen, Gen⟩ }])] [0]
      = .error (.panic "incorrect encrypted attribute value") := by
  decide!

/-- C16 (amended): when `decryptGroup` succeeds on every bucket whose size is
`len(sourceIDs)`, `intersectHint` returns a table that holds one row for each such
bucket (the row that `Insert` builds from the decrypted bucket), in the order in
which the buckets are visited, and none for any other bucket, smaller or larger: its
`Len` is the number of buckets of exactly that size. -/
theorem intersectHint_full_buckets [SymLib] (r : Receiver G)
    (groups : List (Bytes × List (EncRowWithHint G))) (order : List Nat)
    (ho : IsOrder order groups.length)
    (hdec : ∀ kg ∈ groups, kg.2.length = r.sourceIDs.length →
      ∃ vals, r.decryptGroup kg.2 = .ok vals) :
    ∃ jt, r.intersectHint groups order = .ok jt ∧ jt.sourceids = r.sourceIDs ∧
      List.Forall₂ (fun kg row => joinRow r kg.2 = some row)
        ((reorder order groups).filter (fun kg => decide (kg.2.length = r.sourceIDs.length)))
        jt.values ∧
      jt.Len = groups.countP (fun kg => decide (kg.2.length = r.sourceIDs.length)) := by
  have hsome : ∀ kg ∈ groups, kg.2.length = r.sourceIDs.length →
      (joinRow r kg.2).isSome = true := by
    intro kg hkg hlen
    obtain ⟨vals, hvals⟩ := hdec kg hkg hlen
    exact joinRow_isSome r kg.2 vals hvals
  have hrel : List.Forall₂ (fun kg row => joinRow r kg.2 = some row)
      ((reorder order groups).filter (fun kg => decide (kg.2.length = r.sourceIDs.length)))
      ((reorder order groups).filterMap (bucketRow r)) :=
    forall₂_full_buckets r _ (fun kg hkg => hsome kg (mem_reorder _ _ _ hkg))
  refine ⟨_, intersectHint_spec r groups order hsome, rfl, hrel, ?_⟩
  unfold JoinTable.Len
  simp only
  rw [← List.Forall₂.length_eq hrel, ← List.countP_eq_length_filter]
  exact (reorder_perm order groups ho).countP_eq _

/-- C16 (witness): the buckets of the run `runAB` over `tablesAB`, in the model: the
bucket of the uid `b` has two rows and decrypts, the buckets of `a` and `c` have
one. -/
theorem intersectHint_full_buckets_witness :
    ∃ jt, (NewReceiver [1] sourcesAB (runAB ModelPoint).bkey
          (runAB ModelPoint).ekey).intersectHint
        (runGroups [1] sourcesAB 2 tablesAB (runAB ModelPoint)) [2, 0, 1] = .ok jt ∧
      jt.Len = 1 := by
  have hall : (runGroups [1] sourcesAB 2 tablesAB (runAB ModelPoint)).all (fun kg =>
      (decide (kg.2.length ≠ 2) ||
        ((NewReceiver [1] sourcesAB (runAB ModelPoint).bkey
          (runAB ModelPoint).ekey).decryptGroup kg.2).toOption.isSome)) = true := by decide!
  have hcount : (runGroups [1] sourcesAB 2 tablesAB (runAB ModelPoint)).countP
      (fun kg => decide (kg.2.length = (NewReceiver [1] sourcesAB (runAB ModelPoint).bkey
          (runAB ModelPoint).ekey).sourceIDs.length)) = 1 := by decide!
  obtain ⟨jt, hjt, _, _, hlen⟩ := intersectHint_full_buckets
    (NewReceiver [1] sourcesAB (runAB ModelPoint).bkey (runAB ModelPoint).ekey)
    (runGroups [1] sourcesAB 2 tablesAB (runAB ModelPoint)) [2, 0, 1] (by decide!)
    (fun kg hkg hlen => by
      have h1 := List.all_eq_true.mp hall kg hkg
      have h2 : kg.2.length = 2 := hlen
      simp only [h2, ne_eq, not_true_eq_false, decide_False, Bool.false_or] at h1
      cases hd : (NewReceiver [1] sourcesAB (runAB ModelPoint).bkey
          (runAB ModelPoint).ekey).decryptGroup kg.2 with
      | ok vals => exact ⟨vals, rfl⟩
      | error e => rw [hd] at h1; cases h1)
  exact ⟨jt, hjt, hlen.trans hcount⟩

/-! ## Claim C17 -/

/-- An entry whose source id is not in the list makes the loop of `Insert` return
its error, whatever the other entries are. -/
theorem insertRow_error (S : List SourceID) :
    ∀ (vals : List (SourceID × Bytes)) (row : List Bytes),
      (∃ p ∈ vals, p.1 ∉ S) →
      insertRow S vals row = .error (.error "source ID not found") := by
  intro vals
  induction vals with
  | nil => intro row h; obtain ⟨p, hp, _⟩ := h; cases hp
  | cons sv vals ih =>
    intro row h
    obtain ⟨s, v⟩ := sv
    rw [insertRow]
    by_cases hs : s ∈ S
    · have hcol : @List.indexOf SourceID instBEqOfDecidableEq s S < S.length :=
        List.indexOf_lt_length.mpr hs
      rw [if_neg (by omega)]
      apply ih
      obtain ⟨p, hp, hpS⟩ := h
      rcases List.mem_cons.mp hp with rfl | hp
      · exact absurd hs hpS
      · exact ⟨p, hp, hpS⟩
    · have hcol : @List.indexOf SourceID instBEqOfDecidableEq s S = S.length := by
        have h1 : @List.indexOf SourceID instBEqOfDecidableEq s S ≤ S.length := List.indexOf_le_length
        have h2 : ¬ @List.indexOf SourceID instBEqOfDecidableEq s S < S.length :=
          fun h => hs (List.indexOf_lt_length.mp h)
        omega
      rw [if_pos hcol]

/-- C17 (counterexample): in a table whose source-id list names the source `a`
twice, `Insert` of the map `a -> x` succeeds and appends the row `[x, ""]`: column 1
is empty although `values[sourceids[1]]` is `x`. -/
theorem Insert_repeated_source :
    (JoinTable.mk [[97], [97]] []).Insert [([97], [120])]
      = .ok (JoinTable.mk [[97], [97]] [[[120], []]]) ∧
    (mapGet [(([97] : SourceID), ([120] : Bytes))] [97]).getD [] = [120] := by
  constructor <;> decide

/-- C17 (amended): for a join table whose source ids are pairwise distinct and a map
`values` (entries with distinct keys, in the order of iteration): if all keys occur in
the source-id list, `Insert` succeeds and appends exactly one row, of
`len(sourceids)` columns, whose column `i` is `values[sourceids[i]]` (empty when the
source is absent), leaving the earlier rows and the source ids unchanged; if some key
is not in the list, it returns the error and no table. -/
theorem Insert_spec (t : JoinTable) (values : List (SourceID × Bytes))
    (hS : t.sourceids.Nodup) (hk : (values.map Prod.fst).Nodup) :
    ((∀ p ∈ values, p.1 ∈ t.sourceids) →
      t.Insert values = .ok
        { sourceids := t.sourceids
          values := t.values ++ [t.sourceids.map (fun s => (mapGet values s).getD [])] } ∧
      (t.sourceids.map (fun s => (mapGet values s).getD [])).length = t.sourceids.length) ∧
    ((∃ p ∈ values, p.1 ∉ t.sourceids) →
      t.Insert values = .error (.error "source ID not found")) := by
  constructor
  · intro hsub
    refine ⟨?_, by simp⟩
    unfold JoinTable.Insert
    rw [insertRow_replicate t.sourceids hS values hk hsub]
  · intro hbad
    unfold JoinTable.Insert
    rw [insertRow_error t.sourceids values _ hbad]

/-- C17 (witness): the amended statement on a table of two sources with one earlier
row and a map that has a value for the second source only. -/
theorem Insert_spec_witness :
    (JoinTable.mk [[97], [98]] [[[1], [2]]]).Insert [([98], [120])]
      = .ok (JoinTable.mk [[97], [98]] [[[1], [2]], [[], [120]]]) :=
  ((Insert_spec (JoinTable.mk [[97], [98]] [[[1], [2]]]) [([98], [120])]
    (by decide) (by decide)).1 (by decide)).1

/-! ## Claim C18 -/

theorem decryptGroup_eq [SymLib] (r : Receiver G) (group : List (EncRowWithHint G)) :
    r.decryptGroup group
      = decryptLoop r (Point.Invert (r.groupMask group)) (r.decGroup group) [] := rfl

theorem toPanic_ne_error (e : Fault) (msg : String) : toPanic e ≠ .error msg := by
  cases e <;> simp [toPanic]

/-- Every failure of `decryptLoop` is a panic, and a corrupt row makes it fail. -/
theorem decryptLoop_corrupt [SymLib] (r : Receiver G) (invMask : G) :
    ∀ (l : List (EncRowWithHint G)) (out : List (SourceID × Bytes)),
      (∀ f, decryptLoop r invMask (r.decGroup l) out = .error f → ∀ msg, f ≠ .error msg) ∧
      ((∃ ge ∈ l, CorruptRow r invMask ge) →
        ∃ f, decryptLoop r invMask (r.decGroup l) out = .error f) := by
  intro l
  induction l with
  | nil =>
    intro out
    refine ⟨fun f h => (by cases h), fun h => ?_⟩
    obtain ⟨ge, hge, _⟩ := h
    cases hge
  | cons ge l ih =>
    intro out
    have hcons : r.decGroup (ge :: l)
        = { val := ge.CVal, blindedkey := OPRFUnblind r.recvSK.bsk ge.CValKey,
            hint := OPRFUnblind r.recvSK.bsk ge.CHint } :: r.decGroup l := rfl
    rw [hcons, decryptLoop]
    simp only
    cases h1 : SymmetricDecrypt
        (KeyFromPoint (Mul (OPRFUnblind r.recvSK.bsk ge.CValKey).m invMask) r.sid) ge.CVal with
    | error e =>
      refine ⟨fun f h => (by cases h; exact toPanic_ne_error e), fun _ => ⟨_, rfl⟩⟩
    | ok data =>
      cases data with
      | nil =>
        refine ⟨fun f h => (by cases h; intro msg hm; cases hm), fun _ => ⟨_, rfl⟩⟩
      | cons first encValBytes =>
        simp only
        cases h2 : r.sourceIDs[first.val]? with
        | none =>
          refine ⟨fun f h => (by cases h; intro msg hm; cases hm), fun _ => ⟨_, rfl⟩⟩
        | some sourceID =>
          simp only
          cases h3 : (DeserializeCiphertexts encValBytes
              : Except Fault (List (Ciphertext G))) with
          | error e =>
            refine ⟨fun f h => (by cases h; exact toPanic_ne_error e), fun _ => ⟨_, rfl⟩⟩
          | ok encVal =>
            simp only
            cases h4 : PKEDecryptVector r.recvSK.esk encVal with
            | error e =>
              refine ⟨fun f h => (by cases h; exact toPanic_ne_error e), fun _ => ⟨_, rfl⟩⟩
            | ok pt =>
              simp only
              refine ⟨(ih _).1, fun h => (ih _).2 ?_⟩
              obtain ⟨ge1, hge1, hbad⟩ := h
              rcases List.mem_cons.mp hge1 with rfl | hmem
              · exfalso
                obtain ⟨data, hdata, hcase⟩ := hbad
                rw [h1] at hdata
                cases hdata
                rcases hcase with hnil | ⟨f1, rest, hfr, hcase⟩
                · cases hnil
                · cases hfr
                  rcases hcase with hidx | ⟨e, he⟩ | ⟨cts, e, hcts, he⟩
                  · have := List.getElem?_eq_none hidx
                    rw [h2] at this
                    cases this
                  · rw [h3] at he
                    cases he
                  · rw [h3] at hcts
                    cases hcts
                    rw [h4] at he
                    cases he
              · exact ⟨ge1, hmem, hbad⟩

/-- C18: when some row of the group is corrupt (its symmetric decryption is empty, or
its first byte is not a valid index into `sourceIDs`, or the remaining bytes do not
deserialize into 66-byte ciphertexts, or `PKEDecryptVector` reports an error),
`Receiver.decryptGroup` returns no map: it fails, and the failure is a panic, not an
error value. -/
theorem decryptGroup_corrupt [SymLib] (r : Receiver G) (group : List (EncRowWithHint G))
    (h : ∃ ge ∈ group, CorruptRow r (Point.Invert (r.groupMask group)) ge) :
    ∃ f, r.decryptGroup group = .error f ∧ ∀ msg, f ≠ .error msg := by
  obtain ⟨hfatal, hfail⟩ := decryptLoop_corrupt r (Point.Invert (r.groupMask group)) group []
  obtain ⟨f, hf⟩ := hfail h
  rw [decryptGroup_eq]
  exact ⟨f, hf, hfatal f hf⟩

/-- C18 (witness): a group of one row whose blob is empty, in the model. -/
theorem decryptGroup_corrupt_witness :
    ∃ f, (NewReceiver [1] [[97]] (3 : Scalar ModelPoint) 5).decryptGroup
        [{ Cnyme := ⟨Gen, Gen⟩, CVal := [], CValKey := ⟨Gen, Gen⟩, CHint := ⟨Gen, Gen⟩ }]
      = .error f ∧ ∀ msg, f ≠ .error msg :=
  decryptGroup_corrupt _ _ ⟨_, List.mem_singleton_self _, [], by decide!, Or.inl rfl⟩

/-! ## Claims C19 and C20 -/

/-- C19 (counterexample): the encryption of the generator with the scalar 0 has the
identity as `c0`, which is encoded in one byte: its serialization has 34 bytes, not
66, and `DeserializeCiphertext` rejects it. -/
theorem Serialize_identity_component :
    (PKEEncrypt (PKEKeyGen (5 : Scalar ModelPoint)).2 { m := Gen } 0).Serialize.length = 34 ∧
    (DeserializeCiphertext (PKEEncrypt (PKEKeyGen (5 : Scalar ModelPoint)).2 { m := Gen } 0).Serialize
        : Except Fault (Ciphertext ModelPoint))
      = .error (.error "invalid byte slice length for deserialization") := by
  constructor <;> decide!

/-- C19 (amended): for every ciphertext whose two points are not the identity,
`Serialize` is 66 bytes, the 33-byte encoding of `c0` followed by the 33-byte
encoding of `c1`, and `DeserializeCiphertext` of it succeeds with a ciphertext that
`Equals` the original. -/
theorem DeserializeCiphertext_Serialize_Equals (ct : Ciphertext G) (h0 : ct.c0 ≠ 1)
    (h1 : ct.c1 ≠ 1) :
    ct.Serialize.length = 66 ∧
    ct.Serialize = Point.MarshalBinary ct.c0 ++ Point.MarshalBinary ct.c1 ∧
    (Point.MarshalBinary ct.c0).length = 33 ∧ (Point.MarshalBinary ct.c1).length = 33 ∧
    ∃ ct1, (DeserializeCiphertext ct.Serialize : Except Fault (Ciphertext G)) = .ok ct1 ∧
      ct1.Equals ct :=
  ⟨length_Serialize ct h0 h1, rfl, CurveGroup.marshal_length _ h0, CurveGroup.marshal_length _ h1,
    ct, DeserializeCiphertext_Serialize ct h0 h1, rfl, rfl⟩

/-- C19 (witness): the amended statement at an encryption of the generator in the
model. -/
theorem DeserializeCiphertext_Serialize_Equals_witness :
    (PKEEncrypt (PKEKeyGen (5 : Scalar ModelPoint)).2 { m := Gen } 7).c0 ≠ 1 ∧
    (PKEEncrypt (PKEKeyGen (5 : Scalar ModelPoint)).2 { m := Gen } 7).c1 ≠ 1 ∧
    ∃ ct1, (DeserializeCiphertext
        (PKEEncrypt (PKEKeyGen (5 : Scalar ModelPoint)).2 { m := Gen } 7).Serialize
          : Except Fault (Ciphertext ModelPoint)) = .ok ct1 ∧
      ct1.Equals (PKEEncrypt (PKEKeyGen (5 : Scalar ModelPoint)).2 { m := Gen } 7) := by
  have h0 : (PKEEncrypt (PKEKeyGen (5 : Scalar ModelPoint)).2 { m := Gen } 7).c0 ≠ 1 := by decide!
  have h1 : (PKEEncrypt (PKEKeyGen (5 : Scalar ModelPoint)).2 { m := Gen } 7).c1 ≠ 1 := by decide!
  exact ⟨h0, h1, (DeserializeCiphertext_Serialize_Equals _ h0 h1).2.2.2.2⟩

/-- C20 (counterexample): the one-element list holding the encryption of the
generator with the scalar 0 serializes to 34 bytes, not 66, and
`DeserializeCiphertexts` rejects them. -/
theorem SerializeCiphertexts_identity_component :
    (SerializeCiphertexts
      [PKEEncrypt (PKEKeyGen (5 : Scalar ModelPoint)).2 { m := Gen } 0]).length = 34 ∧
    (DeserializeCiphertexts (SerializeCiphertexts
        [PKEEncrypt (PKEKeyGen (5 : Scalar ModelPoint)).2 { m := Gen } 0])
        : Except Fault (List (Ciphertext ModelPoint)))
      = .error (.error "invalid byte slice length for deserialization of array") := by
  constructor <;> decide!

/-- C20 (amended): for every list of ciphertexts none of whose points is the
identity, `SerializeCiphertexts` has length `66 * len(cts)` and
`DeserializeCiphertexts` of it returns a list of the same length whose `i`-th
element `Equals` `cts[i]`. -/
theorem DeserializeCiphertexts_SerializeCiphertexts_Equals (cts : List (Ciphertext G))
    (h : ∀ ct ∈ cts, ct.c0 ≠ 1 ∧ ct.c1 ≠ 1) :
    (SerializeCiphertexts cts).length = 66 * cts.length ∧
    ∃ cts1, (DeserializeCiphertexts (SerializeCiphertexts cts)
        : Except Fault (List (Ciphertext G))) = .ok cts1 ∧
      cts1.length = cts.length ∧ List.Forall₂ Ciphertext.Equals cts1 cts := by
  refine ⟨?_, cts, DeserializeCiphertexts_SerializeCiphertexts cts h, rfl, ?_⟩
  · rw [SerializeCiphertexts_eq]
    exact length_flatten_Serialize cts h
  · exact List.forall₂_same.mpr (fun _ _ => ⟨rfl, rfl⟩)

/-- C20 (witness): the amended statement at two encryptions of the generator in
the model. -/
theorem DeserializeCiphertexts_SerializeCiphertexts_Equals_witness :
    (SerializeCiphertexts
      [PKEEncrypt (PKEKeyGen (5 : Scalar ModelPoint)).2 { m := Gen } 7,
       PKEEncrypt (PKEKeyGen (5 : Scalar ModelPoint)).2 { m := Gen } 9]).length = 66 * 2 :=
  (DeserializeCiphertexts_SerializeCiphertexts_Equals
    [PKEEncrypt (PKEKeyGen (5 : Scalar ModelPoint)).2 { m := Gen } 7,
     PKEEncrypt (PKEKeyGen (5 : Scalar ModelPoint)).2 { m := Gen } 9] (by decide!)).1

/-! ## Claim C21 -/

/-- C21: `DeserializeCiphertext` returns its error for every input whose length is
not 66, and `DeserializeCiphertexts` for every input whose length is not a multiple
of 66. -/
theorem Deserialize_wrong_length (data : Bytes) :
    (data.length ≠ 66 →
      (DeserializeCiphertext data : Except Fault (Ciphertext G))
        = .error (.error "invalid byte slice length for deserialization")) ∧
    (data.length % 66 ≠ 0 →
      (DeserializeCiphertexts data : Except Fault (List (Ciphertext G)))
        = .error (.error "invalid byte slice length for deserialization of array")) := by
  constructor
  · intro h
    unfold DeserializeCiphertext
    simp only [Nat.reduceMul, ne_eq, h, not_false_eq_true, if_true]
  · intro h
    unfold DeserializeCiphertexts
    simp only [Nat.reduceMul, ne_eq, h, not_false_eq_true, if_true]

/-- C21 (witness): a string of three bytes is rejected by both. -/
theorem Deserialize_wrong_length_witness :
    (DeserializeCiphertext [1, 2, 3] : Except Fault (Ciphertext ModelPoint))
        = .error (.error "invalid byte slice length for deserialization") ∧
    (DeserializeCiphertexts [1, 2, 3] : Except Fault (List (Ciphertext ModelPoint)))
        = .error (.error "invalid byte slice length for deserialization of array") :=
  ⟨(Deserialize_wrong_length [1, 2, 3]).1 (by decide),
    (Deserialize_wrong_length [1, 2, 3]).2 (by decide)⟩

/-! ## Claims C22 and C23 -/

theorem goCopy_same_length (dst src : Bytes) (h : src.length = dst.length) :
    goCopy dst src = src := by
  unfold goCopy
  rw [← h, List.take_length, List.drop_eq_nil_of_le (by omega), List.append_nil]

theorem goCopy_replicate_Serialize (ct : Ciphertext G) (h0 : ct.c0 ≠ 1) (h1 : ct.c1 ≠ 1) :
    goCopy (List.replicate ctLen 0) ct.Serialize = ct.Serialize :=
  goCopy_same_length _ _ (by rw [length_Serialize ct h0 h1, List.length_replicate]; rfl)

/-- C22 (counterexample): a row whose `Cuid` is the encryption of the generator with
the scalar 0.  Its `c0` is the identity, encoded in one byte, so the first 66 bytes
of the frame are not `Serialize(Cuid)` (34 bytes, followed by zeros in the frame),
and `GetEncRowFromMsg` rejects the frame. -/
theorem GetEncRowMsg_identity_component :
    (GetEncRowMsg
        { Cuid := PKEEncrypt (PKEKeyGen (3 : Scalar ModelPoint)).2 { m := Gen } 0
          Cval := (encRowExample ModelPoint).Cval }).map
      (fun data => (data.length,
        decide (data.take 66
          = (PKEEncrypt (PKEKeyGen (3 : Scalar ModelPoint)).2 { m := Gen } 0).Serialize),
        (GetEncRowFromMsg data : Except Fault (EncRow ModelPoint)).toOption.isSome))
      = .ok (132, false, false) := by
  decide!

/-- C22 (amended): for every row with exactly one value ciphertext in which no point
is the identity, `GetEncRowMsg` produces a frame of 132 bytes whose bytes 0..66 are
`Serialize(Cuid)` and whose bytes 66..132 are `Serialize(Cval[0])`, and
`GetEncRowFromMsg` of the frame returns a row whose `Cuid` and single `Cval` `Equals`
the original ones. -/
theorem GetEncRowFromMsg_GetEncRowMsg (er : EncRow G) (cval : Ciphertext G)
    (hval : er.Cval = [cval]) (hcuid : er.Cuid.c0 ≠ 1 ∧ er.Cuid.c1 ≠ 1)
    (hcval : cval.c0 ≠ 1 ∧ cval.c1 ≠ 1) :
    ∃ data, GetEncRowMsg er = .ok data ∧ data.length = 132 ∧
      data.take 66 = er.Cuid.Serialize ∧ (data.take 132).drop 66 = cval.Serialize ∧
      ∃ row c, (GetEncRowFromMsg data : Except Fault (EncRow G)) = .ok row ∧
        row.Cuid.Equals er.Cuid ∧ row.Cval = [c] ∧ c.Equals cval := by
  have hl1 := length_Serialize er.Cuid hcuid.1 hcuid.2
  have hl2 := length_Serialize cval hcval.1 hcval.2
  have hdata : GetEncRowMsg er = .ok (er.Cuid.Serialize ++ cval.Serialize) := by
    unfold GetEncRowMsg
    rw [hval]
    simp only
    rw [goCopy_replicate_Serialize _ hcuid.1 hcuid.2, goCopy_replicate_Serialize _ hcval.1 hcval.2]
  have ht1 : (er.Cuid.Serialize ++ cval.Serialize).take 66 = er.Cuid.Serialize :=
    List.take_left' hl1
  have ht2 : ((er.Cuid.Serialize ++ cval.Serialize).take 132).drop 66 = cval.Serialize := by
    rw [List.take_of_length_le (by rw [List.length_append, hl1, hl2])]
    exact List.drop_left' hl1
  have hlen : (er.Cuid.Serialize ++ cval.Serialize).length = 132 := by
    rw [List.length_append, hl1, hl2]
  refine ⟨_, hdata, hlen, ht1, ht2, { Cuid := er.Cuid, Cval := [cval] }, cval, ?_, ⟨rfl, rfl⟩,
    rfl, ⟨rfl, rfl⟩⟩
  unfold GetEncRowFromMsg
  have hc : ctLen = 66 := rfl
  simp only [hc, hlen, Nat.reduceMul, Nat.reduceLT, if_false, ht1, ht2,
    DeserializeCiphertext_Serialize _ hcuid.1 hcuid.2,
    DeserializeCiphertext_Serialize _ hcval.1 hcval.2]

/-- C22 (witness): the amended statement at the row `encRowExample`, in the model. -/
theorem GetEncRowFromMsg_GetEncRowMsg_witness :
    ∃ data, GetEncRowMsg (encRowExample ModelPoint) = .ok data ∧ data.length = 132 ∧
      ∃ row, (GetEncRowFromMsg data : Except Fault (EncRow ModelPoint)) = .ok row ∧
        row.Cuid.Equals (encRowExample ModelPoint).Cuid := by
  obtain ⟨data, h1, h2, _, _, row, c, h3, h4, _⟩ :=
    GetEncRowFromMsg_GetEncRowMsg (encRowExample ModelPoint)
      (PKEEncrypt (PKEKeyGen (5 : Scalar ModelPoint)).2 { m := Gen } 9) rfl
      (by constructor <;> decide!) (by constructor <;> decide!)
  exact ⟨data, h1, h2, row, h3, h4⟩

/-- C23 (counterexample): a converted row whose `Cnyme` is the encryption of the
generator with the scalar 0: the frame has 198 + 3 bytes, but its first 66 bytes are
not `Serialize(Cnyme)` and `GetEncRowWithHintFromMsg` rejects it. -/
theorem GetEncRowWithHintMsg_identity_component :
    (GetEncRowWithHintMsg
        { encRowWithHintExample ModelPoint with
          Cnyme := PKEEncrypt (PKEKeyGen (3 : Scalar ModelPoint)).2 { m := Gen } 0 }).map
      (fun data => (data.length,
        decide (data.take 66
          = (PKEEncrypt (PKEKeyGen (3 : Scalar ModelPoint)).2 { m := Gen } 0).Serialize),
        (GetEncRowWithHintFromMsg data
          : Except Fault (EncRowWithHint ModelPoint)).toOption.isSome))
      = .ok (201, false, false) := by
  decide!

/-- C23 (amended): for every converted row none of whose ciphertext points is the
identity, `GetEncRowWithHintMsg` produces `198 + len(CVal)` bytes laid out as
`Serialize(Cnyme)`, `Serialize(CValKey)`, `Serialize(CHint)`, then `CVal`, and
`GetEncRowWithHintFromMsg` of the frame returns a row whose three ciphertexts `Equals`
the original ones and whose `CVal` has the same bytes. -/
theorem GetEncRowWithHintFromMsg_GetEncRowWithHintMsg (r : EncRowWithHint G)
    (hnym : r.Cnyme.c0 ≠ 1 ∧ r.Cnyme.c1 ≠ 1) (hkey : r.CValKey.c0 ≠ 1 ∧ r.CValKey.c1 ≠ 1)
    (hhint : r.CHint.c0 ≠ 1 ∧ r.CHint.c1 ≠ 1) :
    ∃ data, GetEncRowWithHintMsg r = .ok data ∧ data.length = 198 + r.CVal.length ∧
      data = r.Cnyme.Serialize ++ r.CValKey.Serialize ++ r.CHint.Serialize ++ r.CVal ∧
      ∃ row, (GetEncRowWithHintFromMsg data : Except Fault (EncRowWithHint G)) = .ok row ∧
        row.Cnyme.Equals r.Cnyme ∧ row.CValKey.Equals r.CValKey ∧
        row.CHint.Equals r.CHint ∧ row.CVal = r.CVal := by
  have hl1 := length_Serialize r.Cnyme hnym.1 hnym.2
  have hl2 := length_Serialize r.CValKey hkey.1 hkey.2
  have hl3 := length_Serialize r.CHint hhint.1 hhint.2
  have hdata : GetEncRowWithHintMsg r
      = .ok (r.Cnyme.Serialize ++ r.CValKey.Serialize ++ r.CHint.Serialize ++ r.CVal) := by
    unfold GetEncRowWithHintMsg
    rw [goCopy_replicate_Serialize _ hnym.1 hnym.2, goCopy_replicate_Serialize _ hkey.1 hkey.2,
      goCopy_replicate_Serialize _ hhint.1 hhint.2,
      goCopy_same_length _ r.CVal (by rw [List.length_replicate])]
  have hlen : (r.Cnyme.Serialize ++ r.CValKey.Serialize ++ r.CHint.Serialize ++ r.CVal).length
      = 198 + r.CVal.length := by
    simp only [List.length_append, hl1, hl2, hl3]
  have ht1 : (r.Cnyme.Serialize ++ r.CValKey.Serialize ++ r.CHint.Serialize ++ r.CVal).take 66
      = r.Cnyme.Serialize := by
    rw [List.append_assoc, List.append_assoc]
    exact List.take_left' hl1
  have ht2 : ((r.Cnyme.Serialize ++ r.CValKey.Serialize ++ r.CHint.Serialize
      ++ r.CVal).take 132).drop 66 = r.CValKey.Serialize := by
    rw [List.append_assoc, List.take_left' (by rw [List.length_append, hl1, hl2])]
    exact List.drop_left' hl1
  have ht3 : ((r.Cnyme.Serialize ++ r.CValKey.Serialize ++ r.CHint.Serialize
      ++ r.CVal).take 198).drop 132 = r.CHint.Serialize := by
    rw [List.take_left' (by simp only [List.length_append, hl1, hl2, hl3])]
    exact List.drop_left' (by rw [List.length_append, hl1, hl2])
  have ht4 : (r.Cnyme.Serialize ++ r.CValKey.Serialize ++ r.CHint.Serialize ++ r.CVal).drop 198
      = r.CVal :=
    List.drop_left' (by simp only [List.length_append, hl1, hl2, hl3])
  refine ⟨_, hdata, hlen, rfl, ⟨r.Cnyme, r.CVal, r.CValKey, r.CHint⟩, ?_, ⟨rfl, rfl⟩,
    ⟨rfl, rfl⟩, ⟨rfl, rfl⟩, rfl⟩
  unfold GetEncRowWithHintFromMsg
  have hc : ctLen = 66 := rfl
  have hn1 : ¬ (198 + r.CVal.length < 66) := by omega
  have hn2 : ¬ (198 + r.CVal.length < 132) := by omega
  have hn3 : ¬ (198 + r.CVal.length < 198) := by omega
  simp only [hc, hlen, Nat.reduceMul, hn1, hn2, hn3, if_false, ht1, ht2, ht3, ht4,
    DeserializeCiphertext_Serialize _ hnym.1 hnym.2,
    DeserializeCiphertext_Serialize _ hkey.1 hkey.2,
    DeserializeCiphertext_Serialize _ hhint.1 hhint.2]

/-- C23 (witness): the amended statement at the row `encRowWithHintExample`, in the
model. -/
theorem GetEncRowWithHintFromMsg_GetEncRowWithHintMsg_witness :
    ∃ data, GetEncRowWithHintMsg (encRowWithHintExample ModelPoint) = .ok data ∧
      data.length = 198 + 3 ∧
      ∃ row, (GetEncRowWithHintFromMsg data : Except Fault (EncRowWithHint ModelPoint))
          = .ok row ∧ row.CVal = [1, 2, 3] := by
  obtain ⟨data, h1, h2, _, row, h3, _, _, _, h4⟩ :=
    GetEncRowWithHintFromMsg_GetEncRowWithHintMsg (encRowWithHintExample ModelPoint)
      (by constructor <;> decide!) (by constructor <;> decide!) (by constructor <;> decide!)
  exact ⟨data, h1, h2, row, h3, h4⟩

/-! ## Claims C24 and C25 -/

/-- C24 (failing inputs): on the empty `Data` both decoders panic in their first
slice expression instead of returning an error, and `GetEncRowFromMsg` accepts a
frame of 133 bytes, a valid frame followed by one more byte, and returns the row of
the first 132. -/
theorem FromMsg_wrong_length :
    (GetEncRowFromMsg [] : Except Fault (EncRow ModelPoint)).map (fun _ => ())
      = .error (.panic "slice bounds out of range") ∧
    (GetEncRowWithHintFromMsg [] : Except Fault (EncRowWithHint ModelPoint)).map (fun _ => ())
      = .error (.panic "slice bounds out of range") ∧
    (GetEncRowMsg (encRowExample ModelPoint)).bind (fun data =>
        (GetEncRowFromMsg (data ++ [0]) : Except Fault (EncRow ModelPoint)).map
          (fun row => ((data ++ [0]).length, decide (row.Cuid = (encRowExample ModelPoint).Cuid),
            decide (row.Cval = (encRowExample ModelPoint).Cval))))
      = .ok (133, true, true) := by
  refine ⟨?_, ?_, ?_⟩ <;> decide!

/-- C25 (the code): `GetEncRowMsg` never looks at the length of `Cval`: with more than
one value ciphertext it returns the frame of the first one, the others are left
out, and with none `er.Cval[0]` panics.  `EncRow.MarshalBinary` returns its error for
more than one value ciphertext, and panics as well for none. -/
theorem GetEncRowMsg_Cval_length (cuid c c1 : Ciphertext G) (rest : List (Ciphertext G)) :
    GetEncRowMsg { Cuid := cuid, Cval := c :: c1 :: rest }
      = GetEncRowMsg { Cuid := cuid, Cval := [c] } ∧
    (∃ data, GetEncRowMsg { Cuid := cuid, Cval := c :: c1 :: rest } = .ok data ∧
      data.length = 132) ∧
    GetEncRowMsg { Cuid := cuid, Cval := [] }
      = .error (.panic "index out of range [0] with length 0") ∧
    EncRow.MarshalBinary { Cuid := cuid, Cval := c :: c1 :: rest }
      = .error (.error "multiple ciphertext values not supported") ∧
    EncRow.MarshalBinary { Cuid := cuid, Cval := [] }
      = .error (.panic "index out of range [0] with length 0") := by
  refine ⟨rfl, ⟨_, rfl, ?_⟩, rfl, ?_, rfl⟩
  · simp [goCopy, ctLen]
    omega
  · unfold EncRow.MarshalBinary
    simp

/-! ## Claims C26, C27 and C28 -/

/-- C26: for every key of 16 bytes and every plaintext, the empty one included,
`SymmetricEncrypt` succeeds with a ciphertext of the length of the plaintext, and
`SymmetricDecrypt` of it under the same key returns the plaintext. -/
theorem SymmetricDecrypt_SymmetricEncrypt_key16 [SymLib] (key p : Bytes)
    (hkey : key.length = 16) :
    ∃ c, SymmetricEncrypt key p = .ok c ∧ c.length = p.length ∧
      SymmetricDecrypt key c = .ok p := by
  have henc : SymmetricEncrypt key p
      = .ok (List.zipWith (fun a b => a ^^^ b) p (SymLib.keyStream key p.length)) := by
    unfold SymmetricEncrypt ctr
    rw [if_pos (Or.inl hkey)]
  refine ⟨_, henc, ?_, SymmetricDecrypt_SymmetricEncrypt key p _ henc⟩
  rw [List.length_zipWith, SymLib.keyStream_length, Nat.min_self]

/-- C26 (witness): a key of 16 bytes and the empty plaintext, in the model of the
symmetric primitives. -/
theorem SymmetricDecrypt_SymmetricEncrypt_key16_witness :
    ∃ c, SymmetricEncrypt (List.replicate 16 7) [] = .ok c ∧ c.length = ([] : Bytes).length ∧
      SymmetricDecrypt (List.replicate 16 7) c = .ok [] :=
  SymmetricDecrypt_SymmetricEncrypt_key16 (List.replicate 16 7) [] (by decide)

/-- C27: for every byte string `d` and every block size from 1 to 255, `unpad` of
`pad(d, bs)` returns `d`. -/
theorem unpad_pad_block (d : Bytes) (bs : Nat) (h1 : 1 ≤ bs) (h2 : bs ≤ 255) :
    unpad (pad d bs) = .ok d :=
  unpad_pad d bs h1 h2

/-- C27 (witness): 100 bytes and the block size 31. -/
theorem unpad_pad_block_witness :
    unpad (pad (List.replicate 100 9) 31) = .ok (List.replicate 100 9) :=
  unpad_pad_block (List.replicate 100 9) 31 (by decide) (by decide)

theorem unpad_error_iff (d : Bytes) : (∃ e, unpad d = .error e) ↔ MalformedTail d := by
  unfold unpad MalformedTail
  cases hlast : d.getLast? with
  | none =>
    have hd : d = [] := List.getLast?_eq_none_iff.mp hlast
    simp [hd]
  | some last =>
    have hd : d ≠ [] := by
      intro h
      rw [h] at hlast
      cases hlast
    simp only [hd, false_or, Option.some.injEq, exists_eq_left']
    by_cases h1 : last.val > d.length ∨ last.val = 0
    · rw [if_pos h1]
      constructor
      · intro _
        rcases h1 with h1 | h1
        · exact Or.inr (Or.inl h1)
        · exact Or.inl h1
      · intro _
        exact ⟨_, rfl⟩
    · rw [if_neg h1]
      by_cases h2 : (d.drop (d.length - last.val)).all (fun v => decide (v.val = last.val)) = true
      · rw [if_pos h2]
        constructor
        · rintro ⟨e, he⟩
          cases he
        · rintro (h | h | ⟨v, hv, hne⟩)
          · exact absurd (Or.inr h) h1
          · exact absurd (Or.inl h) h1
          · rw [List.all_eq_true] at h2
            exact absurd (by simpa using h2 v hv) hne
      · rw [if_neg h2]
        constructor
        · intro _
          simp only [List.all_eq_true, decide_eq_true_eq, not_forall] at h2
          obtain ⟨v, hv, hne⟩ := h2
          exact Or.inr (Or.inr ⟨v, hv, hne⟩)
        · intro _
          exact ⟨_, rfl⟩

theorem unpad_ok_of_wellformed (d : Bytes) (h : ¬ MalformedTail d) :
    ∃ last, d.getLast? = some last ∧ unpad d = .ok (d.take (d.length - last.val)) := by
  have hne : ¬ ∃ e, unpad d = .error e := fun he => h ((unpad_error_iff d).mp he)
  unfold unpad at hne ⊢
  cases hlast : d.getLast? with
  | none =>
    rw [hlast] at hne
    exact absurd ⟨_, rfl⟩ hne
  | some last =>
    rw [hlast] at hne
    refine ⟨last, rfl, ?_⟩
    simp only at hne ⊢
    split
    · rename_i h1
      rw [if_pos h1] at hne
      exact absurd ⟨_, rfl⟩ hne
    · rename_i h1
      rw [if_neg h1] at hne
      split
      · rfl
      · rename_i h2
        rw [if_neg h2] at hne
        exact absurd ⟨_, rfl⟩ hne

/-- C28: `unpad(d)` fails exactly when the tail of `d` is malformed (`d` is empty, or
its last byte `k` is 0 or greater than `len(d)`, or one of the last `k` bytes
differs from `k`), and otherwise returns `d` without its last `k` bytes.  So
`PKEDecryptVector` fails on every list of ciphertexts whose concatenated plaintext
has a malformed tail, and on the empty list. -/
theorem unpad_fails_iff (d : Bytes) (sk : SecretKey G) (cts : List (Ciphertext G)) :
    ((∃ e, unpad d = .error e) ↔ MalformedTail d) ∧
    (¬ MalformedTail d →
      ∃ last, d.getLast? = some last ∧ unpad d = .ok (d.take (d.length - last.val))) ∧
    ((∀ msgs, collectResults (cts.map (fun ct => (PKEDecrypt sk ct).GetMessageBytes)) = .ok msgs →
        MalformedTail msgs.flatten) →
      ∃ e, PKEDecryptVector sk cts = .error e) ∧
    PKEDecryptVector sk [] = .error (.error "invalid padding size, empty data") := by
  refine ⟨unpad_error_iff d, unpad_ok_of_wellformed d, ?_, rfl⟩
  intro h
  unfold PKEDecryptVector
  cases hc : collectResults (cts.map (fun ct => (PKEDecrypt sk ct).GetMessageBytes)) with
  | error e => exact ⟨e, rfl⟩
  | ok msgs => exact (unpad_error_iff _).mpr (h msgs hc)

/-- C28 (witness): a ciphertext whose plaintext is thirty zero bytes, in the model:
the last byte is 0, and `PKEDecryptVector` fails. -/
theorem unpad_fails_iff_witness :
    MalformedTail (List.replicate 30 0) ∧
    ∃ e, PKEDecryptVector (PKEKeyGen (5 : Scalar ModelPoint)).1 [ctZeros ModelPoint] = .error e := by
  have hm : MalformedTail (List.replicate 30 0) := Or.inr ⟨0, by decide, Or.inl rfl⟩
  have hc : collectResults ([ctZeros ModelPoint].map
      (fun ct => (PKEDecrypt (PKEKeyGen (5 : Scalar ModelPoint)).1 ct).GetMessageBytes))
      = .ok [List.replicate 30 0] := by decide!
  refine ⟨hm, (unpad_fails_iff [] (PKEKeyGen (5 : Scalar ModelPoint)).1
    [ctZeros ModelPoint]).2.2.1 ?_⟩
  intro msgs h
  rw [hc] at h
  cases h
  exact hm

/-! ## Claims C29 and C30 -/

/-- C29 (failing input): a server for the sources `a` and `b`.  A first `PushRows`
call with the source id `a` is accepted with table index 0; a second call with the
same id, made before the first one has ended, is accepted with table index 0 as
well, and the rows of both calls are sent on to the conversion.  Only after the
first call has ended is a call with the id `a` rejected. -/
theorem PushRows_same_source_twice :
    ((newHelperServer [[97], [98]] : HelperServer ModelPoint).pushRowsBegin (some [97])).2
      = .ok 0 ∧
    (((newHelperServer [[97], [98]] : HelperServer ModelPoint).pushRowsBegin
        (some [97])).1.pushRowsBegin (some [97])).2 = .ok 0 ∧
    ((GetEncRowMsg (encRowExample ModelPoint)).bind (fun data =>
        ((((newHelperServer [[97], [98]] : HelperServer ModelPoint).pushRowsBegin
          (some [97])).1.pushRowsBegin (some [97])).1.pushRowsRecv 0 data).bind
          (fun s => s.pushRowsRecv 0 data))).map
        (fun s => s.incoming.map (fun task => task.TableIndex)) = .ok [0, 0] ∧
    ((((newHelperServer [[97], [98]] : HelperServer ModelPoint).pushRowsBegin
        (some [97])).1.pushRowsEnd [97]).map
        (fun s => (s.pushRowsBegin (some [97])).2))
      = .ok (.error "unexpected source ID") := by
  refine ⟨?_, ?_, ?_, ?_⟩ <;> decide!

/-- C30 (failing input): two tables with the same source id and two rows each, `t1`
with the rows `a` and `b`, `t2` with the row `a` twice.  `EqualContents(t1, t2)` is
true although the rows differ, `EqualContents(t2, t1)` is false; and two rows that
differ only in where the `|` falls are taken for equal. -/
theorem EqualContents_not_multiset :
    (JoinTable.mk [[115]] [[[97]], [[98]]]).EqualContents (JoinTable.mk [[115]] [[[97]], [[97]]])
      = .ok true ∧
    (JoinTable.mk [[115]] [[[97]], [[97]]]).EqualContents (JoinTable.mk [[115]] [[[97]], [[98]]])
      = .ok false ∧
    (JoinTable.mk [[115], [116]] [[[97, 124, 98], [99]]]).EqualContents
        (JoinTable.mk [[115], [116]] [[[97], [98, 124, 99]]])
      = .ok true := by
  refine ⟨?_, ?_, ?_⟩ <;> decide

/-! ## The helper: nonces, table indices and the blob -/

theorem convertLoop_not_error [SymLib] (h : Helper G) (rpk : PublicKeyTuple G)
    (rnd : Nat → ConvRand G) :
    ∀ (tasks : List (ConvertRowTask G)) (res : EncTableWithHint G) (i : Nat) (f : Fault),
      convertLoop h rpk rnd tasks res i = .error f → ∀ msg, f ≠ .error msg := by
  intro tasks
  induction tasks with
  | nil => intro res i f hf; simp [convertLoop] at hf
  | cons task rest ih =>
    intro res i f hf msg
    rw [convertLoop] at hf
    split at hf
    · cases hf
      exact toPanic_ne_error _ _
    · split at hf
      · cases hf
        exact fun h => Fault.noConfusion h
      · split at hf
        · exact ih _ _ _ hf msg
        · cases hf
          exact fun h => Fault.noConfusion h

theorem ConvertRow_ok [SymLib] (sid : Bytes) (S : List SourceID) (nRows : Nat)
    (k : Scalar G) (nonce : Nat → Scalar G) (perm : List Nat) (rpk : PublicKeyTuple G)
    (encRow : EncRow G) (j : Nat) (rnd : ConvRand G) (hj : j < S.length) :
    ∃ crow, (NewHelper sid S nRows k nonce perm).ConvertRow rpk encRow j rnd = .ok crow := by
  obtain ⟨c, hc⟩ := SymmetricEncrypt_KeyFromPoint (RandomPoint rnd.point : G) sid
    (byteOfNat j :: SerializeCiphertexts (ReRandVector rpk.epk encRow.Cval rnd.rerand))
  have hshare : ((List.range S.length).map nonce)[j]? = some (nonce j) := by
    rw [List.getElem?_map, List.getElem?_range hj]
    rfl
  unfold Helper.ConvertRow Helper.blindAndHint NewHelper Helper.genNonces RandomKeyFromPoint
  simp only [hc, hshare]
  exact ⟨_, rfl⟩

theorem byteOfNat_val_mod (n : Nat) : (byteOfNat n).val = n % 256 := by
  unfold byteOfNat
  simp [Fin.ofNat]

/-- The map built by `NewHelper` sends a source id of the list to its last position
in the list. -/
theorem sourceIndices_last (s : SourceID) :
    ∀ (S : List SourceID) (n : Nat) (m : List (SourceID × Nat)), s ∈ S →
      ∃ i, S[i]? = some s ∧ (∀ j, S[j]? = some s → j ≤ i) ∧
        mapGet ((S.enumFrom n).foldl (fun m isrc => mapSet m isrc.2 isrc.1) m) s
          = some (n + i) := by
  intro S
  induction S using List.reverseRecOn with
  | nil => intro n m hs; cases hs
  | append_singleton S x ih =>
    intro n m hs
    rw [List.enumFrom_append, List.foldl_append]
    simp only [List.enumFrom_cons, List.enumFrom_nil, List.foldl_cons, List.foldl_nil]
    rw [mapGet_mapSet]
    by_cases hx : x = s
    · subst hx
      refine ⟨S.length, by simp, ?_, by simp⟩
      intro j hj
      have : j < (S ++ [x]).length := by
        rcases Nat.lt_or_ge j (S ++ [x]).length with h | h
        · exact h
        · rw [List.getElem?_eq_none h] at hj
          cases hj
      simp at this
      omega
    · have hsS : s ∈ S := by
        rcases List.mem_append.mp hs with h | h
        · exact h
        · simp at h
          exact absurd h.symm hx
      obtain ⟨i, hi, hmax, hget⟩ := ih n m hsS
      have hilt : i < S.length := by
        rcases Nat.lt_or_ge i S.length with h | h
        · exact h
        · rw [List.getElem?_eq_none h] at hi
          cases hi
      refine ⟨i, ?_, ?_, ?_⟩
      · rw [List.getElem?_append_left hilt]
        exact hi
      · intro j hj
        rcases Nat.lt_or_ge j S.length with h | h
        · rw [List.getElem?_append_left h] at hj
          exact hmax j hj
        · rw [List.getElem?_append_right h] at hj
          rcases Nat.eq_zero_or_pos (j - S.length) with h0 | h0
          · rw [h0] at hj
            simp at hj
            exact absurd hj hx
          · rw [List.getElem?_eq_none (by simp only [List.length_singleton]; omega)] at hj
            cases hj
      · rw [if_neg hx]
        exact hget

/-! ## Claim C31 -/

theorem length_SymmetricEncrypt [SymLib] (key p c : Bytes)
    (h : SymmetricEncrypt key p = .ok c) : c.length = p.length := by
  unfold SymmetricEncrypt ctr at h
  split at h
  · cases h
    rw [List.length_zipWith, SymLib.keyStream_length, Nat.min_self]
  · cases h

theorem length_ReRandVector (pk : PublicKey G) (cts : List (Ciphertext G)) (r : Nat → Scalar G) :
    (ReRandVector pk cts r).length = cts.length := by
  unfold ReRandVector
  simp

theorem PKEDecrypt_ReRand (x r : Scalar G) (ct : Ciphertext G) :
    PKEDecrypt (PKEKeyGen x).1 (ReRand (PKEKeyGen x).2 ct r) = PKEDecrypt (PKEKeyGen x).1 ct := by
  have h0 : Encrypts x ct (PKEDecrypt (PKEKeyGen x).1 ct).m := by
    have hinv : ScalarExp ct.c0 (-x) * ScalarExp ct.c0 x = 1 := by
      rw [← ScalarExp_add, neg_add_cancel, ScalarExp_zero]
    simp only [Encrypts, PKEDecrypt, PKEKeyGen, Mul, Scalar.Neg]
    rw [mul_assoc, hinv, mul_one]
  rw [PKEDecrypt_encrypts x _ _ (ReRand_encrypts x r ct _ h0)]

theorem forall₂_ReRandVector (x : Scalar G) (r : Nat → Scalar G) :
    ∀ (cts : List (Ciphertext G)) (n : Nat),
      List.Forall₂ (fun c1 c => PKEDecrypt (PKEKeyGen x).1 c1 = PKEDecrypt (PKEKeyGen x).1 c)
        ((cts.enumFrom n).map (fun ict => ReRand (PKEKeyGen x).2 ict.2 (r ict.1))) cts := by
  intro cts
  induction cts with
  | nil => intro n; exact List.Forall₂.nil
  | cons c rest ih =>
    intro n
    exact List.Forall₂.cons (PKEDecrypt_ReRand x _ c) (ih (n + 1))

/-- C31 (counterexamples): with the 257 sources of `sources257` and the table index
256, the plaintext of the blob of the row that `ConvertRow` returns (for a row
without value ciphertexts) is the single byte 0, not 256; and for a row with one
value ciphertext whose re-randomization has the identity as first point (scalar 0
on a ciphertext with `c0` the identity), the blob has 35 bytes, not 1 + 66. -/
theorem ConvertRow_blob_counterexamples :
    ((NewHelper [1] sources257 1 (11 : Scalar ModelPoint) (fun _ => 13) []).ConvertRow
        { bpk := (PKEKeyGen 3).2, epk := (PKEKeyGen 5).2 } { Cuid := ⟨Gen, Gen⟩, Cval := [] } 256
        ((runAB ModelPoint).convRnd 0)).bind
      (fun crow => SymmetricDecrypt (KeyFromPoint (RandomPoint ((runAB ModelPoint).convRnd 0).point
        : ModelPoint) [1]) crow.CVal) = .ok [0] ∧
    ((NewHelper [1] sourcesAB 1 (11 : Scalar ModelPoint) (fun _ => 13) []).ConvertRow
        { bpk := (PKEKeyGen 3).2, epk := (PKEKeyGen 5).2 }
        { Cuid := ⟨Gen, Gen⟩, Cval := [⟨1, Gen⟩] } 0
        { conv := 13, point := 17, rerand := fun _ => 0, pad := 23, hint := 29 }).map
      (fun crow => crow.CVal.length) = .ok 35 := by
  constructor <;> decide!

/-- C31 (amended): for every row with `n` value ciphertexts, every table index `t`
below the number of sources and below 256, and randomness for which no re-randomized
value ciphertext has the identity as a component, `ConvertRow` returns a row whose
`CVal` has `1 + 66 * n` bytes; decrypted with the key derived from the fresh point
of the row it is the byte `t` followed by the serialization of `n` ciphertexts,
which deserializes to them, and these decrypt under `esk` to the same messages, in
the same order, as the value ciphertexts of the input. -/
theorem ConvertRow_blob [SymLib] (sid : Bytes) (S : List SourceID) (nRows : Nat)
    (b e k : Scalar G) (nonce : Nat → Scalar G) (perm : List Nat) (encRow : EncRow G) (t : Nat)
    (rnd : ConvRand G) (ht : t < S.length) (h256 : t < 256)
    (hreg : ∀ ct ∈ ReRandVector (PKEKeyGen e).2 encRow.Cval rnd.rerand, ct.c0 ≠ 1 ∧ ct.c1 ≠ 1) :
    ∃ (crow : EncRowWithHint G) (first : Byte) (cts : List (Ciphertext G)),
      (NewHelper sid S nRows k nonce perm).ConvertRow
        { bpk := (PKEKeyGen b).2, epk := (PKEKeyGen e).2 } encRow t rnd = .ok crow ∧
      crow.CVal.length = 1 + 66 * encRow.Cval.length ∧
      SymmetricDecrypt (KeyFromPoint (RandomPoint rnd.point : G) sid) crow.CVal
        = .ok (first :: SerializeCiphertexts cts) ∧
      first.val = t ∧ cts.length = encRow.Cval.length ∧
      (DeserializeCiphertexts (SerializeCiphertexts cts) : Except Fault (List (Ciphertext G)))
        = .ok cts ∧
      List.Forall₂ (fun c1 c => PKEDecrypt (PKEKeyGen e).1 c1 = PKEDecrypt (PKEKeyGen e).1 c)
        cts encRow.Cval := by
  obtain ⟨crow, hcrow⟩ := ConvertRow_ok sid S nRows k nonce perm
    { bpk := (PKEKeyGen b).2, epk := (PKEKeyGen e).2 } encRow t rnd ht
  obtain ⟨_, hblob, _, _⟩ := ConvertRow_fields sid S nRows k nonce perm
    { bpk := (PKEKeyGen b).2, epk := (PKEKeyGen e).2 } encRow t rnd ht crow hcrow
  refine ⟨crow, byteOfNat t, ReRandVector (PKEKeyGen e).2 encRow.Cval rnd.rerand, hcrow, ?_,
    SymmetricDecrypt_SymmetricEncrypt _ _ _ hblob, byteOfNat_val t (by omega),
    length_ReRandVector _ _ _, DeserializeCiphertexts_SerializeCiphertexts _ hreg,
    forall₂_ReRandVector e rnd.rerand encRow.Cval 0⟩
  rw [length_SymmetricEncrypt _ _ _ hblob, List.length_cons, SerializeCiphertexts_eq,
    length_flatten_Serialize _ hreg, length_ReRandVector]
  omega

/-- C31 (witness): the row `encRowExample` with the table index 1 of two sources, in
the model. -/
theorem ConvertRow_blob_witness :
    ∃ (crow : EncRowWithHint ModelPoint) (first : Byte) (cts : List (Ciphertext ModelPoint)),
      (NewHelper [1] sourcesAB 1 (11 : Scalar ModelPoint) (fun _ => 13) []).ConvertRow
        { bpk := (PKEKeyGen 3).2, epk := (PKEKeyGen 5).2 } (encRowExample ModelPoint) 1
        ((runAB ModelPoint).convRnd 0) = .ok crow ∧
      crow.CVal.length = 1 + 66 * 1 ∧
      SymmetricDecrypt (KeyFromPoint (RandomPoint ((runAB ModelPoint).convRnd 0).point
        : ModelPoint) [1]) crow.CVal = .ok (first :: SerializeCiphertexts cts) ∧
      first.val = 1 := by
  obtain ⟨crow, first, cts, h1, h2, h3, h4, _⟩ :=
    ConvertRow_blob [1] sourcesAB 1 (3 : Scalar ModelPoint) 5 11 (fun _ => 13) []
      (encRowExample ModelPoint) 1 ((runAB ModelPoint).convRnd 0) (by decide) (by decide)
      (by decide!)
  exact ⟨crow, first, cts, h1, h2, h3, h4⟩

/-! ## Claim C32 -/

/-- C32: after `NewHelper(sid, sources, nRows)` the slice `padKeyShares` holds exactly
`len(sources)` scalars and `padKey` is their sum, the zero scalar when `sources` is
empty; neither is nil, and `ConvertTablesStream` of this helper never returns the
error `Nonces not generated`. -/
theorem NewHelper_nonces [SymLib] (sid : Bytes) (S : List SourceID) (nRows : Nat)
    (k : Scalar G) (nonce : Nat → Scalar G) (perm : List Nat) :
    ∃ shares : List (Scalar G),
      (NewHelper sid S nRows k nonce perm).padKeyShares = some shares ∧
      shares.length = S.length ∧
      (NewHelper sid S nRows k nonce perm).padKey = some shares.sum ∧
      (S = [] → (NewHelper sid S nRows k nonce perm).padKey = some 0) ∧
      ∀ (rpk : PublicKeyTuple G) (tasks : List (ConvertRowTask G)) (rnd : Nat → ConvRand G),
        (NewHelper sid S nRows k nonce perm).ConvertTablesStream rpk tasks rnd
          ≠ .error (.error
            "nonceerr, Nonces not generated. Please call GenNonces() before calling this function") := by
  refine ⟨(List.range S.length).map nonce, rfl, by simp, ?_, ?_, ?_⟩
  · show some (nonceSum ((List.range S.length).map nonce)) = _
    rw [nonceSum_eq_sum]
  · intro hS
    subst hS
    show some (nonceSum ((List.range 0).map nonce)) = _
    rw [nonceSum_eq_sum]
    rfl
  · intro rpk tasks rnd hcontra
    unfold Helper.ConvertTablesStream at hcontra
    rw [if_neg (by simp [NewHelper, Helper.genNonces])] at hcontra
    exact convertLoop_not_error _ _ _ _ _ _ _ hcontra _ rfl

/-! ## Claim C33 -/

/-- The workers of `ConvertTablesStream` store the row of the `n`-th completed task
at the slot `rowPerm[permIndex]` and leave the other slots as they are. -/
theorem convertLoop_slots [SymLib] (h : Helper G) (rpk : PublicKeyTuple G)
    (rnd : Nat → ConvRand G) (hnodup : h.rowPerm.Nodup) :
    ∀ (tasks : List (ConvertRowTask G)) (res : EncTableWithHint G) (i : Nat),
      (∀ j ∈ h.rowPerm, j < res.length) →
      i + tasks.length ≤ h.rowPerm.length →
      (∀ n task, tasks[n]? = some task →
        ∃ crow, h.ConvertRow rpk task.EncRowMsg task.TableIndex (rnd (i + n)) = .ok crow) →
      ∃ (res1 : EncTableWithHint G) (crows : List (EncRowWithHint G)),
        convertLoop h rpk rnd tasks res i = .ok res1 ∧
        res1.length = res.length ∧ crows.length = tasks.length ∧
        (∀ n task, tasks[n]? = some task →
          ∃ crow slot,
            h.ConvertRow rpk task.EncRowMsg task.TableIndex (rnd (i + n)) = .ok crow ∧
            crows[n]? = some crow ∧ h.rowPerm[i + n]? = some slot ∧
            res1[slot]? = some (some crow)) ∧
        (∀ j, (∀ n, n < tasks.length → h.rowPerm[i + n]? ≠ some j) → res1[j]? = res[j]?) := by
  intro tasks
  induction tasks with
  | nil =>
    intro res i _ _ _
    exact ⟨res, [], rfl, rfl, rfl, fun n task hn => by simp at hn, fun _ _ => rfl⟩
  | cons task rest ih =>
    intro res i hbound hlen hconv
    obtain ⟨crow, hcrow⟩ := hconv 0 task (by simp)
    rw [Nat.add_zero] at hcrow
    have hi : i < h.rowPerm.length := by simp at hlen; omega
    have hslot : h.rowPerm[i]? = some h.rowPerm[i] := List.getElem?_eq_getElem hi
    have hslotlt : h.rowPerm[i] < res.length := hbound _ (List.getElem_mem hi)
    obtain ⟨res1, crows, hloop, hlen1, hclen, hrows, hkeep⟩ :=
      ih (res.set h.rowPerm[i] (some crow)) (i + 1)
        (fun j hj => by rw [List.length_set]; exact hbound j hj)
        (by simp at hlen ⊢; omega)
        (fun n t hn => by
          have := hconv (n + 1) t (by simpa using hn)
          rwa [show i + (n + 1) = i + 1 + n from by omega] at this)
    refine ⟨res1, crow :: crows, ?_, ?_, ?_, ?_, ?_⟩
    · rw [convertLoop]
      simp only [hcrow, hslot, hslotlt, if_true]
      exact hloop
    · rw [hlen1, List.length_set]
    · simp [hclen]
    · intro n t hn
      cases n with
      | zero =>
        simp only [List.getElem?_cons_zero, Option.some.injEq] at hn
        subst hn
        refine ⟨crow, h.rowPerm[i], by rw [Nat.add_zero]; exact hcrow,
          List.getElem?_cons_zero, by rw [Nat.add_zero]; exact hslot, ?_⟩
        rw [hkeep]
        · exact List.getElem?_set_self hslotlt
        · intro n hn hcontra
          have hlt : i + 1 + n < h.rowPerm.length := by simp at hlen; omega
          rw [List.getElem?_eq_getElem hlt] at hcontra
          have := (@List.Nodup.getElem_inj_iff _ h.rowPerm hnodup (i + 1 + n) hlt i hi).mp
            (Option.some.inj hcontra)
          omega
      | succ n =>
        obtain ⟨c, slot, h1, h2, h3, h4⟩ := hrows n t (by simpa using hn)
        refine ⟨c, slot, ?_, by simpa using h2, ?_, h4⟩
        · rwa [show i + (n + 1) = i + 1 + n from by omega]
        · rwa [show i + (n + 1) = i + 1 + n from by omega]
    · intro j hj
      rw [hkeep j (fun n hn => by
        have := hj (n + 1) (by simp; omega)
        rwa [show i + (n + 1) = i + 1 + n from by omega] at this)]
      have hne : h.rowPerm[i] ≠ j := by
        intro heq
        have := hj 0 (by simp)
        rw [Nat.add_zero, hslot, heq] at this
        exact this rfl
      rw [List.getElem?_set_ne hne]

/-- C33: a helper built by `NewHelper` whose `rowPerm` is a permutation of
`0, ..., nRows * len(sources) - 1`, given exactly `len(sources) * nRows` tasks with
table indices below `len(sources)`, in the order in which they complete.
`ConvertTablesStream` returns a table in which the row converted from the `n`-th
task is at the slot `rowPerm[n]`; no slot is the slot of two tasks, every slot is
the slot of a task, and the table is a permutation of the converted rows. -/
theorem ConvertTablesStream_slots [SymLib] (sid : Bytes) (S : List SourceID) (nRows : Nat)
    (k : Scalar G) (nonce : Nat → Scalar G) (perm : List Nat) (rpk : PublicKeyTuple G)
    (tasks : List (ConvertRowTask G)) (rnd : Nat → ConvRand G)
    (hperm : IsOrder perm (nRows * S.length)) (hlen : tasks.length = S.length * nRows)
    (hidx : ∀ task ∈ tasks, task.TableIndex < S.length) :
    ∃ (res : EncTableWithHint G) (crows : List (EncRowWithHint G)),
      (NewHelper sid S nRows k nonce perm).ConvertTablesStream rpk tasks rnd = .ok res ∧
      res.length = tasks.length ∧ crows.length = tasks.length ∧
      (∀ n task, tasks[n]? = some task →
        ∃ crow slot,
          (NewHelper sid S nRows k nonce perm).ConvertRow rpk task.EncRowMsg task.TableIndex
            (rnd n) = .ok crow ∧
          crows[n]? = some crow ∧ perm[n]? = some slot ∧ res[slot]? = some (some crow)) ∧
      (∀ n m slot : Nat, perm[n]? = some slot → perm[m]? = some slot → n = m) ∧
      (∀ slot : Nat, slot < res.length → ∃ n, n < tasks.length ∧ perm[n]? = some slot) ∧
      List.Perm res (crows.map some) := by
  have hplen : perm.length = nRows * S.length := by
    rw [hperm.length_eq, List.length_range]
  have hnodup : perm.Nodup := hperm.nodup_iff.mpr (List.nodup_range _)
  have hmem : ∀ j, j ∈ perm ↔ j < nRows * S.length := by
    intro j
    rw [hperm.mem_iff, List.mem_range]
  have hrow : (NewHelper sid S nRows k nonce perm).rowPerm = perm := rfl
  obtain ⟨res, crows, hloop, hlen1, hclen, hrows, _⟩ :=
    convertLoop_slots (NewHelper sid S nRows k nonce perm) rpk rnd (by rw [hrow]; exact hnodup)
      tasks (List.replicate perm.length none) 0
      (fun j hj => by
        rw [hrow] at hj
        rw [List.length_replicate, hplen]
        exact (hmem j).mp hj)
      (by rw [hrow, hplen, hlen, Nat.mul_comm]; omega)
      (fun n task hn => ConvertRow_ok sid S nRows k nonce perm rpk _ _ _
        (hidx task (List.getElem?_mem hn)))
  rw [List.length_replicate] at hlen1
  have hrows1 : ∀ n task, tasks[n]? = some task →
      ∃ crow slot,
        (NewHelper sid S nRows k nonce perm).ConvertRow rpk task.EncRowMsg task.TableIndex
          (rnd n) = .ok crow ∧
        crows[n]? = some crow ∧ perm[n]? = some slot ∧ res[slot]? = some (some crow) := by
    intro n task hn
    obtain ⟨crow, slot, h1, h2, h3, h4⟩ := hrows n task hn
    rw [Nat.zero_add] at h1 h3
    exact ⟨crow, slot, h1, h2, h3, h4⟩
  have htlen : tasks.length = perm.length := by rw [hlen, hplen, Nat.mul_comm]
  refine ⟨res, crows, ?_, by rw [hlen1, htlen], hclen, hrows1, ?_, ?_, ?_⟩
  · unfold Helper.ConvertTablesStream
    rw [if_neg (by simp [NewHelper, Helper.genNonces])]
    exact hloop
  · intro n m slot hn hm
    obtain ⟨hn1, hn2⟩ := List.getElem?_eq_some.mp hn
    obtain ⟨hm1, hm2⟩ := List.getElem?_eq_some.mp hm
    exact (@List.Nodup.getElem_inj_iff _ perm hnodup n hn1 m hm1).mp (hn2.trans hm2.symm)
  · intro slot hslot
    have : slot ∈ perm := (hmem slot).mpr (by rw [← hplen, ← hlen1]; exact hslot)
    obtain ⟨n, hn, hget⟩ := List.getElem_of_mem this
    exact ⟨n, by rw [htlen]; exact hn, by rw [List.getElem?_eq_getElem hn, hget]⟩
  · have hmap : perm.map (fun slot => res[slot]?.getD none) = crows.map some := by
      apply List.ext_getElem?
      intro n
      rw [List.getElem?_map, List.getElem?_map]
      rcases Nat.lt_or_ge n tasks.length with hn | hn
      · obtain ⟨crow, slot, _, h2, h3, h4⟩ :=
          hrows1 n tasks[n] (List.getElem?_eq_getElem hn)
        rw [h2, h3]
        simp [h4]
      · rw [List.getElem?_eq_none (by omega), List.getElem?_eq_none (by omega)]
        rfl
    rw [← hmap]
    have h1 := hperm.map (fun slot => res[slot]?.getD none)
    rw [← hplen, ← hlen1, map_range_getElem?_getD] at h1
    exact h1.symm

/-- C33 (witness): the helper for the two sources `s1`, `s2` and two rows per source
with `rowPerm = [2, 0, 3, 1]`, given four tasks, in the model. -/
theorem ConvertTablesStream_slots_witness :
    ∃ (res : EncTableWithHint ModelPoint) (crows : List (EncRowWithHint ModelPoint)),
      (NewHelper [1] sourcesAB 2 (11 : Scalar ModelPoint) (fun _ => 13) [2, 0, 3, 1]).ConvertTablesStream
        { bpk := (PKEKeyGen 3).2, epk := (PKEKeyGen 5).2 }
        [⟨encRowExample ModelPoint, 0⟩, ⟨encRowExample ModelPoint, 1⟩,
         ⟨encRowExample ModelPoint, 1⟩, ⟨encRowExample ModelPoint, 0⟩]
        (runAB ModelPoint).convRnd = .ok res ∧
      res.length = 4 ∧ List.Perm res (crows.map some) := by
  obtain ⟨res, crows, h1, h2, _, _, _, _, h3⟩ :=
    ConvertTablesStream_slots [1] sourcesAB 2 (11 : Scalar ModelPoint) (fun _ => 13)
      [2, 0, 3, 1] { bpk := (PKEKeyGen 3).2, epk := (PKEKeyGen 5).2 }
      [⟨encRowExample ModelPoint, 0⟩, ⟨encRowExample ModelPoint, 1⟩,
       ⟨encRowExample ModelPoint, 1⟩, ⟨encRowExample ModelPoint, 0⟩]
      (runAB ModelPoint).convRnd (by decide) (by decide) (by decide)
  exact ⟨res, crows, h1, h2, h3⟩

/-! ## The candidates of the embedding loop -/

theorem bytesToNat_natBytesAux :
    ∀ (fuel x : Nat) (acc : Bytes), x ≤ fuel →
      bytesToNat (natBytesAux fuel x acc) = x * 256 ^ acc.length + bytesToNat acc := by
  intro fuel
  induction fuel with
  | zero =>
    intro x acc hx
    have : x = 0 := by omega
    subst this
    simp [natBytesAux]
  | succ fuel ih =>
    intro x acc hx
    rw [natBytesAux]
    by_cases h0 : x = 0
    · subst h0
      simp
    · rw [if_neg h0, ih _ _ (by omega), bytesToNat_cons, List.length_cons, pow_succ]
      have hv : (Fin.ofNat (x % 256) : Byte).val = x % 256 := by
        simp only [Fin.ofNat]
        omega
      rw [hv]
      have := Nat.div_add_mod x 256
      generalize 256 ^ acc.length = K at *
      nlinarith

theorem bytesToNat_natBytes (x : Nat) : bytesToNat (natBytes x) = x := by
  rw [natBytes, bytesToNat_natBytesAux x x [] le_rfl]
  simp [bytesToNat]

/-- The embedding loop returns the first candidate that has a square root. -/
theorem embedLoop_first :
    ∀ (n fuel i x y : Nat), n < fuel → i + n ≤ 255 →
      (∀ j, j < n → ModSqrt (polynomial (x + j)) curveP = none) →
      ModSqrt (polynomial (x + n)) curveP = some y →
      embedLoop fuel i x = .ok (x + n, y) := by
  intro n
  induction n with
  | zero =>
    intro fuel i x y hf _ _ hy
    obtain ⟨f, rfl⟩ : ∃ f, fuel = f + 1 := ⟨fuel - 1, by omega⟩
    rw [embedLoop]
    rw [Nat.add_zero] at hy
    rw [hy]
    rfl
  | succ n ih =>
    intro fuel i x y hf hi hnone hy
    obtain ⟨f, rfl⟩ : ∃ f, fuel = f + 1 := ⟨fuel - 1, by omega⟩
    rw [embedLoop]
    have h0 := hnone 0 (by omega)
    rw [Nat.add_zero] at h0
    rw [h0]
    simp only
    rw [if_neg (by omega)]
    have := ih f (i + 1) (x + 1) y (by omega) (by omega)
      (fun j hj => by
        have := hnone (j + 1) (by omega)
        rwa [show x + (j + 1) = x + 1 + j from by omega] at this)
      (by rwa [show x + (n + 1) = x + 1 + n from by omega] at hy)
    rw [this]
    congr 2
    omega

/-- The embedding loop fails when none of its candidates has a square root. -/
theorem embedLoop_none :
    ∀ (fuel i x : Nat), 1 ≤ fuel → i + fuel = 256 →
      (∀ j, j < fuel → ModSqrt (polynomial (x + j)) curveP = none) →
      embedLoop fuel i x = .error (.error "Failed to find a valid message point") := by
  intro fuel
  induction fuel with
  | zero => intro i x h; omega
  | succ f ih =>
    intro i x _ hi hnone
    rw [embedLoop]
    have h0 := hnone 0 (by omega)
    rw [Nat.add_zero] at h0
    rw [h0]
    simp only
    by_cases h255 : i = 255
    · rw [if_pos h255]
    · rw [if_neg h255]
      exact ih (i + 1) (x + 1) (by omega) (by omega) (fun j hj => by
        have := hnone (j + 1) (by omega)
        rwa [show x + (j + 1) = x + 1 + j from by omega] at this)

theorem firstCandidate_gt (p : Bytes) (hlen : 31 ≤ p.length) : curveP < firstCandidate p := by
  unfold firstCandidate
  rw [bytesToNat_cons]
  have h3 : ((4 : Byte).val) = 4 := rfl
  have h4 : (256 : Nat) ^ 32 ≤ 256 ^ (p ++ [(2 : Byte)]).length := by
    apply Nat.pow_le_pow_right (by norm_num)
    simp only [List.length_append, List.length_singleton]
    omega
  have h5 := curveP_lt
  rw [h3]
  omega

/-- What `NewMessageFromBytes` does with the candidate that the loop returns. -/
theorem NewMessageFromBytes_of_loop (p : Bytes) (hne : p ≠ []) (x y : Nat)
    (hloop : embedLoop 255 1 (firstCandidate p) = .ok (x, y)) :
    (p.length ≤ 30 → ∃ m : Message G,
      (NewMessageFromBytes p : Except Fault (Message G)) = .ok m ∧ IsOnCurve x y = true ∧
      CurveGroup.unmarshalBinary ((4 : Byte) :: (fillBytes 32 x ++ fillBytes 32 y)) = some m.m ∧
      CurveGroup.marshalBinaryCompress m.m = byteOfNat (2 + y % 2) :: fillBytes 32 x) ∧
    (31 ≤ p.length → (NewMessageFromBytes p : Except Fault (Message G))
      = .error (.panic "crypto/elliptic: attempted operation on invalid point")) := by
  have hlen0 : p.length ≠ 0 := fun h => hne (List.length_eq_zero.mp h)
  have hloop2 : embedLoop 255 1 (bytesToNat ((4 : Byte) :: (p ++ [(2 : Byte)]))) = .ok (x, y) :=
    hloop
  obtain ⟨_, hx1, hx2⟩ := embedLoop_ok _ _ _ _ _ hloop
  constructor
  · intro hlen
    have hlt := firstCandidate_lt p hlen
    have hcurve := embedLoop_IsOnCurve _ _ _ _ _ hloop (by omega)
    obtain ⟨Q, hQ, hQ2⟩ := CurveGroup.unmarshal_uncompressed (G := G) x y hcurve
    refine ⟨{ m := Q }, ?_, hcurve, hQ, hQ2⟩
    unfold NewMessageFromBytes
    simp only [hlen0, if_false]
    simp only [hloop2, ellipticMarshal, hcurve, or_true, if_true, Point.UnmarshalBinary, hQ]
  · intro hlen
    have hfirst := firstCandidate_gt p hlen
    have hnot : ¬ ((x = 0 ∧ y = 0) ∨ IsOnCurve x y = true) := by
      rintro (⟨h0, _⟩ | h1)
      · omega
      · have := (IsOnCurve_lt h1).1
        omega
    unfold NewMessageFromBytes
    simp only [hlen0, if_false]
    simp only [hloop2, ellipticMarshal, hnot, if_false]

theorem eq_cons_append_of_middle (L p : Bytes) (hp : p ≠ [])
    (h : (L.take (L.length - 1)).drop 1 = p) : ∃ a z, L = a :: (p ++ [z]) := by
  cases L with
  | nil => simp at h; exact absurd h hp
  | cons a t =>
    have ht : t ≠ [] := by
      rintro rfl
      simp at h
      exact hp h
    refine ⟨a, t.getLast ht, ?_⟩
    have h1 : (a :: t).take ((a :: t).length - 1) = a :: t.dropLast := by
      rw [← List.dropLast_eq_take, List.dropLast_cons_of_ne_nil ht]
    rw [h1, List.drop_one, List.tail_cons] at h
    rw [← h, List.dropLast_append_getLast ht]

/-! ## Claims C34 and C35 -/

/-- C34: `NewMessageFromBytes` returns `Empty message unsupported` for the empty
payload.  For a non-empty payload `p` it tries the candidates `x0`, `x0 + 1`, ...,
`x0 + 254`, where `x0` is the integer `0x04 || p || 0x02`, in this order: it returns
the error `Failed to find a valid message point` exactly when `ModSqrt` finds no
square root of `x^3 - 3x + b` for any of the 255 candidates; and when `x0 + n` is the
first candidate with a square root `y`, it returns the point `(x0 + n, y)` if `p` has
at most 30 bytes, and panics in `elliptic.Marshal` if `p` has 31 bytes or more. -/
theorem NewMessageFromBytes_candidates (p : Bytes) :
    (p = [] → (NewMessageFromBytes p : Except Fault (Message G))
      = .error (.error "Empty message unsupported")) ∧
    (p ≠ [] →
      ((NewMessageFromBytes p : Except Fault (Message G))
          = .error (.error "Failed to find a valid message point") ↔
        ∀ j, j < 255 → ModSqrt (polynomial (firstCandidate p + j)) curveP = none) ∧
      ∀ n y, n < 255 →
        (∀ j, j < n → ModSqrt (polynomial (firstCandidate p + j)) curveP = none) →
        ModSqrt (polynomial (firstCandidate p + n)) curveP = some y →
        (p.length ≤ 30 → ∃ m : Message G,
          (NewMessageFromBytes p : Except Fault (Message G)) = .ok m ∧
          IsOnCurve (firstCandidate p + n) y = true ∧
          CurveGroup.unmarshalBinary
            ((4 : Byte) :: (fillBytes 32 (firstCandidate p + n) ++ fillBytes 32 y)) = some m.m ∧
          CurveGroup.marshalBinaryCompress m.m
            = byteOfNat (2 + y % 2) :: fillBytes 32 (firstCandidate p + n)) ∧
        (31 ≤ p.length → (NewMessageFromBytes p : Except Fault (Message G))
          = .error (.panic "crypto/elliptic: attempted operation on invalid point"))) := by
  constructor
  · rintro rfl
    rfl
  · intro hne
    have hfirst : ∀ n y, n < 255 →
        (∀ j, j < n → ModSqrt (polynomial (firstCandidate p + j)) curveP = none) →
        ModSqrt (polynomial (firstCandidate p + n)) curveP = some y →
        embedLoop 255 1 (firstCandidate p) = .ok (firstCandidate p + n, y) :=
      fun n y hn hnone hy => embedLoop_first n 255 1 _ y hn (by omega) hnone hy
    refine ⟨⟨?_, ?_⟩, ?_⟩
    · intro hfail j hj
      by_contra hsome
      classical
      have hex : ∃ n, n < 255 ∧ ModSqrt (polynomial (firstCandidate p + n)) curveP ≠ none :=
        ⟨j, hj, hsome⟩
      obtain ⟨hn, hn2⟩ := Nat.find_spec hex
      obtain ⟨y, hy⟩ := Option.isSome_iff_exists.mp (Option.ne_none_iff_isSome.mp hn2)
      have hmin : ∀ i, i < Nat.find hex →
          ModSqrt (polynomial (firstCandidate p + i)) curveP = none := by
        intro i hi
        by_contra hc
        exact Nat.find_min hex hi ⟨by omega, hc⟩
      have hloop := hfirst _ y hn hmin hy
      obtain ⟨h30, h31⟩ := NewMessageFromBytes_of_loop (G := G) p hne _ _ hloop
      rcases Nat.lt_or_ge p.length 31 with hl | hl
      · obtain ⟨m, hm, _⟩ := h30 (by omega)
        rw [hm] at hfail
        cases hfail
      · rw [h31 hl] at hfail
        cases hfail
    · intro hnone
      have hlen0 : p.length ≠ 0 := fun h => hne (List.length_eq_zero.mp h)
      have hloop := embedLoop_none 255 1 (firstCandidate p) (by norm_num) (by norm_num) hnone
      have hloop2 : embedLoop 255 1 (bytesToNat ((4 : Byte) :: (p ++ [(2 : Byte)])))
          = .error (.error "Failed to find a valid message point") := hloop
      unfold NewMessageFromBytes
      simp only [hlen0, if_false, hloop2]
    · intro n y hn hnone hy
      exact NewMessageFromBytes_of_loop p hne _ _ (hfirst n y hn hnone hy)

/-- C34 (witness): in the model, the payload of 31 letters `a`, whose third candidate
is the first with a square root, makes `NewMessageFromBytes` panic; the payload `a`,
whose second candidate is, gives a message. -/
theorem NewMessageFromBytes_candidates_witness :
    (NewMessageFromBytes payload31 : Except Fault (Message ModelPoint))
      = .error (.panic "crypto/elliptic: attempted operation on invalid point") ∧
    ∃ m : Message ModelPoint, NewMessageFromBytes [97] = .ok m := by
  obtain ⟨y, hy⟩ := Option.isSome_iff_exists.mp
    (show (ModSqrt (polynomial (firstCandidate payload31 + 2)) curveP).isSome = true by decide!)
  obtain ⟨z, hz⟩ := Option.isSome_iff_exists.mp
    (show (ModSqrt (polynomial (firstCandidate [97] + 1)) curveP).isSome = true by decide!)
  constructor
  · exact (((NewMessageFromBytes_candidates payload31).2 (by decide)).2 2 y (by decide)
      (fun j hj => by interval_cases j <;> decide!) hy).2 (by decide)
  · obtain ⟨m, hm, _⟩ := (((NewMessageFromBytes_candidates (G := ModelPoint) [97]).2
      (by decide)).2 1 z (by decide) (fun j hj => by interval_cases j; decide!) hz).1
      (by decide)
    exact ⟨m, hm⟩

/-- C35: for a non-empty payload `p`, the candidates of trials 1 to 254 have the
bytes `0x04`, `p`, and one counter byte `0x02`, ..., `0xff`, and stripping the first
and the last byte gives `p`.  The candidate of trial 255, `x0 + 254`, does not: the
counter `0x02 + 254` does not fit in the byte and carries into the payload, so its
bytes are not `0x04`, `p` and one more byte, and stripping the first and the last
byte does not give `p`.  Every candidate that the loop returns is one of these 255. -/
theorem candidate_counter_byte (p : Bytes) (hne : p ≠ []) :
    (∀ j, j ≤ 253 →
      natBytes (firstCandidate p + j) = (4 : Byte) :: (p ++ [byteOfNat (2 + j)]) ∧
      ((natBytes (firstCandidate p + j)).take
        ((natBytes (firstCandidate p + j)).length - 1)).drop 1 = p) ∧
    (∀ c : Byte, natBytes (firstCandidate p + 254) ≠ (4 : Byte) :: (p ++ [c])) ∧
    ((natBytes (firstCandidate p + 254)).take
      ((natBytes (firstCandidate p + 254)).length - 1)).drop 1 ≠ p ∧
    (∀ x y, embedLoop 255 1 (firstCandidate p) = .ok (x, y) →
      ∃ j, j ≤ 254 ∧ x = firstCandidate p + j) := by
  have hx0 : firstCandidate p = 4 * 256 ^ (p.length + 1) + bytesToNat p * 256 + 2 := by
    unfold firstCandidate
    rw [bytesToNat_cons, bytesToNat_append, List.length_append, List.length_singleton]
    rfl
  have hK : 256 ≤ 256 ^ p.length := by
    have hpos : 1 ≤ p.length := by
      rcases Nat.eq_zero_or_pos p.length with h | h
      · exact absurd (List.length_eq_zero.mp h) hne
      · exact h
    calc 256 = 256 ^ 1 := by norm_num
      _ ≤ 256 ^ p.length := Nat.pow_le_pow_right (by norm_num) hpos
  have hcarry : ∀ (a z : Byte), natBytes (firstCandidate p + 254) ≠ a :: (p ++ [z]) := by
    intro a z h
    have h1 := congrArg bytesToNat h
    rw [bytesToNat_natBytes, hx0, bytesToNat_cons, bytesToNat_append, List.length_append,
      List.length_singleton, pow_succ] at h1
    have hz := z.isLt
    generalize 256 ^ p.length = K at h1 hK
    generalize bytesToNat p = B at h1
    obtain ⟨M, hM⟩ : ∃ M, M = a.val * K := ⟨_, rfl⟩
    have e1 : a.val * (K * 256) = M * 256 := by rw [hM]; ring
    rw [e1] at h1
    have h2 : M = 4 * K + 1 := by omega
    have hdvd : K ∣ 1 :=
      (Nat.dvd_add_right (Dvd.intro_left 4 rfl)).mp ⟨a.val, by rw [← h2, hM]; ring⟩
    have := Nat.le_of_dvd (by norm_num) hdvd
    omega
  refine ⟨?_, fun c => hcarry 4 c, ?_, ?_⟩
  · intro j hj
    have hbytes : natBytes (firstCandidate p + j) = (4 : Byte) :: (p ++ [byteOfNat (2 + j)]) := by
      rw [firstCandidate_add p j hj]
      exact natBytes_bytesToNat _ (fun _ => (by decide : (4 : Byte) ≠ 0))
    refine ⟨hbytes, ?_⟩
    rw [hbytes]
    simp
  · intro h
    obtain ⟨a, z, haz⟩ := eq_cons_append_of_middle _ p hne h
    exact hcarry a z haz
  · intro x y hloop
    obtain ⟨_, h1, h2⟩ := embedLoop_ok _ _ _ _ _ hloop
    exact ⟨x - firstCandidate p, by omega, by omega⟩

/-- C35 (witness): the payload `a`: the candidate of trial 255 has the bytes
`04 62 00`, and stripping the first and the last leaves `b`. -/
theorem candidate_counter_byte_witness :
    natBytes (firstCandidate [97] + 254) = [4, 98, 0] ∧
    ((natBytes (firstCandidate [97] + 254)).take
      ((natBytes (firstCandidate [97] + 254)).length - 1)).drop 1 ≠ [97] :=
  ⟨by decide, (candidate_counter_byte [97] (by decide)).2.2.1⟩

/-! ## Claim C36 -/

/-- C36: for every byte string `d` and block size `bs` from 1 to 255, `pad(d, bs)` is
`d` followed by `k` copies of the byte `k`, where `k = bs - len(d) % bs` lies in
`1..bs` (so the branch `padding == 0` is not taken and `byte(k)` is `k`); the length
of the result is the smallest multiple of `bs` strictly greater than `len(d)`, and a
full block is appended when `len(d)` is a multiple of `bs`. -/
theorem pad_spec (d : Bytes) (bs : Nat) (h1 : 1 ≤ bs) (h2 : bs ≤ 255) :
    pad d bs = d ++ List.replicate (bs - d.length % bs) (byteOfNat (bs - d.length % bs)) ∧
    (byteOfNat (bs - d.length % bs)).val = bs - d.length % bs ∧
    1 ≤ bs - d.length % bs ∧ bs - d.length % bs ≤ bs ∧ bs - d.length % bs ≠ 0 ∧
    bs ∣ (pad d bs).length ∧ d.length < (pad d bs).length ∧
    (∀ m, bs ∣ m → d.length < m → (pad d bs).length ≤ m) ∧
    (bs ∣ d.length → (pad d bs).length = d.length + bs) := by
  have hmod : d.length % bs < bs := Nat.mod_lt _ (by omega)
  have hlen := length_pad d bs h1
  have hdm := Nat.div_add_mod d.length bs
  refine ⟨pad_eq d bs h1, byteOfNat_val _ (by omega), by omega, by omega, by omega,
    ⟨_, hlen⟩, ?_, ?_, ?_⟩
  · rw [hlen, Nat.mul_add, Nat.mul_one]
    omega
  · rintro m ⟨q, rfl⟩ hq
    rw [hlen]
    apply Nat.mul_le_mul_left
    have : d.length / bs < q := (Nat.div_lt_iff_lt_mul (by omega)).mpr (by rw [Nat.mul_comm]; exact hq)
    omega
  · intro hdvd
    have h0 : d.length % bs = 0 := Nat.mod_eq_zero_of_dvd hdvd
    rw [hlen, Nat.mul_add, Nat.mul_one]
    omega

/-- C36 (witness): 100 bytes give 128 bytes for the block size 32 and 124 bytes for
the block size 31. -/
theorem pad_spec_witness :
    (pad (List.replicate 100 9) 32 = List.replicate 100 9 ++ List.replicate 28 28 ∧
      (pad (List.replicate 100 9) 32).length = 128) ∧
    (pad (List.replicate 100 9) 31 = List.replicate 100 9 ++ List.replicate 24 24 ∧
      (pad (List.replicate 100 9) 31).length = 124) :=
  ⟨⟨(pad_spec (List.replicate 100 9) 32 (by decide) (by decide)).1, rfl⟩,
   ⟨(pad_spec (List.replicate 100 9) 31 (by decide) (by decide)).1, rfl⟩⟩

/-! ## Claim C37 -/

theorem decryptLoop_ok_iff [SymLib] (r : Receiver G) (invMask : G) :
    ∀ (l : List (EncValueWithHint G)) (out vals : List (SourceID × Bytes)),
      decryptLoop r invMask l out = .ok vals ↔
        ∃ es : List (SourceID × Bytes), List.Forall₂ (DecryptsTo r invMask) l es ∧
          vals = es.foldl (fun o e => mapSet o e.1 e.2) out := by
  intro l
  induction l with
  | nil =>
    intro out vals
    constructor
    · intro h
      rw [decryptLoop] at h
      cases h
      exact ⟨[], List.Forall₂.nil, rfl⟩
    · rintro ⟨es, hF, rfl⟩
      cases hF
      rfl
  | cons dge rest ih =>
    intro out vals
    constructor
    · intro h
      rw [decryptLoop] at h
      simp only at h
      split at h
      · cases h
      · rename_i bytes hdec
        split at h
        · cases h
        · rename_i first encValBytes
          split at h
          · cases h
          · rename_i sourceID hsrc
            split at h
            · cases h
            · rename_i encVal hdes
              split at h
              · cases h
              · rename_i data hdata
                obtain ⟨es, hF, hvals⟩ := (ih _ _).mp h
                exact ⟨(sourceID, data) :: es,
                  List.Forall₂.cons ⟨first, encValBytes, encVal, hdec, hsrc, hdes, hdata⟩ hF,
                  hvals⟩
    · rintro ⟨es, hF, rfl⟩
      cases hF with
      | cons hD hF =>
        obtain ⟨first, restBytes, encVal, hdec, hsrc, hdes, hdata⟩ := hD
        rw [decryptLoop]
        simp only [hdec, hsrc, hdes, hdata]
        exact (ih _ _).mpr ⟨_, hF, rfl⟩

theorem groupMask_perm (r : Receiver G) (group group1 : List (EncRowWithHint G))
    (hperm : List.Perm group1 group) : r.groupMask group1 = r.groupMask group := by
  have hfold : ∀ (l : List (EncValueWithHint G)) (a : G),
      l.foldl (fun mask dge => Mul mask dge.hint.m) a = a * (l.map (fun dge => dge.hint.m)).prod := by
    intro l
    induction l with
    | nil => intro a; simp
    | cons d l ih =>
      intro a
      rw [List.foldl_cons, ih]
      simp [Mul, mul_assoc]
  unfold Receiver.groupMask Receiver.decGroup
  rw [hfold, hfold]
  congr 1
  exact ((hperm.map _).map _).prod_eq

/-- A map that was filled entry by entry and has as many entries as were written has
pairwise distinct keys among the written ones. -/
theorem nodup_of_length_foldl_mapSet {K V : Type} [DecidableEq K] :
    ∀ (es m : List (K × V)), (m.map Prod.fst).Nodup →
      (es.foldl (fun o e => mapSet o e.1 e.2) m).length ≤ m.length + es.length ∧
      ((es.foldl (fun o e => mapSet o e.1 e.2) m).length = m.length + es.length →
        (m.map Prod.fst ++ es.map Prod.fst).Nodup) := by
  intro es
  induction es with
  | nil => intro m hm; simpa using hm
  | cons e es ih =>
    intro m hm
    have hm1 := keys_mapSet_nodup m e.1 e.2 hm
    obtain ⟨hle, hnd⟩ := ih (mapSet m e.1 e.2) hm1
    have hkeys := keys_mapSet m e.1 e.2
    have hlen : (mapSet m e.1 e.2).length
        = if e.1 ∈ m.map Prod.fst then m.length else m.length + 1 := by
      have := congrArg List.length hkeys
      rw [List.length_map] at this
      rw [this]
      split <;> simp
    rw [List.foldl_cons, List.length_cons]
    by_cases hmem : e.1 ∈ m.map Prod.fst
    · rw [if_pos hmem] at hlen
      refine ⟨by omega, fun h => by omega⟩
    · rw [if_neg hmem] at hlen
      refine ⟨by omega, fun h => ?_⟩
      have := hnd (by omega)
      rw [mapSet_of_not_mem m e.1 e.2 hmem, List.map_append, List.append_assoc] at this
      simpa using this

theorem decryptGroup_ok_perm [SymLib] (r : Receiver G) (group group1 : List (EncRowWithHint G))
    (hperm : List.Perm group1 group) (out : List (SourceID × Bytes))
    (h : r.decryptGroup group = .ok out) :
    ∃ (es es1 : List (SourceID × Bytes)), List.Perm es1 es ∧ es.length = group.length ∧
      out = es.foldl (fun o e => mapSet o e.1 e.2) [] ∧
      r.decryptGroup group1 = .ok (es1.foldl (fun o e => mapSet o e.1 e.2) []) := by
  rw [decryptGroup_eq] at h
  obtain ⟨es, hF, hout⟩ := (decryptLoop_ok_iff r _ _ _ _).mp h
  have hp : List.Perm (r.decGroup group1) (r.decGroup group) := hperm.map _
  obtain ⟨es1, hF1, hp1⟩ := List.perm_comp_forall₂ hp hF
  refine ⟨es, es1, hp1, ?_, hout, ?_⟩
  · rw [← hF.length_eq]
    unfold Receiver.decGroup
    simp
  · rw [decryptGroup_eq, groupMask_perm r group group1 hperm]
    exact (decryptLoop_ok_iff r _ _ _ _).mpr ⟨es1, hF1, rfl⟩

/-- C37 (counterexample): a bucket of two rows that `ConvertRow` returned, both under
the table index 0, for the same uid with the values `x` and `y` (the two nonce
shares of the helper are equal, so the mask is the one both rows were blinded
with).  `decryptGroup` returns the map `s1 -> y`, and for the two rows in the other
order the map `s1 -> x`. -/
theorem decryptGroup_same_source :
    (NewReceiver [1] sourcesAB (3 : Scalar ModelPoint) 5).decryptGroup
        [sameUidRow ModelPoint [120] 0 0, sameUidRow ModelPoint [121] 0 1]
      = .ok [([115, 49], [121])] ∧
    (NewReceiver [1] sourcesAB (3 : Scalar ModelPoint) 5).decryptGroup
        [sameUidRow ModelPoint [121] 0 1, sameUidRow ModelPoint [120] 0 0]
      = .ok [([115, 49], [120])] := by
  constructor <;> decide!

/-- C37 (amended): for every bucket and every permutation of its rows the mask is
the same, and `decryptGroup` fails on the one exactly when it fails on the other.
When `decryptGroup` returns a map with as many entries as the bucket has rows (no
two rows are of the same source), it returns the same map for the permuted bucket:
the same entries, and the same value for every source id. -/
theorem decryptGroup_perm [SymLib] (r : Receiver G) (group group1 : List (EncRowWithHint G))
    (hperm : List.Perm group1 group) :
    r.groupMask group1 = r.groupMask group ∧
    ((∃ e, r.decryptGroup group = .error e) ↔ (∃ e, r.decryptGroup group1 = .error e)) ∧
    ∀ out, r.decryptGroup group = .ok out → out.length = group.length →
      ∃ out1, r.decryptGroup group1 = .ok out1 ∧ List.Perm out1 out ∧
        ∀ s, mapGet out1 s = mapGet out s := by
  have hok : ∀ (g g1 : List (EncRowWithHint G)), List.Perm g1 g →
      (∃ e, r.decryptGroup g = .error e) → ∃ e, r.decryptGroup g1 = .error e := by
    intro g g1 hp ⟨e, he⟩
    cases h1 : r.decryptGroup g1 with
    | error e1 => exact ⟨e1, rfl⟩
    | ok out1 =>
      obtain ⟨_, es1, _, _, _, h2⟩ := decryptGroup_ok_perm r g1 g hp.symm out1 h1
      rw [he] at h2
      cases h2
  refine ⟨groupMask_perm r group group1 hperm, ⟨hok group group1 hperm,
    hok group1 group hperm.symm⟩, ?_⟩
  intro out hout hlen
  obtain ⟨es, es1, hp1, hlen1, hes, h1⟩ := decryptGroup_ok_perm r group group1 hperm out hout
  have hnd : (es.map Prod.fst).Nodup := by
    have := (nodup_of_length_foldl_mapSet es ([] : List (SourceID × Bytes)) List.nodup_nil).2
      (by rw [← hes, hlen, hlen1]; simp)
    simpa using this
  have hnd1 : (es1.map Prod.fst).Nodup := ((hp1.map Prod.fst).nodup_iff).mpr hnd
  have hfold : ∀ l : List (SourceID × Bytes), (l.map Prod.fst).Nodup →
      l.foldl (fun o e => mapSet o e.1 e.2) [] = l := by
    intro l hl
    have := foldl_mapSet_nodup (fun e : SourceID × Bytes => e.1) (fun e => e.2) l []
      (by simpa using hl)
    simpa using this
  rw [hfold es hnd] at hes
  rw [hfold es1 hnd1] at h1
  subst hes
  exact ⟨es1, h1, hp1, fun s => mapGet_perm es1 out hp1 hnd1 s⟩

/-- C37 (witness): the bucket of the rows converted for the uid `b` under the table
indices 0 and 1, and the same two rows in the other order, in the model. -/
theorem decryptGroup_perm_witness :
    ∃ out1, (NewReceiver [1] sourcesAB (3 : Scalar ModelPoint) 5).decryptGroup
        [sameUidRow ModelPoint [121] 1 1, sameUidRow ModelPoint [120] 0 0] = .ok out1 ∧
      List.Perm out1 [([115, 49], [120]), ([115, 50], [121])] := by
  have h0 : (NewReceiver [1] sourcesAB (3 : Scalar ModelPoint) 5).decryptGroup
      [sameUidRow ModelPoint [120] 0 0, sameUidRow ModelPoint [121] 1 1]
      = .ok [([115, 49], [120]), ([115, 50], [121])] := by decide!
  obtain ⟨out1, h1, h2, _⟩ :=
    (decryptGroup_perm (NewReceiver [1] sourcesAB (3 : Scalar ModelPoint) 5)
      [sameUidRow ModelPoint [120] 0 0, sameUidRow ModelPoint [121] 1 1]
      [sameUidRow ModelPoint [121] 1 1, sameUidRow ModelPoint [120] 0 0]
      (List.Perm.swap _ _ _)).2.2 [([115, 49], [120]), ([115, 50], [121])] h0 (by simp)
  exact ⟨out1, h1, h2⟩

/-! ## Claim C38 -/

/-- C38: `Helper.Convert` gives every row of the table of a source `s` of the list
passed to `NewHelper` a position of `s` in that list as table index (the last one,
the only one when the source ids are distinct).  For a source id that is not in the
list the lookup does not fail: the rows get the table index 0, and `Convert` returns
what it returns when the table is filed under the first source of the list. -/
theorem Convert_table_index [SymLib] (sid : Bytes) (S : List SourceID) (nRows : Nat)
    (k : Scalar G) (nonce : Nat → Scalar G) (perm : List Nat)
    (tables1 tables2 : List (SourceID × EncTable G)) (s : SourceID) (table : EncTable G) :
    (NewHelper sid S nRows k nonce perm).tasks (tables1 ++ (s, table) :: tables2)
      = (NewHelper sid S nRows k nonce perm).tasks tables1 ++
        table.map (fun row =>
          { EncRowMsg := { Cuid := row.Cuid, Cval := row.Cval }
            TableIndex := (NewHelper sid S nRows k nonce perm).indexOfSource s }) ++
        (NewHelper sid S nRows k nonce perm).tasks tables2 ∧
    (s ∈ S → ∃ i, S[i]? = some s ∧ (∀ j, S[j]? = some s → j ≤ i) ∧
      (NewHelper sid S nRows k nonce perm).indexOfSource s = i) ∧
    (s ∉ S → (NewHelper sid S nRows k nonce perm).indexOfSource s = 0 ∧
      ∀ first rest, S = first :: rest → S.Nodup →
        ∀ (rpk : PublicKeyTuple G) (order : List Nat) (rnd : Nat → ConvRand G),
          (NewHelper sid S nRows k nonce perm).Convert rpk
              (tables1 ++ (s, table) :: tables2) order rnd
            = (NewHelper sid S nRows k nonce perm).Convert rpk
              (tables1 ++ (first, table) :: tables2) order rnd) := by
  have htasks : ∀ s1 : SourceID,
      (NewHelper sid S nRows k nonce perm).tasks (tables1 ++ (s1, table) :: tables2)
      = (NewHelper sid S nRows k nonce perm).tasks tables1 ++
        table.map (fun row =>
          { EncRowMsg := { Cuid := row.Cuid, Cval := row.Cval }
            TableIndex := (NewHelper sid S nRows k nonce perm).indexOfSource s1 }) ++
        (NewHelper sid S nRows k nonce perm).tasks tables2 := by
    intro s1
    unfold Helper.tasks Helper.indexOfSource
    rw [List.flatMap_append, List.flatMap_cons, List.append_assoc]
  have hnot : s ∉ S → (NewHelper sid S nRows k nonce perm).indexOfSource s = 0 := by
    intro hs
    unfold Helper.indexOfSource NewHelper Helper.genNonces
    simp only [List.enum]
    rw [sourceIndices_not_mem s S 0 [] hs]
    rfl
  refine ⟨htasks s, ?_, ?_⟩
  · intro hs
    obtain ⟨i, hi, hmax, hget⟩ := sourceIndices_last s S 0 [] hs
    refine ⟨i, hi, hmax, ?_⟩
    unfold Helper.indexOfSource NewHelper Helper.genNonces
    simp only [List.enum]
    rw [hget]
    simp
  · intro hs
    refine ⟨hnot hs, ?_⟩
    intro first rest hS hnd rpk order rnd
    have hfirst : (NewHelper sid S nRows k nonce perm).indexOfSource first = 0 := by
      subst hS
      have h0 := sourceIndices_getElem (first :: rest) 0 [] hnd 0 (by simp)
      simp only [List.getElem_cons_zero, Nat.add_zero] at h0
      unfold Helper.indexOfSource NewHelper Helper.genNonces
      simp only [List.enum]
      rw [h0]
      rfl
    unfold Helper.Convert
    rw [htasks s, htasks first, hnot hs, hfirst]

/-- C38 (witness): the helper for the sources `s1`, `s2`.  The rows of `s2` get the
table index 1, the rows of the unknown source `z` the table index 0, and `Convert`
of a table of `z` and a table of `s2` returns a table. -/
theorem Convert_table_index_witness :
    (∃ i, sourcesAB[i]? = some [115, 50] ∧ (∀ j, sourcesAB[j]? = some [115, 50] → j ≤ i) ∧
      (NewHelper [1] sourcesAB 1 (11 : Scalar ModelPoint) (fun _ => 13) [1, 0]).indexOfSource
        [115, 50] = i) ∧
    (NewHelper [1] sourcesAB 1 (11 : Scalar ModelPoint) (fun _ => 13) [1, 0]).indexOfSource
      [122] = 0 ∧
    ((NewHelper [1] sourcesAB 1 (11 : Scalar ModelPoint) (fun _ => 13) [1, 0]).Convert
        { bpk := (PKEKeyGen 3).2, epk := (PKEKeyGen 5).2 }
        [([122], [{ Cuid := ⟨Gen, Gen⟩, Cval := [] }]),
         ([115, 50], [{ Cuid := ⟨Gen, Gen⟩, Cval := [] }])] [0, 1]
        (runAB ModelPoint).convRnd).map
      (fun res => res.map Option.isSome) = .ok [true, true] :=
  ⟨(Convert_table_index [1] sourcesAB 1 (11 : Scalar ModelPoint) (fun _ => 13) [1, 0] [] []
      [115, 50] []).2.1 (by decide),
   ((Convert_table_index [1] sourcesAB 1 (11 : Scalar ModelPoint) (fun _ => 13) [1, 0] [] []
      [122] []).2.2 (by decide)).1,
   by decide!⟩

/-! ## Claim C39 -/

/-- C39: the row that `ConvertRow` returns for the table index `t` carries a blob
whose plaintext starts with the byte `byte(t)`, that is `t % 256`: the index itself
for `t` from 0 to 255, another number for `t` of 256 or more, and then the position
of another source when the source ids are distinct.  `decryptGroup` reads the source
index from that one byte: a row whose blob decrypts to `first || rest` is filed
under `sourceIDs[first]`. -/
theorem tableIndex_byte [SymLib] (sid : Bytes) (S : List SourceID) (nRows : Nat)
    (k : Scalar G) (nonce : Nat → Scalar G) (perm : List Nat) (rpk : PublicKeyTuple G)
    (encRow : EncRow G) (t : Nat) (rnd : ConvRand G) (ht : t < S.length) :
    (∃ crow first rest,
      (NewHelper sid S nRows k nonce perm).ConvertRow rpk encRow t rnd = .ok crow ∧
      SymmetricDecrypt (KeyFromPoint (RandomPoint rnd.point : G) sid) crow.CVal
        = .ok (first :: rest) ∧
      first.val = t % 256 ∧ (t < 256 → first.val = t) ∧
      (256 ≤ t → first.val ≠ t ∧ (S.Nodup → S[first.val]? ≠ S[t]?))) ∧
    ∀ (r : Receiver G) (invMask : G) (dge : EncValueWithHint G)
      (others : List (EncValueWithHint G)) (out vals : List (SourceID × Bytes))
      (first : Byte) (rest : Bytes),
      SymmetricDecrypt (KeyFromPoint (Mul dge.blindedkey.m invMask) r.sid) dge.val
        = .ok (first :: rest) →
      decryptLoop r invMask (dge :: others) out = .ok vals →
      ∃ sourceID data, r.sourceIDs[first.val]? = some sourceID ∧
        decryptLoop r invMask others (mapSet out sourceID data) = .ok vals := by
  constructor
  · obtain ⟨crow, hcrow⟩ := ConvertRow_ok sid S nRows k nonce perm rpk encRow t rnd ht
    obtain ⟨_, hblob, _, _⟩ :=
      ConvertRow_fields sid S nRows k nonce perm rpk encRow t rnd ht crow hcrow
    refine ⟨crow, byteOfNat t, _, hcrow, SymmetricDecrypt_SymmetricEncrypt _ _ _ hblob,
      byteOfNat_val_mod t, ?_, ?_⟩
    · intro h
      rw [byteOfNat_val_mod, Nat.mod_eq_of_lt h]
    · intro h
      have hlt : t % 256 < 256 := Nat.mod_lt _ (by norm_num)
      refine ⟨by rw [byteOfNat_val_mod]; omega, ?_⟩
      intro hS heq
      rw [byteOfNat_val_mod] at heq
      have h1 : t % 256 < S.length := by omega
      rw [List.getElem?_eq_getElem h1, List.getElem?_eq_getElem ht] at heq
      have := (@List.Nodup.getElem_inj_iff _ S hS (t % 256) h1 t ht).mp (Option.some.inj heq)
      omega
  · intro r invMask dge others out vals first rest hdec hloop
    rw [decryptLoop] at hloop
    simp only [hdec] at hloop
    split at hloop
    · cases hloop
    · rename_i sourceID hsrc
      split at hloop
      · cases hloop
      · split at hloop
        · cases hloop
        · rename_i data _
          exact ⟨sourceID, data, hsrc, hloop⟩

/-- C39 (witness): the 257 sources of `sources257` and the table index 256: the byte
is 0. -/
theorem tableIndex_byte_witness :
    ∃ (crow : EncRowWithHint ModelPoint) (first : Byte) (rest : Bytes),
      (NewHelper [1] sources257 1 (11 : Scalar ModelPoint) (fun _ => 13) []).ConvertRow
        { bpk := (PKEKeyGen 3).2, epk := (PKEKeyGen 5).2 } (encRowExample ModelPoint) 256
        ((runAB ModelPoint).convRnd 0) = .ok crow ∧
      SymmetricDecrypt (KeyFromPoint (RandomPoint ((runAB ModelPoint).convRnd 0).point
        : ModelPoint) [1]) crow.CVal = .ok (first :: rest) ∧
      first.val = 0 := by
  obtain ⟨crow, first, rest, h1, h2, h3, _⟩ :=
    (tableIndex_byte [1] sources257 1 (11 : Scalar ModelPoint) (fun _ => 13) []
      { bpk := (PKEKeyGen 3).2, epk := (PKEKeyGen 5).2 } (encRowExample ModelPoint) 256
      ((runAB ModelPoint).convRnd 0) (by rw [length_sources257]; decide)).1
  exact ⟨crow, first, rest, h1, h2, h3⟩

/-! ## A second model: encodings that share the x-coordinate of inverse points

In the group of `ModelPoint` with another encoding, the elements `x + 1` and
`modelOrder - (x + 1)`, inverse to each other, stand for the compressed encodings
`0x02 || X` and `0x03 || X`, as the two points of a curve with the x-coordinate `x`. -/

/-- The elements of the second model. -/
def SymPoint : Type := ModelPoint

instance SymPoint.decEq : DecidableEq SymPoint := inferInstanceAs (DecidableEq ModelPoint)

instance SymPoint.commGroup : CommGroup SymPoint := ModelPoint.commGroup

/-- The compressed encoding in the second model. -/
def SymPoint.marshal (e : SymPoint) : Bytes :=
  if ModelPoint.val e = 0 then [0]
  else if ModelPoint.val e ≤ modelOrder / 2 then
    (2 : Byte) :: fillBytes 32 (ModelPoint.val e - 1)
  else (3 : Byte) :: fillBytes 32 (modelOrder - ModelPoint.val e - 1)

/-- Decoding in the second model. -/
def SymPoint.unmarshal (data : Bytes) : Option SymPoint :=
  match data with
  | [] => none
  | b :: rest =>
    if b = 0 ∧ rest = [] then some (ModelPoint.ofNat 0)
    else if b = 2 ∧ rest.length = 32 then some (ModelPoint.ofNat (bytesToNat rest + 1))
    else if b = 3 ∧ rest.length = 32 then
      some (ModelPoint.ofNat (modelOrder - (bytesToNat rest + 1)))
    else if b = 4 ∧ rest.length = 64 then
      let x := bytesToNat (rest.take 32)
      let y := bytesToNat (rest.drop 32)
      if IsOnCurve x y = true then
        some (ModelPoint.ofNat (if y % 2 = 0 then x + 1 else modelOrder - (x + 1)))
      else none
    else none

theorem SymPoint.decode_encode (e : SymPoint) :
    SymPoint.unmarshal (SymPoint.marshal e) = some e := by
  have hlt := ModelPoint.isLt e
  have hpow : (256 : Nat) ^ 32 = 0x10000000000000000000000000000000000000000000000000000000000000000 := by
    norm_num
  unfold SymPoint.marshal
  by_cases h0 : ModelPoint.val e = 0
  · simp only [h0, if_true, SymPoint.unmarshal, and_self]
    congr 1
    apply ModelPoint.ext_val
    simp [ModelPoint.ofNat, h0]
  · simp only [h0, if_false]
    by_cases h1 : ModelPoint.val e ≤ modelOrder / 2
    · simp only [h1, if_true, SymPoint.unmarshal, length_fillBytes, bytesToNat_fillBytes]
      simp only [show ¬ ((2 : Byte) = 0 ∧ fillBytes 32 (ModelPoint.val e - 1) = []) from
        fun h => absurd h.1 (by decide), if_false, and_self, if_true]
      congr 1
      apply ModelPoint.ext_val
      simp only [ModelPoint.ofNat]
      unfold modelOrder at *
      omega
    · simp only [h1, if_false, SymPoint.unmarshal, length_fillBytes, bytesToNat_fillBytes]
      simp only [show ¬ ((3 : Byte) = 0 ∧
          fillBytes 32 (modelOrder - ModelPoint.val e - 1) = []) from
        fun h => absurd h.1 (by decide), if_false,
        show ¬ ((3 : Byte) = 2 ∧ True) from fun h => absurd h.1 (by decide), and_self, if_true]
      congr 1
      apply ModelPoint.ext_val
      simp only [ModelPoint.ofNat]
      unfold modelOrder at *
      omega

theorem SymPoint.decode_uncompressed (x y : Nat) (h : IsOnCurve x y = true) :
    ∃ Q : SymPoint,
      SymPoint.unmarshal ((4 : Byte) :: (fillBytes 32 x ++ fillBytes 32 y)) = some Q ∧
      SymPoint.marshal Q = byteOfNat (2 + y % 2) :: fillBytes 32 x := by
  obtain ⟨hx, hy⟩ := IsOnCurve_lt h
  have hP := curveP_lt
  have hpow : (256 : Nat) ^ 32 = 0x10000000000000000000000000000000000000000000000000000000000000000 := by
    norm_num
  refine ⟨ModelPoint.ofNat (if y % 2 = 0 then x + 1 else modelOrder - (x + 1)), ?_, ?_⟩
  · simp only [SymPoint.unmarshal, List.length_append, length_fillBytes]
    simp only [show ¬ ((4 : Byte) = 0 ∧ fillBytes 32 x ++ fillBytes 32 y = []) from
      fun h => absurd h.1 (by decide), if_false,
      show ¬ ((4 : Byte) = 2 ∧ 32 + 32 = 32) from by decide,
      show ¬ ((4 : Byte) = 3 ∧ 32 + 32 = 32) from by decide, true_and]
    rw [List.take_left' (length_fillBytes 32 x), List.drop_left' (length_fillBytes 32 x)]
    have e1 : bytesToNat (fillBytes 32 x) = x := by
      rw [bytesToNat_fillBytes, Nat.mod_eq_of_lt (lt_trans hx hP)]
    have e2 : bytesToNat (fillBytes 32 y) = y := by
      rw [bytesToNat_fillBytes, Nat.mod_eq_of_lt (lt_trans hy hP)]
    simp only [e1, e2, h, if_true]
  · rcases Nat.mod_two_eq_zero_or_one y with hs | hs
    · rw [if_pos hs]
      have hval : ModelPoint.val (ModelPoint.ofNat (x + 1)) = x + 1 := by
        simp only [ModelPoint.ofNat]
        apply Nat.mod_eq_of_lt
        unfold modelOrder
        omega
      have h1 : x + 1 ≤ modelOrder / 2 := by unfold modelOrder; omega
      simp only [SymPoint.marshal, hval, Nat.succ_ne_zero, if_false, h1, if_true,
        Nat.add_sub_cancel, hs]
      rfl
    · rw [if_neg (by omega)]
      have hval : ModelPoint.val (ModelPoint.ofNat (modelOrder - (x + 1)))
          = modelOrder - (x + 1) := by
        simp only [ModelPoint.ofNat]
        apply Nat.mod_eq_of_lt
        unfold modelOrder
        omega
      have h0 : modelOrder - (x + 1) ≠ 0 := by unfold modelOrder; omega
      have h1 : ¬ (modelOrder - (x + 1) ≤ modelOrder / 2) := by unfold modelOrder; omega
      have h2 : modelOrder - (modelOrder - (x + 1)) - 1 = x := by unfold modelOrder; omega
      simp only [SymPoint.marshal, hval, h0, if_false, h1, h2, hs]
      rfl

instance SymPoint.curveGroup : CurveGroup SymPoint where
  order := modelOrder
  order_pos := modelOrder_pos
  pow_order P := ModelPoint.curveGroup.pow_order P
  generator := ModelPoint.ofNat 1
  hashToElement := ModelPoint.hash
  marshalBinaryCompress := SymPoint.marshal
  unmarshalBinary := SymPoint.unmarshal
  marshal_length P hP := by
    have h0 : ModelPoint.val P ≠ 0 :=
      fun h => hP (ModelPoint.ext_val (by rw [h]; rfl))
    unfold SymPoint.marshal
    rw [if_neg h0]
    split <;> simp [length_fillBytes]
  unmarshal_marshal := SymPoint.decode_encode
  unmarshal_uncompressed := SymPoint.decode_uncompressed

/-- The element of the second model with the encoding `0x02 || X` for the
x-coordinate of the message that embeds the payload `a`. -/
def symPointExample : SymPoint := ModelPoint.ofNat (firstCandidate [97] + 1 + 1)

/-! ## Claim C40 -/

/-- C40: let the compressed encodings of a point `P` and of `P.Invert()` be a sign
byte `0x02` or `0x03` followed by the same bytes `X` of the x-coordinate, with
different sign bytes (the two points of the curve with that x-coordinate).  Then
`GetMessageBytes` of `P.Invert()` is `GetMessageBytes` of `P`; when it returns bytes,
these are the bytes of the x-coordinate without the first and the last; the two
points differ, and two rows whose unblinded pseudonyms are `P` and `P.Invert()` are
filed in the same bucket by `JoinTablesStream`. -/
theorem GetMessageBytes_Invert (P : G) (b b1 : Byte) (X : Bytes)
    (hb : b = 2 ∨ b = 3) (hb1 : b1 = 2 ∨ b1 = 3) (hne : b ≠ b1)
    (hP : Point.MarshalBinary P = b :: X)
    (hI : Point.MarshalBinary (Point.Invert P) = b1 :: X) :
    Message.GetMessageBytes { m := Point.Invert P } = Message.GetMessageBytes { m := P } ∧
    (∀ key, Message.GetMessageBytes { m := P } = .ok key →
      key = ((natBytes (bytesToNat X)).take ((natBytes (bytesToNat X)).length - 1)).drop 1) ∧
    Point.Invert P ≠ P ∧
    ∀ (r : Receiver G) (row1 row2 : EncRowWithHint G) (key : Bytes),
      (OPRFUnblind r.recvSK.bsk row1.Cnyme).m = P →
      (OPRFUnblind r.recvSK.bsk row2.Cnyme).m = Point.Invert P →
      Message.GetMessageBytes { m := P } = .ok key →
      groupLoop r [some row1, some row2] [] = .ok [(key, [row1, row2])] := by
  have hun : UnmarshalCompressed (b1 :: X) = UnmarshalCompressed (b :: X) := by
    unfold UnmarshalCompressed
    simp only [hb, hb1, true_and]
  have heq : Message.GetMessageBytes { m := Point.Invert P }
      = Message.GetMessageBytes { m := P } := by
    unfold Message.GetMessageBytes
    simp only [hP, hI, hun]
  refine ⟨heq, ?_, ?_, ?_⟩
  · intro key hkey
    unfold Message.GetMessageBytes at hkey
    simp only [hP] at hkey
    unfold UnmarshalCompressed at hkey
    simp only [hb, true_and] at hkey
    split at hkey
    · cases hkey
    · rename_i x hx
      split at hx
      · split at hx
        · split at hx
          · cases hx
          · cases hx
            split at hkey
            · cases hkey
            · cases hkey
              rfl
        · cases hx
      · cases hx
  · intro hcontra
    rw [hcontra, hP] at hI
    exact hne (List.cons.inj hI).1
  · intro r row1 row2 key h1 h2 hkey
    have e1 : OPRFUnblind r.recvSK.bsk row1.Cnyme = { m := P } := by
      rw [← h1]
    have e2 : OPRFUnblind r.recvSK.bsk row2.Cnyme = { m := Point.Invert P } := by
      rw [← h2]
    rw [groupLoop, e1, hkey]
    simp only
    rw [groupLoop, e2, heq, hkey]
    simp only
    rw [groupLoop]
    simp [mapSet, mapGet]

/-- C40 (witness): in the second model, the point with the encoding `0x02 || X` for
the x-coordinate of the message of the payload `a`, and its inverse, with the
encoding `0x03 || X`: both give the bytes `a`. -/
theorem GetMessageBytes_Invert_witness :
    Message.GetMessageBytes { m := Point.Invert symPointExample }
      = Message.GetMessageBytes { m := symPointExample } ∧
    Message.GetMessageBytes { m := symPointExample } = .ok [97] ∧
    Point.Invert symPointExample ≠ symPointExample := by
  have h := GetMessageBytes_Invert symPointExample 2 3
    (fillBytes 32 (firstCandidate [97] + 1)) (Or.inl rfl) (Or.inr rfl) (by decide)
    (by decide!) (by decide!)
  exact ⟨h.1, by decide!, h.2.2.1⟩

end MPPJ
